import Mathlib

/-!
# APC (Arbitrary Precision Calculator): embedding of the magnitude engine

The C sources keep a number as a doubly linked list of `int` digits, addressed by a
`head` pointer (most significant digit) and a `tail` pointer (least significant digit).
Here such a head/tail pair is the list of the node data read from head to tail; the pair
`NULL`/`NULL` is the empty list.  A cursor that walks `prev` links from the tail is the
list of the nodes it still has to visit, nearest first (so the reversed list), and the
cursor being `NULL` is the empty list.

Conventions of the embedding:

* `data_t` is `int`; digits are `Int`.  With digits in `0..9` every intermediate value of the
  engine stays below 100, so no `int` overflow is reachable and `/`, `%` are modelled by the
  truncating `Int.tdiv`, `Int.tmod`.
* `malloc` is assumed to succeed, so `insert_at_first` and `insert_at_last` always return.
* Dereferencing `NULL` is undefined behaviour in C; the embedding reports it as `none`
  (`Outcome.null_deref` for the two looping engines).
* The loops of `division` and `power` take a fuel argument; `Outcome.out_of_fuel` says that
  the loop was still running when the fuel was used up.
* Output parameters (`headR`, and the operand pointers that `division` and `power`
  overwrite) are passed in and returned explicitly.
-/

namespace APC

/-! ## apc.h -/

/-- The enumeration `Status` of apc.h. -/
inductive Status where
  | SUCCESS
  | FAILURE
  | NON_NUMERIC
  | NUMERIC
  | LARGE_1
  | LARGE_2
  | EQUAL
  | EVEN
  | ODD
  deriving DecidableEq, Repr

/-- The digit type of apc.h, `typedef int data_t`; written `Int` in the signatures below. -/
abbrev data_t := Int

/-- A doubly linked list given by its head/tail pair: the node data from head to tail. -/
abbrev Dlist := List Int

/-- How a call of one of the looping engines ends. -/
inductive Outcome (σ : Type) where
  /-- The function returned `status`, leaving the caller's variables as in `s`. -/
  | returned (status : Status) (s : σ)
  /-- The function ended the process with `exit(code)`, the caller's variables being `s`. -/
  | exited (code : Int) (s : σ)
  /-- A `NULL` pointer was dereferenced. -/
  | null_deref
  /-- The loop was still running when the fuel ran out. -/
  | out_of_fuel
  deriving DecidableEq, Repr

/-! ## Common.c -/

/-- Common.c `insert_at_first`: a new node becomes the head. -/
def insert_at_first (l : Dlist) (digit : Int) : Dlist := digit :: l

/-- Common.c `insert_at_last`: a new node becomes the tail. -/
def insert_at_last (l : Dlist) (digit : Int) : Dlist := l ++ [digit]

/-- Common.c `delete_at_first`: nothing to do on `NULL` or on a single node
(`*headR == *tailR`); otherwise head nodes are unlinked while the head is not the tail
and holds 0. -/
def delete_at_first : Dlist → Dlist
  | [] => []
  | [d] => [d]
  | d :: d' :: ds => if d = 0 then delete_at_first (d' :: ds) else d :: d' :: ds

/-- The loop `while( (*headR)->next && (*headR)->data == 0 ) delete_at_first( headR, tailR );`
that closes every engine function.  `none`: `*headR` is `NULL` when the condition is
evaluated.  One call of `delete_at_first` unlinks every leading zero, so the condition is
false when it is evaluated again (`remove_leading_zeroes_delete_at_first`). -/
def remove_leading_zeroes : Dlist → Option Dlist
  | [] => none
  | d :: ds => if ds ≠ [] ∧ d = 0 then some (delete_at_first (d :: ds)) else some (d :: ds)

/-- Common.c `Find_largest`, case 2: the two lists are walked from the head while both
cursors are non-`NULL`; the first differing digit decides. -/
def Find_largest_digits : Dlist → Dlist → Status
  | d1 :: t1, d2 :: t2 =>
    if d1 > d2 then Status.LARGE_1
    else if d1 < d2 then Status.LARGE_2
    else Find_largest_digits t1 t2
  | _, _ => Status.EQUAL

/-- Common.c `Find_largest`: node counts first, then digit by digit. -/
def Find_largest (head1 head2 : Dlist) : Status :=
  let len1 := head1.length
  let len2 := head2.length
  if len1 > len2 then Status.LARGE_1
  else if len2 > len1 then Status.LARGE_2
  else Find_largest_digits head1 head2

/-- Common.c `copy_list` (defined in power.c): the destination is reset and receives the
source digits one by one with `insert_at_last`. -/
def copy_list (src : Dlist) : Dlist := src.foldl insert_at_last []

/-- Common.c `free_list` (defined in power.c): head and tail become `NULL`. -/
def free_list (_l : Dlist) : Dlist := []

/-- The libc function `strstr` on character lists: does `needle` occur in `haystack`? -/
def strstr_chars : List Char → List Char → Bool
  | [], needle => needle.isPrefixOf []
  | c :: cs, needle => needle.isPrefixOf (c :: cs) || strstr_chars cs needle

/-- The libc function `strstr`, as the truth value of its result being non-`NULL`. -/
def strstr (haystack needle : String) : Bool := strstr_chars haystack.toList needle.toList

/-! ## addition.c -/

/-- Iterations of the `while( digits_1 || digits_2 || carry )` loop of `addition` in which
both cursors are `NULL` and only `carry` keeps the loop going.  Every iteration replaces
`carry` by `carry / 10`, so at most `|carry|` iterations happen: that is the first
argument, given by `addition_loop`. -/
def addition_carry : Nat → Int → Dlist → Dlist
  | 0, _, headR => headR
  | n + 1, carry, headR =>
    if carry ≠ 0 then
      let sum := carry
      let digit := sum.tmod 10
      let carry := sum.tdiv 10
      addition_carry n carry (insert_at_first headR digit)
    else headR

/-- Iterations of the loop of `addition` in which `digits_1` is `NULL`. -/
def addition_rest : List Int → Int → Dlist → Dlist
  | [], carry, headR => addition_carry carry.natAbs carry headR
  | d2 :: digits_2, carry, headR =>
    let sum := carry + d2
    let digit := sum.tmod 10
    let carry := sum.tdiv 10
    addition_rest digits_2 carry (insert_at_first headR digit)

/-- The loop `while( digits_1 || digits_2 || carry )` of `addition`; the cursors
`digits_1`, `digits_2` walk from the tails. -/
def addition_loop : List Int → List Int → Int → Dlist → Dlist
  | d1 :: digits_1, d2 :: digits_2, carry, headR =>
    let sum := carry + d1 + d2
    let digit := sum.tmod 10
    let carry := sum.tdiv 10
    addition_loop digits_1 digits_2 carry (insert_at_first headR digit)
  | d1 :: digits_1, [], carry, headR =>
    let sum := carry + d1
    let digit := sum.tmod 10
    let carry := sum.tdiv 10
    addition_loop digits_1 [] carry (insert_at_first headR digit)
  | [], digits_2, carry, headR => addition_rest digits_2 carry headR

/-- The function `addition` of addition.c.  `headR` is the result list handed in by the
caller (empty, by the header comment). -/
def addition (head1 head2 headR : Dlist) : Option (Status × Dlist) :=
  match remove_leading_zeroes (addition_loop head1.reverse head2.reverse 0 headR) with
  | none => none
  | some R => some (Status.SUCCESS, R)

/-! ## subtraction.c -/

/-- One iteration of the loop body of `subtraction` after `d1`, `d2` were fetched: the
difference digit and the new borrow. -/
def subtraction_digit (d1 d2 borrow : Int) : Int × Int :=
  let d1 := d1 - borrow
  if d1 < d2 then (d1 + 10 - d2, 1) else (d1 - d2, 0)

/-- Iterations of the loop of `subtraction` in which `digits_1` is `NULL` (`d1 = 0`). -/
def subtraction_rest : List Int → Int → Dlist → Dlist × Int
  | [], borrow, headR => (headR, borrow)
  | d2 :: digits_2, borrow, headR =>
    let (diff, borrow) := subtraction_digit 0 d2 borrow
    subtraction_rest digits_2 borrow (insert_at_first headR diff)

/-- The loop `while( digits_1 || digits_2 )` of `subtraction`; returns the result list
and the value of `borrow` when the loop ends. -/
def subtraction_loop : List Int → List Int → Int → Dlist → Dlist × Int
  | d1 :: digits_1, d2 :: digits_2, borrow, headR =>
    let (diff, borrow) := subtraction_digit d1 d2 borrow
    subtraction_loop digits_1 digits_2 borrow (insert_at_first headR diff)
  | d1 :: digits_1, [], borrow, headR =>
    let (diff, borrow) := subtraction_digit d1 0 borrow
    subtraction_loop digits_1 [] borrow (insert_at_first headR diff)
  | [], digits_2, borrow, headR => subtraction_rest digits_2 borrow headR

/-- The function `subtraction` of subtraction.c. -/
def subtraction (head1 head2 headR : Dlist) : Option (Status × Dlist) :=
  let larger := Find_largest head1 head2
  if larger = Status.EQUAL then some (Status.SUCCESS, insert_at_first headR 0)
  else
    match remove_leading_zeroes (subtraction_loop head1.reverse head2.reverse 0 headR).1 with
    | none => none
    | some R => some (Status.SUCCESS, R)

/-- The function `Swap_lists` of subtraction.c. -/
def Swap_lists (l1 l2 : Dlist) : Dlist × Dlist := (l2, l1)

/-! ## multiplication.c -/

/-- The inner loop `while( temp1 )` of `multiplication` followed by the statement
`if( carry ) tempR -> data += carry;`.  `temp1` walks the first operand from its tail;
`tempR` walks the result buffer towards its head and is given as the nodes from `tempR`
up to the head (empty: `tempR` is `NULL`).  Returns those nodes with their new data;
`none`: `tempR` is `NULL` when dereferenced. -/
def multiplication_row (d2 : Int) : List Int → List Int → Int → Option (List Int)
  | [], tempR, carry =>
    if carry ≠ 0 then
      match tempR with
      | [] => none
      | r :: prev => some ((r + carry) :: prev)
    else some tempR
  | _ :: _, [], _ => none
  | d1 :: temp1, r :: tempR, carry =>
    let product := d1 * d2 + r + carry
    match multiplication_row d2 temp1 tempR (product.tdiv 10) with
    | none => none
    | some prev => some (product.tmod 10 :: prev)

/-- The outer loop `while( temp2 )` of `multiplication`.  `temp2` walks the second operand
from its tail.  The result buffer is split at `tempR_start`: `below` holds the nodes
between `tempR_start` and the tail (tail first), `start` the nodes from `tempR_start` up
to the head.  Returns the whole buffer, tail first.  `none`: a `NULL` pointer is
dereferenced, in the row or by `tempR_start = tempR_start -> prev`. -/
def multiplication_loop (tail1 : List Int) :
    List Int → List Int → List Int → Option (List Int)
  | [], below, start => some (below ++ start)
  | d2 :: temp2, below, start =>
    match multiplication_row d2 tail1 start 0 with
    | none => none
    | some [] => none
    | some (r :: prev) => multiplication_loop tail1 temp2 (below ++ [r]) prev

/-- The loop `for( i = 0; i < len1 + len2; i++ ) insert_at_first( headR, tailR, 0 );`. -/
def multiplication_zeroes : Nat → Dlist → Dlist
  | 0, headR => headR
  | n + 1, headR => multiplication_zeroes n (insert_at_first headR 0)

/-- The function `multiplication` of multiplication.c. -/
def multiplication (head1 head2 headR : Dlist) : Option (Status × Dlist) :=
  let len1 := head1.length
  let len2 := head2.length
  let headR := multiplication_zeroes (len1 + len2) headR
  match multiplication_loop head1.reverse head2.reverse [] headR.reverse with
  | none => none
  | some buffer =>
    match remove_leading_zeroes buffer.reverse with
    | none => none
    | some R => some (Status.SUCCESS, R)

/-! ## division.c -/

/-- The loop `while( t && carry )` of `increment_list`: `t` walks from the tail; returns
the visited and unvisited nodes with their new data (tail first) and the final carry. -/
def increment_loop : List Int → Int → List Int × Int
  | [], carry => ([], carry)
  | d :: t, carry =>
    if carry ≠ 0 then
      let sum := d + carry
      let (rest, carry') := increment_loop t (sum.tdiv 10)
      (sum.tmod 10 :: rest, carry')
    else (d :: t, carry)

/-- The function `increment_list` of division.c.  Its callers pass the addresses of local
variables, so `head == NULL || tail == NULL` is false. -/
def increment_list (head : Dlist) : Status × Dlist :=
  match head with
  | [] => (Status.SUCCESS, insert_at_first [] 1)
  | _ :: _ =>
    let (nodes, carry) := increment_loop head.reverse 1
    if carry ≠ 0 then (Status.SUCCESS, insert_at_first nodes.reverse carry)
    else (Status.SUCCESS, nodes.reverse)

/-- The repeated-subtraction loop
`while( ( large = Find_largest( *head1, *head2 ) ) == LARGE_1 )` of `division`.
State: the caller's `*head1`, `*headR` and the local quotient counter `qH`.
`returned FAILURE _` stands for the two `return FAILURE;` statements of the body; any
other `returned large _` is the end of the loop with that value of `large`. -/
def division_loop : Nat → Dlist → Dlist → Dlist → Dlist → Outcome (Dlist × Dlist × Dlist)
  | 0, _, _, _, _ => Outcome.out_of_fuel
  | fuel + 1, head1, head2, headR, qH =>
    let large := Find_largest head1 head2
    if large = Status.LARGE_1 then
      match subtraction head1 head2 [] with
      | none => Outcome.null_deref
      | some (st, R) =>
        if st = Status.FAILURE then Outcome.returned Status.FAILURE (head1, R, qH)
        else
          match increment_list qH with
          | (st', qH') =>
            if st' = Status.FAILURE then Outcome.returned Status.FAILURE (R, R, qH')
            else division_loop fuel R head2 R qH'
    else Outcome.returned large (head1, headR, qH)

/-- The part of `division` after the loop: the final increment on the `EQUAL` exit, the
copy of the quotient counter or of the remaining dividend into the result, and the
removal of leading zeroes.  State of the outcome: the caller's `*head1` and `*headR`.
The `return FAILURE;` after the final `increment_list` call is left out: with `malloc`
succeeding that call returns `SUCCESS` (`increment_list_status`). -/
def division_result (large : Status) (head1 qH : Dlist) (D_or_M : String) :
    Outcome (Dlist × Dlist) :=
  let (head1, qH) :=
    if large = Status.EQUAL then (insert_at_last [] 0, (increment_list qH).2) else (head1, qH)
  let headR : Dlist := []
  if strstr D_or_M "Div" then
    let headR := if qH = [] then insert_at_last headR 0 else qH.foldl insert_at_first headR
    match remove_leading_zeroes headR with
    | none => Outcome.null_deref
    | some R => Outcome.returned Status.SUCCESS (head1, R)
  else if strstr D_or_M "Mod" then
    match head1 with
    | [] => Outcome.null_deref
    | d :: next =>
      let headR :=
        if d = 0 ∧ next = [] then insert_at_last headR 0
        else (d :: next).foldl insert_at_last headR
      match remove_leading_zeroes headR with
      | none => Outcome.null_deref
      | some R => Outcome.returned Status.SUCCESS (head1, R)
  else
    match remove_leading_zeroes headR with
    | none => Outcome.null_deref
    | some R => Outcome.returned Status.SUCCESS (head1, R)

/-- The function `division` of division.c.  State of the outcome: the caller's `*head1`
and `*headR` (`*head2` is never assigned).  `exited 0 _` is the branch
`printf("INFO: Division by Zero is not possible\n"); exit(0);`. -/
def division (fuel : Nat) (head1 head2 headR : Dlist) (D_or_M : String) :
    Outcome (Dlist × Dlist) :=
  match head2 with
  | [] => Outcome.null_deref
  | d :: next =>
    if d = 0 ∧ next = [] then Outcome.exited 0 (head1, headR)
    else
      let large := Find_largest head1 head2
      if large = Status.EQUAL then
        if strstr D_or_M "Div" then
          Outcome.returned Status.SUCCESS (head1, insert_at_last headR 1)
        else Outcome.returned Status.SUCCESS (head1, insert_at_last headR 0)
      else if large = Status.LARGE_2 then
        if strstr D_or_M "Div" then
          Outcome.returned Status.SUCCESS (head1, insert_at_last headR 0)
        else Outcome.returned Status.SUCCESS (head1, head1.foldl insert_at_last headR)
      else
        match division_loop fuel head1 head2 headR [] with
        | Outcome.returned large (head1, headR, qH) =>
          if large = Status.FAILURE then Outcome.returned Status.FAILURE (head1, headR)
          else division_result large head1 qH D_or_M
        | Outcome.exited code (head1, headR, _) => Outcome.exited code (head1, headR)
        | Outcome.null_deref => Outcome.null_deref
        | Outcome.out_of_fuel => Outcome.out_of_fuel

/-! ## power.c -/

/-- The loop `while ( temp )` of `subtract_one`: `temp` walks from the tail; returns the
nodes with their new data, tail first. -/
def subtract_one_loop : List Int → List Int
  | [] => []
  | d :: temp => if d > 0 then (d - 1) :: temp else 9 :: subtract_one_loop temp

/-- The function `subtract_one` of power.c; `none`: `*head` is `NULL`. -/
def subtract_one (head : Dlist) : Option Dlist :=
  remove_leading_zeroes (subtract_one_loop head.reverse).reverse

/-- The loop `while( (*expH) -> data || (*expH) -> next )` of `power`.  State: the
caller's `*expH` and `*headR`.  `returned FAILURE _` stands for the `return FAILURE;` of
the body, `returned SUCCESS _` for the end of the loop. -/
def power_loop : Nat → Dlist → Dlist → Dlist → Outcome (Dlist × Dlist)
  | 0, _, _, _ => Outcome.out_of_fuel
  | fuel + 1, baseH, expH, headR =>
    match expH with
    | [] => Outcome.null_deref
    | d :: next =>
      if d ≠ 0 ∨ next ≠ [] then
        let Res_copy := copy_list headR
        let headR := free_list headR
        match multiplication Res_copy baseH headR with
        | none => Outcome.null_deref
        | some (st, headR) =>
          if st = Status.FAILURE then Outcome.returned Status.FAILURE (d :: next, headR)
          else
            match subtract_one (d :: next) with
            | none => Outcome.null_deref
            | some expH => power_loop fuel baseH expH headR
      else Outcome.returned Status.SUCCESS (d :: next, headR)

/-- The function `power` of power.c.  State of the outcome: the caller's `*expH` and
`*headR` (`*baseH` is never assigned and `multiplication` leaves its operands alone). -/
def power (fuel : Nat) (baseH expH _headR : Dlist) : Outcome (Dlist × Dlist) :=
  let headR : Dlist := []
  let headR := insert_at_first headR 1
  match expH with
  | [] => Outcome.null_deref
  | d :: next =>
    if d = 0 ∧ next = [] then Outcome.returned Status.SUCCESS (d :: next, headR)
    else
      match power_loop fuel baseH (d :: next) headR with
      | Outcome.returned st (expH, headR) =>
        if st = Status.FAILURE then Outcome.returned Status.FAILURE (expH, headR)
        else
          match remove_leading_zeroes headR with
          | none => Outcome.null_deref
          | some R => Outcome.returned Status.SUCCESS (expH, R)
      | o => o

/-! ## Common.c: argument validation and parsing; main.c -/

/-- Common.c `is_exp_even`: the parity of the tail digit; `none`: `expH` is `NULL`. -/
def is_exp_even (expH : Dlist) : Option Status :=
  match expH.getLast? with
  | none => none
  | some d => if d.tmod 2 = 0 then some Status.EVEN else some Status.ODD

/-- The loop `for( ; str[i] != 0; i++ )` of `isNumeric` on the characters from index `i`
on; `isdigit` is `Char.isDigit`. -/
def isNumeric_loop : List Char → Status
  | [] => Status.NUMERIC
  | c :: cs => if c.isDigit = false then Status.NON_NUMERIC else isNumeric_loop cs

/-- Common.c `isNumeric`: an optional leading sign, then digits only. -/
def isNumeric (str : String) : Status :=
  match str.toList with
  | [] => isNumeric_loop []
  | c :: cs => if c = '+' ∨ c = '-' then isNumeric_loop cs else isNumeric_loop (c :: cs)

/-- The characters of `static const char* operators`. -/
def operators : List Char := ['+', '-', 'x', '^', '/', '%']

/-- Common.c `Validate_arguments`, with `argc` the length of `argv`.  `strchr` also finds
the terminator of `operators`, so an empty `argv[2]` passes the first test and
`argv[2][1]` is then read behind the end of that string: `none`. -/
def Validate_arguments (argv : List String) : Option Status :=
  match argv with
  | [_, str1, op, str2] =>
    match op.toList with
    | [] => none
    | [c] =>
      if c ∉ operators then some Status.FAILURE
      else if isNumeric str1 = Status.NON_NUMERIC ∨ isNumeric str2 = Status.NON_NUMERIC then
        some Status.FAILURE
      else some Status.SUCCESS
    | _ :: _ :: _ => some Status.FAILURE
  | _ => some Status.FAILURE

/-- The loop of `String_to_list` on the characters from index `i` on: `str[i] - 48` is
appended with `insert_at_last`. -/
def String_to_list_loop : List Char → Dlist → Dlist
  | [], head => head
  | c :: cs, head => String_to_list_loop cs (insert_at_last head ((c.toNat : Int) - 48))

/-- Common.c `String_to_list`: an optional leading sign is skipped. -/
def String_to_list (head : Dlist) (str : String) : Dlist :=
  match str.toList with
  | [] => head
  | c :: cs =>
    if c = '+' ∨ c = '-' then String_to_list_loop cs head
    else String_to_list_loop (c :: cs) head

/-- The sign that `main` reads off an operand string: `-` if that is its first character
and `+` otherwise. -/
def operand_sign (str : String) : Char :=
  if str.toList.head? = some '-' then '-' else '+'

/-- The `switch ( operator )` of `main` up to the call of `print_calculation`.  State of
the outcome: `final_sign` (`none` while it is unassigned) and the caller's `headR`, which
are what `print_calculation` shows next to the two argument strings.  `main` does not
look at the status that the engine returns. -/
def main_switch (fuel : Nat) (operator sign1 sign2 : Char) (head1 head2 headR : Dlist) :
    Outcome (Option Char × Dlist) :=
  if operator = '+' then
    if sign1 = sign2 then
      match addition head1 head2 headR with
      | none => Outcome.null_deref
      | some (_, R) => Outcome.returned Status.SUCCESS (some sign1, R)
    else if sign1 = '-' then
      let larger := Find_largest head1 head2
      let (heads, final_sign) :=
        if larger = Status.LARGE_2 then (Swap_lists head1 head2, '+') else ((head1, head2), '-')
      match subtraction heads.1 heads.2 headR with
      | none => Outcome.null_deref
      | some (_, R) => Outcome.returned Status.SUCCESS (some final_sign, R)
    else if sign2 = '-' then
      let larger := Find_largest head1 head2
      let (heads, final_sign) :=
        if larger = Status.LARGE_2 then (Swap_lists head1 head2, '-') else ((head1, head2), '+')
      match subtraction heads.1 heads.2 headR with
      | none => Outcome.null_deref
      | some (_, R) => Outcome.returned Status.SUCCESS (some final_sign, R)
    else Outcome.returned Status.SUCCESS (none, headR)
  else if operator = '-' then
    if sign1 ≠ sign2 then
      match addition head1 head2 headR with
      | none => Outcome.null_deref
      | some (_, R) => Outcome.returned Status.SUCCESS (some sign1, R)
    else
      let larger := Find_largest head1 head2
      let (heads, final_sign) :=
        if larger = Status.LARGE_2 then
          (Swap_lists head1 head2, if sign1 = '+' then '-' else '+')
        else ((head1, head2), sign1)
      match subtraction heads.1 heads.2 headR with
      | none => Outcome.null_deref
      | some (_, R) => Outcome.returned Status.SUCCESS (some final_sign, R)
  else if operator = 'x' then
    match multiplication head1 head2 headR with
    | none => Outcome.null_deref
    | some (_, R) =>
      Outcome.returned Status.SUCCESS (some (if sign1 = sign2 then '+' else '-'), R)
  else if operator = '/' then
    match division fuel head1 head2 headR "Div" with
    | Outcome.returned _ (_, R) =>
      Outcome.returned Status.SUCCESS (some (if sign1 = sign2 then '+' else '-'), R)
    | Outcome.exited code (_, R) => Outcome.exited code (none, R)
    | Outcome.null_deref => Outcome.null_deref
    | Outcome.out_of_fuel => Outcome.out_of_fuel
  else if operator = '%' then
    match division fuel head1 head2 headR "Mod" with
    | Outcome.returned _ (_, R) =>
      Outcome.returned Status.SUCCESS (some (if sign1 = sign2 then '+' else '-'), R)
    | Outcome.exited code (_, R) => Outcome.exited code (none, R)
    | Outcome.null_deref => Outcome.null_deref
    | Outcome.out_of_fuel => Outcome.out_of_fuel
  else if operator = '^' then
    if sign2 = '-' then Outcome.returned Status.SUCCESS (some '+', insert_at_first [] 0)
    else
      let final_sign : Option Char :=
        if sign1 = '+' then some '+'
        else
          match is_exp_even head2 with
          | none => none
          | some parity => if parity = Status.EVEN then some '+' else some '-'
      if sign1 ≠ '+' ∧ final_sign = none then Outcome.null_deref
      else
        match power fuel head1 head2 headR with
        | Outcome.returned _ (_, R) => Outcome.returned Status.SUCCESS (final_sign, R)
        | Outcome.exited code (_, R) => Outcome.exited code (none, R)
        | Outcome.null_deref => Outcome.null_deref
        | Outcome.out_of_fuel => Outcome.out_of_fuel
  else Outcome.returned Status.FAILURE (none, headR)

/-- The function `main` of main.c up to the call of `print_calculation`; `argv` holds the
program name and the three arguments.  `exited 1 _` is the exit after a failed
validation; `returned SUCCESS _` is `return 0` and `returned FAILURE _` the `default`
branch of the switch; `null_deref` also stands for the read behind the end of `argv[2]`
that `Validate_arguments` reports. -/
def main (fuel : Nat) (argv : List String) : Outcome (Option Char × Dlist) :=
  match Validate_arguments argv with
  | none => Outcome.null_deref
  | some Status.FAILURE => Outcome.exited 1 (none, [])
  | some _ =>
    match argv with
    | [_, num1, op, num2] =>
      let head1 := String_to_list [] num1
      let head2 := String_to_list [] num2
      let headR : Dlist := []
      match op.toList with
      | [] => Outcome.null_deref
      | operator :: _ =>
        main_switch fuel operator (operand_sign num1) (operand_sign num2) head1 head2 headR
    | _ => Outcome.exited 1 (none, [])

/-! ## Instrumented copies of two loops -/

/-- The loop of `division` (`division_loop`) with a ghost counter `n` of its iterations:
every iteration makes exactly one call of `subtraction` and adds one to `n`.  The
counter is not a variable of the program; `division_loop_counted_forget` shows that the
rest of the state is that of `division_loop`. -/
def division_loop_counted :
    Nat → Dlist → Dlist → Dlist → Dlist → Nat → Outcome (Dlist × Dlist × Dlist × Nat)
  | 0, _, _, _, _, _ => Outcome.out_of_fuel
  | fuel + 1, head1, head2, headR, qH, n =>
    let large := Find_largest head1 head2
    if large = Status.LARGE_1 then
      match subtraction head1 head2 [] with
      | none => Outcome.null_deref
      | some (st, R) =>
        if st = Status.FAILURE then Outcome.returned Status.FAILURE (head1, R, qH, n + 1)
        else
          match increment_list qH with
          | (st', qH') =>
            if st' = Status.FAILURE then Outcome.returned Status.FAILURE (R, R, qH', n + 1)
            else division_loop_counted fuel R head2 R qH' (n + 1)
    else Outcome.returned large (head1, headR, qH, n)

/-- Drops the ghost counter from an outcome of `division_loop_counted`. -/
def forget_count : Outcome (Dlist × Dlist × Dlist × Nat) → Outcome (Dlist × Dlist × Dlist)
  | Outcome.returned st (head1, headR, qH, _) => Outcome.returned st (head1, headR, qH)
  | Outcome.exited code (head1, headR, qH, _) => Outcome.exited code (head1, headR, qH)
  | Outcome.null_deref => Outcome.null_deref
  | Outcome.out_of_fuel => Outcome.out_of_fuel

/-- The inner loop of `multiplication` (`multiplication_row`) with run-time checks: the
result is `none` also when a carry or a digit written into the buffer leaves the range
0..9.  The checks are not statements of the program. -/
def multiplication_row_checked (d2 : Int) : List Int → List Int → Int → Option (List Int)
  | [], tempR, carry =>
    if carry ≠ 0 then
      match tempR with
      | [] => none
      | r :: prev => if 0 ≤ r + carry ∧ r + carry ≤ 9 then some ((r + carry) :: prev) else none
    else some tempR
  | _ :: _, [], _ => none
  | d1 :: temp1, r :: tempR, carry =>
    let product := d1 * d2 + r + carry
    if (0 ≤ product.tmod 10 ∧ product.tmod 10 ≤ 9) ∧ (0 ≤ product.tdiv 10 ∧ product.tdiv 10 ≤ 9)
    then
      match multiplication_row_checked d2 temp1 tempR (product.tdiv 10) with
      | none => none
      | some prev => some (product.tmod 10 :: prev)
    else none

/-- The outer loop of `multiplication` (`multiplication_loop`) over the checked rows,
with one more run-time check: after every row all digits of the buffer are in 0..9. -/
def multiplication_loop_checked (tail1 : List Int) :
    List Int → List Int → List Int → Option (List Int)
  | [], below, start => some (below ++ start)
  | d2 :: temp2, below, start =>
    match multiplication_row_checked d2 tail1 start 0 with
    | none => none
    | some [] => none
    | some (r :: prev) =>
      if (below ++ r :: prev).all (fun d => decide (0 ≤ d ∧ d ≤ 9)) then
        multiplication_loop_checked tail1 temp2 (below ++ [r]) prev
      else none

/-- The loop of `power` (`power_loop`) with the caller's base list carried in the state.
Neither `power` nor `multiplication` has a statement that assigns `*baseH`, `*baseT` or
the data of a node of the base list: `multiplication` writes `tempR -> data` only, in
nodes of the result list that it has allocated itself.  So every iteration hands the
base list on as it is. -/
def power_loop_operands : Nat → Dlist → Dlist → Dlist → Outcome (Dlist × Dlist × Dlist)
  | 0, _, _, _ => Outcome.out_of_fuel
  | fuel + 1, baseH, expH, headR =>
    match expH with
    | [] => Outcome.null_deref
    | d :: next =>
      if d ≠ 0 ∨ next ≠ [] then
        let Res_copy := copy_list headR
        let headR := free_list headR
        match multiplication Res_copy baseH headR with
        | none => Outcome.null_deref
        | some (st, headR) =>
          if st = Status.FAILURE then Outcome.returned Status.FAILURE (baseH, d :: next, headR)
          else
            match subtract_one (d :: next) with
            | none => Outcome.null_deref
            | some expH => power_loop_operands fuel baseH expH headR
      else Outcome.returned Status.SUCCESS (baseH, d :: next, headR)

/-- The function `power` with the caller's base list carried in the state: the outcome
holds `*baseH`, `*expH` and `*headR`. -/
def power_operands (fuel : Nat) (baseH expH _headR : Dlist) : Outcome (Dlist × Dlist × Dlist) :=
  let headR : Dlist := []
  let headR := insert_at_first headR 1
  match expH with
  | [] => Outcome.null_deref
  | d :: next =>
    if d = 0 ∧ next = [] then Outcome.returned Status.SUCCESS (baseH, d :: next, headR)
    else
      match power_loop_operands fuel baseH (d :: next) headR with
      | Outcome.returned st (baseH, expH, headR) =>
        if st = Status.FAILURE then Outcome.returned Status.FAILURE (baseH, expH, headR)
        else
          match remove_leading_zeroes headR with
          | none => Outcome.null_deref
          | some R => Outcome.returned Status.SUCCESS (baseH, expH, R)
      | o => o

/-- Drops the base list from an outcome of `power_operands`. -/
def forget_base : Outcome (Dlist × Dlist × Dlist) → Outcome (Dlist × Dlist)
  | Outcome.returned st (_, expH, headR) => Outcome.returned st (expH, headR)
  | Outcome.exited code (_, expH, headR) => Outcome.exited code (expH, headR)
  | Outcome.null_deref => Outcome.null_deref
  | Outcome.out_of_fuel => Outcome.out_of_fuel

/-! ## The data model of the specification -/

/-- The number denoted by a digit list read most significant digit first. -/
def value : Dlist → Int
  | [] => 0
  | d :: ds => d * 10 ^ ds.length + value ds

/-- Every digit is in the range 0..9. -/
def digits (l : Dlist) : Prop := ∀ d ∈ l, 0 ≤ d ∧ d ≤ 9

/-- The DigitSequence invariant: non-empty, digits in 0..9, no leading zero unless the
sequence is exactly `[0]`. -/
def normalized (l : Dlist) : Prop := l ≠ [] ∧ digits l ∧ (l.head? = some 0 → l = [0])

/-- The number denoted by the digits that a cursor walking from the tail still has to
visit (least significant digit first). -/
def value_from_tail : List Int → Int
  | [] => 0
  | d :: p => d + 10 * value_from_tail p

/-- The `Status` that comparing two numbers should give. -/
def compare_values (x y : Int) : Status :=
  if x > y then Status.LARGE_1 else if x < y then Status.LARGE_2 else Status.EQUAL

/-- The integer that a sign character and a magnitude denote together. -/
def signed_value (sign : Char) (l : Dlist) : Int :=
  if sign = '-' then - value l else value l

/-- The integer that an operand string denotes: its sign and the digits behind it. -/
def operand_value (str : String) : Int :=
  signed_value (operand_sign str) (String_to_list [] str)

/-- The characters of an operand string behind its optional sign. -/
def digit_chars (str : String) : List Char :=
  match str.toList with
  | [] => []
  | c :: cs => if c = '+' ∨ c = '-' then cs else c :: cs

instance (l : Dlist) : Decidable (digits l) := by
  unfold digits; infer_instance

instance (l : Dlist) : Decidable (normalized l) := by
  unfold normalized; infer_instance


/-! ## Lemmas on the data model -/

theorem digits_nil : digits [] := by
  intro d hd; cases hd

theorem digits_cons {d : Int} {l : Dlist} : digits (d :: l) ↔ (0 ≤ d ∧ d ≤ 9) ∧ digits l := by
  simp [digits]

theorem digits_append {l m : Dlist} : digits (l ++ m) ↔ digits l ∧ digits m := by
  simp only [digits, List.mem_append]
  constructor
  · intro h
    exact ⟨fun d hd => h d (Or.inl hd), fun d hd => h d (Or.inr hd)⟩
  · rintro ⟨h1, h2⟩ d (hd | hd)
    · exact h1 d hd
    · exact h2 d hd

theorem digits_reverse {l : Dlist} : digits l.reverse ↔ digits l := by
  simp [digits]

theorem value_append (l m : Dlist) : value (l ++ m) = value l * 10 ^ m.length + value m := by
  induction l with
  | nil => simp [value]
  | cons d l ih =>
    rw [List.cons_append]
    simp only [value]
    rw [ih, List.length_append, pow_add]
    ring

theorem value_nonneg {l : Dlist} (h : digits l) : 0 ≤ value l := by
  induction l with
  | nil => simp [value]
  | cons d l ih =>
    rw [digits_cons] at h
    have := ih h.2
    have hp : (0 : Int) < 10 ^ l.length := by positivity
    simp only [value]
    nlinarith [h.1.1]

theorem value_lt {l : Dlist} (h : digits l) : value l < 10 ^ l.length := by
  induction l with
  | nil => simp [value]
  | cons d l ih =>
    rw [digits_cons] at h
    have := ih h.2
    have hp : (0 : Int) < 10 ^ l.length := by positivity
    simp only [value, List.length_cons, pow_succ]
    nlinarith [h.1.2]

theorem normalized_ne_nil {l : Dlist} (h : normalized l) : l ≠ [] := h.1

theorem normalized_digits {l : Dlist} (h : normalized l) : digits l := h.2.1

/-- A normalized sequence other than `[0]` starts with a non-zero digit, so its value
is at least `10 ^ (length - 1)`. -/
theorem value_ge_of_normalized {l : Dlist} (h : normalized l) (h0 : l ≠ [0]) :
    10 ^ (l.length - 1) ≤ value l := by
  obtain ⟨hne, hd, hz⟩ := h
  cases l with
  | nil => exact absurd rfl hne
  | cons d l =>
    rw [digits_cons] at hd
    have hd0 : d ≠ 0 := by
      intro hd0
      subst hd0
      exact h0 (hz rfl)
    have hd1 : (1 : Int) ≤ d := by
      have h1 : (0 : Int) ≤ d := hd.1.1
      have h2 : (d : Int) ≠ 0 := hd0
      omega
    have hv := value_nonneg hd.2
    have hp : (0 : Int) < 10 ^ l.length := by positivity
    simp only [value, List.length_cons, Nat.add_sub_cancel]
    nlinarith

theorem value_pos_of_normalized {l : Dlist} (h : normalized l) (h0 : l ≠ [0]) :
    0 < value l := by
  have := value_ge_of_normalized h h0
  have hp : (0 : Int) < 10 ^ (l.length - 1) := by positivity
  omega

theorem value_eq_zero_iff {l : Dlist} (h : normalized l) : value l = 0 ↔ l = [0] := by
  constructor
  · intro hv
    by_contra h0
    have := value_pos_of_normalized h h0
    omega
  · intro h0
    subst h0
    simp [value]

/-! ## Lemmas on `delete_at_first` and the closing loop -/

theorem delete_at_first_value (l : Dlist) : value (delete_at_first l) = value l := by
  induction l with
  | nil => rfl
  | cons d l ih =>
    cases l with
    | nil => rfl
    | cons d' ds =>
      simp only [delete_at_first]
      split
      · next h =>
        subst h
        rw [ih]
        simp [value]
      · rfl

theorem delete_at_first_digits {l : Dlist} (h : digits l) : digits (delete_at_first l) := by
  induction l with
  | nil => exact h
  | cons d l ih =>
    cases l with
    | nil => exact h
    | cons d' ds =>
      simp only [delete_at_first]
      split
      · exact ih (digits_cons.1 h).2
      · exact h

theorem delete_at_first_ne_nil {l : Dlist} (h : l ≠ []) : delete_at_first l ≠ [] := by
  induction l with
  | nil => exact absurd rfl h
  | cons d l ih =>
    cases l with
    | nil => simp [delete_at_first]
    | cons d' ds =>
      simp only [delete_at_first]
      split
      · exact ih (by simp)
      · simp

theorem delete_at_first_head {l : Dlist} (h : (delete_at_first l).head? = some 0) :
    delete_at_first l = [0] := by
  induction l with
  | nil => simp [delete_at_first] at h
  | cons d l ih =>
    cases l with
    | nil =>
      simp only [delete_at_first, List.head?_cons, Option.some.injEq] at h
      simp [delete_at_first, h]
    | cons d' ds =>
      simp only [delete_at_first] at h ⊢
      split
      · next h0 =>
        rw [if_pos h0] at h
        exact ih h
      · next h0 =>
        rw [if_neg h0] at h
        simp only [List.head?_cons, Option.some.injEq] at h
        exact absurd h h0

theorem delete_at_first_normalized {l : Dlist} (hne : l ≠ []) (h : digits l) :
    normalized (delete_at_first l) :=
  ⟨delete_at_first_ne_nil hne, delete_at_first_digits h, delete_at_first_head⟩

theorem delete_at_first_of_normalized {l : Dlist} (h : normalized l) :
    delete_at_first l = l := by
  obtain ⟨hne, _, hz⟩ := h
  cases l with
  | nil => rfl
  | cons d l =>
    cases l with
    | nil => rfl
    | cons d' ds =>
      simp only [delete_at_first]
      split
      · next h0 =>
        subst h0
        have := hz rfl
        simp at this
      · rfl

/-- After one call of `delete_at_first` the condition of the closing loop is false: the
loop body runs at most once. -/
theorem remove_leading_zeroes_delete_at_first (l : Dlist) (hne : l ≠ []) :
    remove_leading_zeroes (delete_at_first l) = some (delete_at_first l) := by
  have h1 := delete_at_first_ne_nil hne
  have h2 := @delete_at_first_head l
  generalize delete_at_first l = r at h1 h2
  cases r with
  | nil => exact absurd rfl h1
  | cons d ds =>
    simp only [remove_leading_zeroes]
    split
    · next h =>
      obtain ⟨hds, hd⟩ := h
      subst hd
      have := h2 rfl
      simp only [List.cons.injEq, true_and] at this
      exact absurd this hds
    · rfl

theorem remove_leading_zeroes_eq {l : Dlist} (hne : l ≠ []) :
    remove_leading_zeroes l = some (delete_at_first l) := by
  cases l with
  | nil => exact absurd rfl hne
  | cons d ds =>
    simp only [remove_leading_zeroes]
    split
    · rfl
    · next h =>
      cases ds with
      | nil => rfl
      | cons d' ds' =>
        have hd : d ≠ 0 := by
          intro hd
          exact h ⟨by simp, hd⟩
        simp [delete_at_first, hd]

theorem remove_leading_zeroes_of_normalized {l : Dlist} (h : normalized l) :
    remove_leading_zeroes l = some l := by
  rw [remove_leading_zeroes_eq h.1, delete_at_first_of_normalized h]


/-! ## Lemmas on `Find_largest` -/

theorem Find_largest_digits_eq (a b : Dlist) (hlen : a.length = b.length)
    (ha : digits a) (hb : digits b) :
    Find_largest_digits a b = compare_values (value a) (value b) := by
  induction a generalizing b with
  | nil =>
    cases b with
    | nil => simp [Find_largest_digits, compare_values]
    | cons d2 t2 => simp at hlen
  | cons d1 t1 ih =>
    cases b with
    | nil => simp at hlen
    | cons d2 t2 =>
      simp only [List.length_cons, Nat.add_right_cancel_iff] at hlen
      rw [digits_cons] at ha hb
      have h1 := value_nonneg ha.2
      have h2 := value_nonneg hb.2
      have h3 := value_lt ha.2
      have h4 := value_lt hb.2
      rw [hlen] at h3
      have hp : (0 : Int) < 10 ^ t2.length := by positivity
      simp only [Find_largest_digits, value, hlen]
      by_cases hgt : d1 > d2
      · have : d1 * 10 ^ t2.length + value t1 > d2 * 10 ^ t2.length + value t2 := by
          nlinarith
        simp [hgt, compare_values, this]
      · by_cases hlt : d1 < d2
        · have h5 : d1 * 10 ^ t2.length + value t1 < d2 * 10 ^ t2.length + value t2 := by
            nlinarith
          have h6 : ¬ (d1 * 10 ^ t2.length + value t1 > d2 * 10 ^ t2.length + value t2) := by
            omega
          simp only [if_neg hgt, if_pos hlt, compare_values, if_neg h6, if_pos h5]
        · have heq : d1 = d2 := by omega
          subst heq
          rw [if_neg hgt, if_neg hlt, ih t2 hlen ha.2 hb.2]
          simp only [compare_values, gt_iff_lt, add_lt_add_iff_left]

theorem Find_largest_digits_equal_iff (a b : Dlist) (hlen : a.length = b.length) :
    Find_largest_digits a b = Status.EQUAL ↔ a = b := by
  induction a generalizing b with
  | nil =>
    cases b with
    | nil => simp [Find_largest_digits]
    | cons d2 t2 => simp at hlen
  | cons d1 t1 ih =>
    cases b with
    | nil => simp at hlen
    | cons d2 t2 =>
      simp only [List.length_cons, Nat.add_right_cancel_iff] at hlen
      simp only [Find_largest_digits, List.cons.injEq]
      by_cases hgt : d1 > d2
      · simp only [if_pos hgt]
        constructor
        · intro h; cases h
        · rintro ⟨h, _⟩; omega
      · by_cases hlt : d1 < d2
        · simp only [if_neg hgt, if_pos hlt]
          constructor
          · intro h; cases h
          · rintro ⟨h, _⟩; omega
        · have heq : d1 = d2 := by omega
          rw [if_neg hgt, if_neg hlt, ih t2 hlen]
          simp only [heq, true_and]

theorem length_eq_one_of_normalized_zero {l : Dlist} (h : l = [0]) : l.length = 1 := by
  subst h; rfl

/-- Of two normalized sequences the longer one denotes the larger number. -/
theorem value_lt_of_length_lt {a b : Dlist} (ha : normalized a) (hb : normalized b)
    (hlen : a.length < b.length) : value a < value b := by
  have hb0 : b ≠ [0] := by
    intro h
    have := length_eq_one_of_normalized_zero h
    have : a.length = 0 := by omega
    exact ha.1 (List.length_eq_zero.1 this)
  have h1 := value_lt ha.2.1
  have h2 := value_ge_of_normalized hb hb0
  have h3 : (10 : Int) ^ a.length ≤ 10 ^ (b.length - 1) :=
    pow_le_pow_right₀ (by norm_num) (by omega)
  omega

theorem Find_largest_eq (a b : Dlist) (ha : normalized a) (hb : normalized b) :
    Find_largest a b = compare_values (value a) (value b) := by
  unfold Find_largest
  simp only
  by_cases h1 : a.length > b.length
  · have := value_lt_of_length_lt hb ha h1
    simp [h1, compare_values, this]
  · by_cases h2 : b.length > a.length
    · have h3 := value_lt_of_length_lt ha hb h2
      have h4 : ¬ (value a > value b) := by omega
      simp only [if_neg h1, if_pos h2, compare_values, if_neg h4, if_pos h3]
    · rw [if_neg h1, if_neg h2]
      exact Find_largest_digits_eq a b (by omega) ha.2.1 hb.2.1

theorem Find_largest_equal_iff (a b : Dlist) :
    Find_largest a b = Status.EQUAL ↔ a = b := by
  unfold Find_largest
  simp only
  by_cases h1 : a.length > b.length
  · simp only [if_pos h1]
    constructor
    · intro h; cases h
    · intro h; subst h; omega
  · by_cases h2 : b.length > a.length
    · simp only [if_neg h1, if_pos h2]
      constructor
      · intro h; cases h
      · intro h; subst h; omega
    · rw [if_neg h1, if_neg h2]
      exact Find_largest_digits_equal_iff a b (by omega)

theorem compare_values_LARGE_1 (x y : Int) : compare_values x y = Status.LARGE_1 ↔ x > y := by
  unfold compare_values
  split
  · simp [*]
  · split <;> simp [*]

theorem compare_values_LARGE_2 (x y : Int) : compare_values x y = Status.LARGE_2 ↔ x < y := by
  unfold compare_values
  split
  · next h => simp; omega
  · split <;> simp [*]

theorem compare_values_EQUAL (x y : Int) : compare_values x y = Status.EQUAL ↔ x = y := by
  unfold compare_values
  split
  · next h => simp; omega
  · split
    · next h => simp; omega
    · simp; omega

/-- C1: on normalized digit sequences `Find_largest` returns `LARGE_1` exactly when the
first number is greater, `LARGE_2` exactly when it is smaller and `EQUAL` exactly when the
two values are equal, which in turn is exactly when the two sequences are the same: it
is the total order of the denoted numbers. -/
theorem Find_largest_agrees_with_value (a b : Dlist) (ha : normalized a) (hb : normalized b) :
    (Find_largest a b = Status.LARGE_1 ↔ value a > value b) ∧
    (Find_largest a b = Status.LARGE_2 ↔ value a < value b) ∧
    (Find_largest a b = Status.EQUAL ↔ value a = value b) ∧
    (value a = value b ↔ a = b) := by
  rw [Find_largest_eq a b ha hb]
  refine ⟨compare_values_LARGE_1 _ _, compare_values_LARGE_2 _ _, compare_values_EQUAL _ _, ?_⟩
  rw [← compare_values_EQUAL, ← Find_largest_eq a b ha hb]
  exact Find_largest_equal_iff a b

/-- C1 at the operands 100 and 99. -/
theorem Find_largest_agrees_with_value_witness :
    normalized [1, 0, 0] ∧ normalized [9, 9] ∧
    ((Find_largest [1, 0, 0] [9, 9] = Status.LARGE_1 ↔ value [1, 0, 0] > value [9, 9]) ∧
    (Find_largest [1, 0, 0] [9, 9] = Status.LARGE_2 ↔ value [1, 0, 0] < value [9, 9]) ∧
    (Find_largest [1, 0, 0] [9, 9] = Status.EQUAL ↔ value [1, 0, 0] = value [9, 9]) ∧
    (value [1, 0, 0] = value [9, 9] ↔ [1, 0, 0] = ([9, 9] : Dlist))) :=
  ⟨by decide, by decide,
    Find_largest_agrees_with_value [1, 0, 0] [9, 9] (by decide) (by decide)⟩


/-! ## Lemmas on `addition` -/

theorem tdiv_ten {x : Int} (h : 0 ≤ x) : x.tdiv 10 = x / 10 :=
  Int.tdiv_eq_ediv h (by norm_num)

theorem tmod_ten {x : Int} (h : 0 ≤ x) : x.tmod 10 = x % 10 :=
  Int.tmod_eq_emod h (by norm_num)

theorem value_from_tail_append (x : List Int) (d : Int) :
    value_from_tail (x ++ [d]) = value_from_tail x + d * 10 ^ x.length := by
  induction x with
  | nil => simp [value_from_tail]
  | cons e x ih =>
    rw [List.cons_append]
    simp only [value_from_tail]
    rw [ih, List.length_cons, pow_succ]
    ring

theorem value_from_tail_reverse (l : Dlist) : value_from_tail l.reverse = value l := by
  induction l with
  | nil => rfl
  | cons d l ih =>
    rw [List.reverse_cons, value_from_tail_append, ih, List.length_reverse]
    simp only [value]
    ring

theorem value_reverse (x : List Int) : value x.reverse = value_from_tail x := by
  rw [← value_from_tail_reverse, List.reverse_reverse]

theorem value_snoc (l : Dlist) (d : Int) : value (l ++ [d]) = value l * 10 + d := by
  rw [value_append]
  simp [value]

theorem digits_snoc {l : Dlist} {d : Int} (hl : digits l) (h0 : 0 ≤ d) (h9 : d ≤ 9) :
    digits (l ++ [d]) :=
  digits_append.2 ⟨hl, digits_cons.2 ⟨⟨h0, h9⟩, digits_nil⟩⟩

/-- The fuel that `addition_loop` gives to `addition_carry` is enough: with any larger
fuel the same list comes out, so the carry is 0 when the fuel `|carry|` is used up. -/
theorem addition_carry_fuel (n m : Nat) (carry : Int) (headR : Dlist)
    (hn : carry.natAbs ≤ n) (hm : carry.natAbs ≤ m) :
    addition_carry n carry headR = addition_carry m carry headR := by
  induction n generalizing m carry headR with
  | zero =>
    have hc : carry = 0 := by omega
    subst hc
    cases m <;> simp [addition_carry]
  | succ n ih =>
    cases m with
    | zero =>
      have hc : carry = 0 := by omega
      subst hc
      simp [addition_carry]
    | succ m =>
      simp only [addition_carry]
      split
      · next hc =>
        have hlt : (carry.tdiv 10).natAbs < carry.natAbs := by
          rw [Int.natAbs_tdiv]
          have : carry.natAbs ≠ 0 := by omega
          exact Nat.div_lt_self (by omega) (by norm_num)
        exact ih m _ _ (by omega) (by omega)
      · rfl

theorem addition_carry_bit (carry : Int) (headR : Dlist) (h0 : 0 ≤ carry) (h1 : carry ≤ 1) :
    addition_carry carry.natAbs carry headR = if carry = 0 then headR else 1 :: headR := by
  have h : carry = 0 ∨ carry = 1 := by omega
  rcases h with h | h
  · subst h
    simp [addition_carry]
  · subst h
    have h2 : Int.tmod 1 10 = 1 := by decide
    simp [addition_carry, insert_at_first, h2]

/-- What the iterations with `digits_1 == NULL` add in front of the result list. -/
theorem addition_rest_spec (y : List Int) (carry : Int) (headR : Dlist)
    (hy : digits y) (h0 : 0 ≤ carry) (h1 : carry ≤ 1) :
    ∃ ds, addition_rest y carry headR = ds ++ headR ∧ digits ds ∧
      value ds = value_from_tail y + carry ∧
      (y ≠ [] → ds ≠ []) := by
  induction y generalizing carry headR with
  | nil =>
    simp only [addition_rest, addition_carry_bit carry headR h0 h1]
    by_cases hc : carry = 0
    · exact ⟨[], by simp [hc], digits_nil, by simp [value, value_from_tail, hc], by simp⟩
    · have hc1 : carry = 1 := by omega
      refine ⟨[1], by simp [hc], ?_, by simp [value, value_from_tail, hc1], by simp⟩
      exact digits_cons.2 ⟨by norm_num, digits_nil⟩
  | cons d2 p2 ih =>
    rw [digits_cons] at hy
    have hs : 0 ≤ carry + d2 := by omega
    simp only [addition_rest, insert_at_first, tdiv_ten hs, tmod_ten hs]
    obtain ⟨ds, h1, h2, h3, _⟩ :=
      ih ((carry + d2) / 10) ((carry + d2) % 10 :: headR) hy.2 (by omega) (by omega)
    refine ⟨ds ++ [(carry + d2) % 10], by simp [h1], digits_snoc h2 (by omega) (by omega), ?_,
      by simp⟩
    rw [value_snoc, h3]
    simp only [value_from_tail]
    have := Int.emod_add_ediv (carry + d2) 10
    linear_combination this

/-- What the loop of `addition` adds in front of the result list. -/
theorem addition_loop_spec (x y : List Int) (carry : Int) (headR : Dlist)
    (hx : digits x) (hy : digits y) (h0 : 0 ≤ carry) (h1 : carry ≤ 1) :
    ∃ ds, addition_loop x y carry headR = ds ++ headR ∧ digits ds ∧
      value ds = value_from_tail x + value_from_tail y + carry ∧
      (x ≠ [] ∨ y ≠ [] → ds ≠ []) := by
  induction x generalizing y carry headR with
  | nil =>
    obtain ⟨ds, e1, e2, e3, e4⟩ := addition_rest_spec y carry headR hy h0 h1
    refine ⟨ds, ?_, e2, ?_, ?_⟩
    · cases y <;> simpa [addition_loop] using e1
    · simp [e3, value_from_tail]
    · rintro (h | h)
      · exact absurd rfl h
      · exact e4 h
  | cons d1 p1 ih =>
    rw [digits_cons] at hx
    cases y with
    | nil =>
      have hs : 0 ≤ carry + d1 := by omega
      simp only [addition_loop, insert_at_first, tdiv_ten hs, tmod_ten hs]
      obtain ⟨ds, e1, e2, e3, _⟩ :=
        ih [] ((carry + d1) / 10) ((carry + d1) % 10 :: headR) hx.2 digits_nil
          (by omega) (by omega)
      refine ⟨ds ++ [(carry + d1) % 10], by simp [e1], digits_snoc e2 (by omega) (by omega),
        ?_, by simp⟩
      rw [value_snoc, e3]
      simp only [value_from_tail]
      have := Int.emod_add_ediv (carry + d1) 10
      linear_combination this
    | cons d2 p2 =>
      rw [digits_cons] at hy
      have hs : 0 ≤ carry + d1 + d2 := by omega
      simp only [addition_loop, insert_at_first, tdiv_ten hs, tmod_ten hs]
      obtain ⟨ds, e1, e2, e3, _⟩ :=
        ih p2 ((carry + d1 + d2) / 10) ((carry + d1 + d2) % 10 :: headR) hx.2 hy.2
          (by omega) (by omega)
      refine ⟨ds ++ [(carry + d1 + d2) % 10], by simp [e1],
        digits_snoc e2 (by omega) (by omega), ?_, by simp⟩
      rw [value_snoc, e3]
      simp only [value_from_tail]
      have := Int.emod_add_ediv (carry + d1 + d2) 10
      linear_combination this

/-- The closing loop on a non-empty list of digits. -/
theorem remove_leading_zeroes_spec {l : Dlist} (hne : l ≠ []) (h : digits l) :
    ∃ r, remove_leading_zeroes l = some r ∧ normalized r ∧ value r = value l :=
  ⟨delete_at_first l, remove_leading_zeroes_eq hne, delete_at_first_normalized hne h,
    delete_at_first_value l⟩

/-- On non-empty operands with digits in 0..9 `addition` returns `SUCCESS` with a
normalized result that denotes the sum. -/
theorem addition_spec (a b : Dlist) (ha : a ≠ []) (hda : digits a) (hdb : digits b) :
    ∃ r, addition a b [] = some (Status.SUCCESS, r) ∧ value r = value a + value b ∧
      normalized r := by
  obtain ⟨ds, e1, e2, e3, e4⟩ :=
    addition_loop_spec a.reverse b.reverse 0 [] (digits_reverse.2 hda) (digits_reverse.2 hdb)
      (le_refl 0) (by norm_num)
  have hne : ds ≠ [] := e4 (Or.inl (by simpa using ha))
  rw [List.append_nil] at e1
  obtain ⟨r, r1, r2, r3⟩ := remove_leading_zeroes_spec hne e2
  refine ⟨r, ?_, ?_, r2⟩
  · simp only [addition, e1, r1]
  · rw [r3, e3, value_from_tail_reverse, value_from_tail_reverse]
    simp

theorem addition_loop_nil_right (x : List Int) (carry : Int) (headR : Dlist) :
    addition_loop x [] carry headR = addition_rest x carry headR := by
  induction x generalizing carry headR with
  | nil => rfl
  | cons d1 p1 ih => simp only [addition_loop, addition_rest, ih]

theorem addition_loop_comm (x y : List Int) (carry : Int) (headR : Dlist) :
    addition_loop x y carry headR = addition_loop y x carry headR := by
  induction x generalizing y carry headR with
  | nil =>
    rw [addition_loop_nil_right]
    cases y <;> rfl
  | cons d1 p1 ih =>
    cases y with
    | nil =>
      rw [addition_loop_nil_right]
      rfl
    | cons d2 p2 =>
      simp only [addition_loop]
      rw [ih, add_right_comm carry d1 d2]

/-- C2: for non-empty operands with digits in 0..9 (leading zeros allowed) `addition`
returns `SUCCESS` with a normalized result that denotes the sum of the two operands;
123 + 877 gives 1000. -/
theorem addition_correct (a b : Dlist) (ha : a ≠ []) (_hb : b ≠ []) (hda : digits a)
    (hdb : digits b) :
    (∃ r, addition a b [] = some (Status.SUCCESS, r) ∧ value r = value a + value b ∧
      normalized r) ∧
    addition [1, 2, 3] [8, 7, 7] [] = some (Status.SUCCESS, [1, 0, 0, 0]) :=
  ⟨addition_spec a b ha hda hdb, by decide⟩

/-- C2 at the operands 007 and 95. -/
theorem addition_correct_witness :
    ([0, 0, 7] : Dlist) ≠ [] ∧ ([9, 5] : Dlist) ≠ [] ∧ digits [0, 0, 7] ∧ digits [9, 5] ∧
    ((∃ r, addition [0, 0, 7] [9, 5] [] = some (Status.SUCCESS, r) ∧
        value r = value [0, 0, 7] + value [9, 5] ∧ normalized r) ∧
      addition [1, 2, 3] [8, 7, 7] [] = some (Status.SUCCESS, [1, 0, 0, 0])) :=
  ⟨by decide, by decide, by decide, by decide,
    addition_correct [0, 0, 7] [9, 5] (by decide) (by decide) (by decide) (by decide)⟩

/-- C10: `addition` is commutative: on non-empty operands with digits in 0..9 both orders
return `SUCCESS` with one and the same digit sequence (and the two calls agree on every
input whatsoever). -/
theorem addition_commutative (a b : Dlist) (ha : a ≠ []) (_hb : b ≠ []) (hda : digits a)
    (hdb : digits b) :
    (∃ r, addition a b [] = some (Status.SUCCESS, r) ∧
      addition b a [] = some (Status.SUCCESS, r)) ∧
    ∀ x y headR : Dlist, addition x y headR = addition y x headR := by
  have hc : ∀ x y headR : Dlist, addition x y headR = addition y x headR := by
    intro x y headR
    simp only [addition, addition_loop_comm x.reverse y.reverse]
  obtain ⟨r, h1, _, _⟩ := addition_spec a b ha hda hdb
  exact ⟨⟨r, h1, by rw [← hc, h1]⟩, hc⟩

/-- C10 at the operands 95 and 007. -/
theorem addition_commutative_witness :
    ([9, 5] : Dlist) ≠ [] ∧ ([0, 0, 7] : Dlist) ≠ [] ∧ digits [9, 5] ∧ digits [0, 0, 7] ∧
    ((∃ r, addition [9, 5] [0, 0, 7] [] = some (Status.SUCCESS, r) ∧
      addition [0, 0, 7] [9, 5] [] = some (Status.SUCCESS, r)) ∧
    ∀ x y headR : Dlist, addition x y headR = addition y x headR) :=
  ⟨by decide, by decide, by decide, by decide,
    addition_commutative [9, 5] [0, 0, 7] (by decide) (by decide) (by decide) (by decide)⟩


/-! ## Lemmas on `subtraction` -/

theorem subtraction_digit_spec (d1 d2 borrow : Int) (h1 : 0 ≤ d1 ∧ d1 ≤ 9)
    (h2 : 0 ≤ d2 ∧ d2 ≤ 9) (hb : 0 ≤ borrow ∧ borrow ≤ 1) :
    (0 ≤ (subtraction_digit d1 d2 borrow).1 ∧ (subtraction_digit d1 d2 borrow).1 ≤ 9) ∧
    (0 ≤ (subtraction_digit d1 d2 borrow).2 ∧ (subtraction_digit d1 d2 borrow).2 ≤ 1) ∧
    (subtraction_digit d1 d2 borrow).1 - 10 * (subtraction_digit d1 d2 borrow).2 =
      d1 - d2 - borrow := by
  unfold subtraction_digit
  simp only
  split <;> simp only <;> omega

/-- What the iterations with `digits_1 == NULL` add in front of the result list. -/
theorem subtraction_rest_spec (y : List Int) (borrow : Int) (headR : Dlist)
    (hy : digits y) (hb : 0 ≤ borrow ∧ borrow ≤ 1) :
    ∃ ds, (subtraction_rest y borrow headR).1 = ds ++ headR ∧ digits ds ∧
      ds.length = y.length ∧
      (0 ≤ (subtraction_rest y borrow headR).2 ∧ (subtraction_rest y borrow headR).2 ≤ 1) ∧
      value ds - (subtraction_rest y borrow headR).2 * 10 ^ ds.length =
        0 - value_from_tail y - borrow := by
  induction y generalizing borrow headR with
  | nil =>
    exact ⟨[], by simp [subtraction_rest], digits_nil, rfl, by simpa [subtraction_rest] using hb,
      by simp [subtraction_rest, value, value_from_tail]⟩
  | cons d2 p2 ih =>
    rw [digits_cons] at hy
    obtain ⟨s1, s2, s3⟩ := subtraction_digit_spec 0 d2 borrow (by norm_num) hy.1 hb
    simp only [subtraction_rest, insert_at_first]
    generalize subtraction_digit 0 d2 borrow = sd at s1 s2 s3
    obtain ⟨diff, b'⟩ := sd
    simp only at s1 s2 s3 ⊢
    obtain ⟨ds, e1, e2, e3, e4, e5⟩ := ih b' (diff :: headR) hy.2 s2
    refine ⟨ds ++ [diff], by simp [e1], digits_snoc e2 s1.1 s1.2, by simp [e3], e4, ?_⟩
    rw [value_snoc, List.length_append, List.length_singleton, pow_succ]
    simp only [value_from_tail]
    linear_combination 10 * e5 + s3

/-- What the loop of `subtraction` adds in front of the result list, and its final
borrow. -/
theorem subtraction_loop_spec (x y : List Int) (borrow : Int) (headR : Dlist)
    (hx : digits x) (hy : digits y) (hb : 0 ≤ borrow ∧ borrow ≤ 1) :
    ∃ ds, (subtraction_loop x y borrow headR).1 = ds ++ headR ∧ digits ds ∧
      ds.length = max x.length y.length ∧
      (0 ≤ (subtraction_loop x y borrow headR).2 ∧ (subtraction_loop x y borrow headR).2 ≤ 1) ∧
      value ds - (subtraction_loop x y borrow headR).2 * 10 ^ ds.length =
        value_from_tail x - value_from_tail y - borrow := by
  induction x generalizing y borrow headR with
  | nil =>
    obtain ⟨ds, e1, e2, e3, e4, e5⟩ := subtraction_rest_spec y borrow headR hy hb
    have h : subtraction_loop [] y borrow headR = subtraction_rest y borrow headR := by
      cases y <;> rfl
    rw [h]
    exact ⟨ds, e1, e2, by simp [e3], e4, by simp [e5, value_from_tail]⟩
  | cons d1 p1 ih =>
    rw [digits_cons] at hx
    cases y with
    | nil =>
      obtain ⟨s1, s2, s3⟩ := subtraction_digit_spec d1 0 borrow hx.1 (by norm_num) hb
      simp only [subtraction_loop, insert_at_first]
      generalize subtraction_digit d1 0 borrow = sd at s1 s2 s3
      obtain ⟨diff, b'⟩ := sd
      simp only at s1 s2 s3 ⊢
      obtain ⟨ds, e1, e2, e3, e4, e5⟩ := ih [] b' (diff :: headR) hx.2 digits_nil s2
      refine ⟨ds ++ [diff], by simp [e1], digits_snoc e2 s1.1 s1.2, by simp [e3], e4, ?_⟩
      rw [value_snoc, List.length_append, List.length_singleton, pow_succ]
      simp only [value_from_tail] at e5 ⊢
      linear_combination 10 * e5 + s3
    | cons d2 p2 =>
      rw [digits_cons] at hy
      obtain ⟨s1, s2, s3⟩ := subtraction_digit_spec d1 d2 borrow hx.1 hy.1 hb
      simp only [subtraction_loop, insert_at_first]
      generalize subtraction_digit d1 d2 borrow = sd at s1 s2 s3
      obtain ⟨diff, b'⟩ := sd
      simp only at s1 s2 s3 ⊢
      obtain ⟨ds, e1, e2, e3, e4, e5⟩ := ih p2 b' (diff :: headR) hx.2 hy.2 s2
      refine ⟨ds ++ [diff], by simp [e1], digits_snoc e2 s1.1 s1.2, ?_, e4, ?_⟩
      · simp [e3, Nat.succ_max_succ]
      · rw [value_snoc, List.length_append, List.length_singleton, pow_succ]
        simp only [value_from_tail]
        linear_combination 10 * e5 + s3

/-- When the first operand is not the smaller one, the loop of `subtraction` ends with
borrow 0 and has written the digits of the difference. -/
theorem subtraction_loop_no_borrow (a b : Dlist) (ha : digits a) (hb : digits b)
    (hlen : b.length ≤ a.length) (hle : value b ≤ value a) :
    ∃ ds, subtraction_loop a.reverse b.reverse 0 [] = (ds, 0) ∧ digits ds ∧
      ds.length = a.length ∧ value ds = value a - value b := by
  obtain ⟨ds, e1, e2, e3, e4, e5⟩ :=
    subtraction_loop_spec a.reverse b.reverse 0 [] (digits_reverse.2 ha) (digits_reverse.2 hb)
      (by norm_num)
  rw [value_from_tail_reverse, value_from_tail_reverse] at e5
  simp only [List.length_reverse] at e3
  rw [max_eq_left hlen] at e3
  rw [List.append_nil] at e1
  have h1 := value_lt e2
  have h2 := value_nonneg e2
  have h3 := value_lt ha
  have h4 := value_nonneg hb
  rw [e3] at h1 e5
  have hz : (subtraction_loop a.reverse b.reverse 0 []).2 = 0 := by
    rcases (show (subtraction_loop a.reverse b.reverse 0 []).2 = 0 ∨
        (subtraction_loop a.reverse b.reverse 0 []).2 = 1 by omega) with h | h
    · exact h
    · rw [h] at e5
      omega
  refine ⟨ds, ?_, e2, e3, ?_⟩
  · exact Prod.ext e1 hz
  · rw [hz] at e5
    omega

theorem normalized_zero : normalized [0] := by decide

/-- On normalized operands of which the first is not the smaller one, `subtraction`
returns `SUCCESS` with the normalized difference. -/
theorem subtraction_spec (a b : Dlist) (ha : normalized a) (hb : normalized b)
    (hle : value b ≤ value a) :
    ∃ r, subtraction a b [] = some (Status.SUCCESS, r) ∧ normalized r ∧
      value r = value a - value b := by
  unfold subtraction
  simp only
  by_cases heq : Find_largest a b = Status.EQUAL
  · rw [if_pos heq]
    have := (Find_largest_equal_iff a b).1 heq
    subst this
    exact ⟨[0], rfl, normalized_zero, by simp [value]⟩
  · rw [if_neg heq]
    have hlen : b.length ≤ a.length := by
      by_contra hlt
      have := value_lt_of_length_lt ha hb (by omega)
      omega
    obtain ⟨ds, e1, e2, e3, e4⟩ := subtraction_loop_no_borrow a b ha.2.1 hb.2.1 hlen hle
    have hne : ds ≠ [] := by
      intro h
      rw [h] at e3
      exact ha.1 (List.length_eq_zero.1 e3.symm)
    obtain ⟨r, r1, r2, r3⟩ := remove_leading_zeroes_spec hne e2
    refine ⟨r, ?_, r2, by rw [r3, e4]⟩
    simp only [e1, r1]

theorem value_le_of_not_LARGE_2 (a b : Dlist) (ha : normalized a) (hb : normalized b)
    (h : Find_largest a b ≠ Status.LARGE_2) : value b ≤ value a := by
  rw [Find_largest_eq a b ha hb] at h
  by_contra hlt
  exact h ((compare_values_LARGE_2 _ _).2 (by omega))

/-- C3: for normalized operands with `Find_largest a b` other than `LARGE_2`,
`subtraction` returns a normalized result that denotes `value a - value b`; the borrow is
0 when the loop has passed the most significant digit; 1000 - 1 gives 999. -/
theorem subtraction_correct (a b : Dlist) (ha : normalized a) (hb : normalized b)
    (h : Find_largest a b ≠ Status.LARGE_2) :
    (∃ r, subtraction a b [] = some (Status.SUCCESS, r) ∧ normalized r ∧
      value r = value a - value b) ∧
    (subtraction_loop a.reverse b.reverse 0 []).2 = 0 ∧
    subtraction [1, 0, 0, 0] [1] [] = some (Status.SUCCESS, [9, 9, 9]) := by
  have hle := value_le_of_not_LARGE_2 a b ha hb h
  refine ⟨subtraction_spec a b ha hb hle, ?_, by decide⟩
  have hlen : b.length ≤ a.length := by
    by_contra hlt
    have := value_lt_of_length_lt ha hb (by omega)
    omega
  obtain ⟨ds, e1, _⟩ := subtraction_loop_no_borrow a b ha.2.1 hb.2.1 hlen hle
  rw [e1]

/-- C3 at the operands 1234 and 1229, which share the prefix 12. -/
theorem subtraction_correct_witness :
    normalized [1, 2, 3, 4] ∧ normalized [1, 2, 2, 9] ∧
    Find_largest [1, 2, 3, 4] [1, 2, 2, 9] ≠ Status.LARGE_2 ∧
    ((∃ r, subtraction [1, 2, 3, 4] [1, 2, 2, 9] [] = some (Status.SUCCESS, r) ∧ normalized r ∧
      value r = value [1, 2, 3, 4] - value [1, 2, 2, 9]) ∧
    (subtraction_loop ([1, 2, 3, 4] : Dlist).reverse ([1, 2, 2, 9] : Dlist).reverse 0 []).2 = 0 ∧
    subtraction [1, 0, 0, 0] [1] [] = some (Status.SUCCESS, [9, 9, 9])) :=
  ⟨by decide, by decide, by decide,
    subtraction_correct [1, 2, 3, 4] [1, 2, 2, 9] (by decide) (by decide) (by decide)⟩


/-! ## Lemmas on `multiplication` -/

theorem value_from_tail_append_list (x y : List Int) :
    value_from_tail (x ++ y) = value_from_tail x + 10 ^ x.length * value_from_tail y := by
  induction x with
  | nil => simp [value_from_tail]
  | cons e x ih =>
    rw [List.cons_append]
    simp only [value_from_tail]
    rw [ih, List.length_cons, pow_succ]
    ring

theorem value_from_tail_replicate_zero (m : Nat) :
    value_from_tail (List.replicate m 0) = 0 := by
  induction m with
  | zero => rfl
  | succ m ih => simp [List.replicate_succ, value_from_tail, ih]

theorem digits_replicate_zero (m : Nat) : digits (List.replicate m 0) := by
  intro d hd
  rw [List.eq_of_mem_replicate hd]
  norm_num

theorem multiplication_zeroes_eq (k : Nat) (headR : Dlist) :
    multiplication_zeroes k headR = List.replicate k 0 ++ headR := by
  induction k generalizing headR with
  | zero => rfl
  | succ k ih =>
    simp only [multiplication_zeroes, insert_at_first, ih]
    rw [List.replicate_succ', List.append_assoc]
    rfl

/-- One row of the long multiplication: the `len(a)` window digits `u` take up
`d2 * a`, and the carry that is left goes into the next node `z`. -/
theorem multiplication_row_spec (d2 : Int) (hd2 : 0 ≤ d2 ∧ d2 ≤ 9) (a u : List Int) (z : Int)
    (rest : List Int) (carry : Int) (ha : digits a) (hu : digits u)
    (hlen : u.length = a.length) (hc : 0 ≤ carry ∧ carry ≤ 9) :
    ∃ u' c', multiplication_row d2 a (u ++ z :: rest) carry = some (u' ++ (z + c') :: rest) ∧
      u'.length = a.length ∧ digits u' ∧ (0 ≤ c' ∧ c' ≤ 9) ∧
      value_from_tail u' + c' * 10 ^ a.length =
        value_from_tail u + d2 * value_from_tail a + carry := by
  induction a generalizing u carry with
  | nil =>
    have hu0 : u = [] := List.length_eq_zero.1 hlen
    subst hu0
    refine ⟨[], carry, ?_, rfl, digits_nil, hc, by simp [value_from_tail]⟩
    simp only [multiplication_row, List.nil_append]
    split
    · rfl
    · next h =>
      have : carry = 0 := by simpa using h
      simp [this]
  | cons d1 a ih =>
    cases u with
    | nil => simp at hlen
    | cons r u =>
      simp only [List.length_cons, Nat.add_right_cancel_iff] at hlen
      rw [digits_cons] at ha hu
      have hp0 : 0 ≤ d1 * d2 + r + carry := by nlinarith [ha.1.1, hd2.1, hu.1.1, hc.1]
      have hp1 : d1 * d2 + r + carry ≤ 99 := by nlinarith [ha.1.2, hd2.2, hu.1.2, hc.2, ha.1.1, hd2.1]
      obtain ⟨u', c', e1, e2, e3, e4, e5⟩ :=
        ih u ((d1 * d2 + r + carry) / 10) ha.2 hu.2 hlen (by omega)
      refine ⟨(d1 * d2 + r + carry) % 10 :: u', c', ?_, by simp [e2], ?_, e4, ?_⟩
      · rw [List.cons_append, multiplication_row]
        simp only [tdiv_ten hp0, tmod_ten hp0]
        rw [e1]
        rfl
      · exact digits_cons.2 ⟨by omega, e3⟩
      · simp only [value_from_tail, List.length_cons, pow_succ]
        have := Int.emod_add_ediv (d1 * d2 + r + carry) 10
        linear_combination 10 * e5 + this

/-- The outer loop of `multiplication`, started with `len(a)` window digits `u` followed
by at least as many zero nodes as there are digits of the second operand left. -/
theorem multiplication_loop_spec (a : List Int) (ha : digits a) (hne : a ≠ [])
    (y below u : List Int) (m : Nat) (hy : digits y) (hb : digits below) (hu : digits u)
    (hlen : u.length = a.length) (hm : y.length ≤ m) :
    ∃ out, multiplication_loop a y below (u ++ List.replicate m 0) = some out ∧ digits out ∧
      out.length = below.length + a.length + m ∧
      value_from_tail out = value_from_tail below +
        10 ^ below.length * (value_from_tail u + value_from_tail a * value_from_tail y) := by
  induction y generalizing below u m with
  | nil =>
    refine ⟨below ++ (u ++ List.replicate m 0), rfl, ?_, ?_, ?_⟩
    · exact digits_append.2 ⟨hb, digits_append.2 ⟨hu, digits_replicate_zero m⟩⟩
    · simp [hlen]; omega
    · rw [value_from_tail_append_list, value_from_tail_append_list,
        value_from_tail_replicate_zero]
      simp [value_from_tail]
  | cons d2 y ih =>
    rw [digits_cons] at hy
    cases m with
    | zero => simp at hm
    | succ m =>
      simp only [List.length_cons, Nat.add_le_add_iff_right] at hm
      obtain ⟨u', c', e1, e2, e3, e4, e5⟩ :=
        multiplication_row_spec d2 hy.1 a u 0 (List.replicate m 0) 0 ha hu hlen (by norm_num)
      cases u' with
      | nil =>
        have : a.length = 0 := by simpa using e2.symm
        exact absurd (List.length_eq_zero.1 this) hne
      | cons r u' =>
        rw [digits_cons] at e3
        have hd : digits (u' ++ [c']) := digits_snoc e3.2 e4.1 e4.2
        have hl : (u' ++ [c']).length = a.length := by
          simp only [List.length_append, List.length_singleton]
          simpa using e2
        obtain ⟨out, o1, o2, o3, o4⟩ :=
          ih (below ++ [r]) (u' ++ [c']) m hy.2 (digits_snoc hb e3.1.1 e3.1.2) hd hl hm
        refine ⟨out, ?_, o2, ?_, ?_⟩
        · simp only [multiplication_loop, List.replicate_succ, e1, List.cons_append, zero_add]
          rw [← o1, List.append_assoc]
          rfl
        · rw [o3]
          simp only [List.length_append, List.length_singleton]
          omega
        · rw [o4, value_from_tail_append_list, value_from_tail_append_list]
          simp only [List.length_append, List.length_singleton, value_from_tail, pow_succ]
          simp only [List.length_cons] at e2
          have hl' : u'.length + 1 = a.length := e2
          rw [← hl'] at e5
          simp only [value_from_tail, pow_succ] at e5
          linear_combination (10 ^ below.length) * e5

/-- On non-empty operands with digits in 0..9 `multiplication` returns `SUCCESS` with a
normalized result that denotes the product. -/
theorem multiplication_spec (a b : Dlist) (ha : a ≠ []) (hda : digits a) (hdb : digits b) :
    ∃ r, multiplication a b [] = some (Status.SUCCESS, r) ∧ normalized r ∧
      value r = value a * value b := by
  have hne : a.reverse ≠ [] := by simpa using ha
  obtain ⟨out, o1, o2, o3, o4⟩ :=
    multiplication_loop_spec a.reverse (digits_reverse.2 hda) hne b.reverse []
      (List.replicate a.length 0) b.length (digits_reverse.2 hdb) digits_nil
      (digits_replicate_zero _) (by simp) (by simp)
  have hout : out.reverse ≠ [] := by
    intro h
    have h0 : out.length = 0 := by simpa using h
    rw [o3] at h0
    have : a.length ≠ 0 := fun h => ha (List.length_eq_zero.1 h)
    simp only [List.length_reverse, List.length_nil] at h0
    omega
  obtain ⟨r, r1, r2, r3⟩ := remove_leading_zeroes_spec hout (digits_reverse.2 o2)
  refine ⟨r, ?_, r2, ?_⟩
  · unfold multiplication
    simp only
    rw [multiplication_zeroes_eq, List.append_nil, List.reverse_replicate, List.replicate_add, o1]
    simp only [r1]
  · rw [r3, value_reverse, o4, value_from_tail_replicate_zero, value_from_tail_reverse,
      value_from_tail_reverse]
    simp [value_from_tail]

/-- C4: for non-empty operands with digits in 0..9 `multiplication` returns a normalized
result that denotes the product of the two operands; 999 x 999 gives 998001. -/
theorem multiplication_correct (a b : Dlist) (ha : a ≠ []) (_hb : b ≠ []) (hda : digits a)
    (hdb : digits b) :
    (∃ r, multiplication a b [] = some (Status.SUCCESS, r) ∧ normalized r ∧
      value r = value a * value b) ∧
    multiplication [9, 9, 9] [9, 9, 9] [] = some (Status.SUCCESS, [9, 9, 8, 0, 0, 1]) :=
  ⟨multiplication_spec a b ha hda hdb, by decide⟩

/-- C4 at the operands 012 and 34. -/
theorem multiplication_correct_witness :
    ([0, 1, 2] : Dlist) ≠ [] ∧ ([3, 4] : Dlist) ≠ [] ∧ digits [0, 1, 2] ∧ digits [3, 4] ∧
    ((∃ r, multiplication [0, 1, 2] [3, 4] [] = some (Status.SUCCESS, r) ∧ normalized r ∧
      value r = value [0, 1, 2] * value [3, 4]) ∧
    multiplication [9, 9, 9] [9, 9, 9] [] = some (Status.SUCCESS, [9, 9, 8, 0, 0, 1])) :=
  ⟨by decide, by decide, by decide, by decide,
    multiplication_correct [0, 1, 2] [3, 4] (by decide) (by decide) (by decide) (by decide)⟩


/-! ## Lemmas on `division` -/

theorem foldl_insert_at_last (l headR : Dlist) : l.foldl insert_at_last headR = headR ++ l := by
  induction l generalizing headR with
  | nil => simp
  | cons d l ih => simp [List.foldl_cons, ih, insert_at_last]

theorem copy_list_eq (l : Dlist) : copy_list l = l := by
  simp [copy_list, foldl_insert_at_last]

theorem foldl_insert_at_first (l headR : Dlist) :
    l.foldl insert_at_first headR = l.reverse ++ headR := by
  induction l generalizing headR with
  | nil => simp
  | cons d l ih => simp [List.foldl_cons, ih, insert_at_first]

/-- With `malloc` succeeding, `increment_list` never returns `FAILURE`. -/
theorem increment_list_status (q : Dlist) : (increment_list q).1 = Status.SUCCESS := by
  cases q with
  | nil => rfl
  | cons d t =>
    simp only [increment_list]
    split <;> rfl

theorem Find_largest_cases (a b : Dlist) (ha : normalized a) (hb : normalized b) :
    (Find_largest a b = Status.LARGE_1 ∧ value b < value a) ∨
    (Find_largest a b = Status.LARGE_2 ∧ value a < value b) ∨
    (Find_largest a b = Status.EQUAL ∧ value a = value b) := by
  rw [Find_largest_eq a b ha hb]
  unfold compare_values
  by_cases h1 : value a > value b
  · exact Or.inl ⟨by simp [h1], h1⟩
  · by_cases h2 : value a < value b
    · exact Or.inr (Or.inl ⟨by simp [h1, h2], h2⟩)
    · exact Or.inr (Or.inr ⟨by simp [h1, h2], by omega⟩)

/-- The repeated-subtraction loop of `division` ends as soon as the fuel exceeds the
quotient of the values: it leaves a normalized running remainder that is congruent to
the dividend and not greater than the divisor, `large` telling whether it is equal. -/
theorem division_loop_spec (b : Dlist) (hb : normalized b) (fuel : Nat) (h1 headR qH : Dlist)
    (hh : normalized h1) (hfuel : value h1 < fuel * value b) :
    ∃ large h1' headR' qH', division_loop fuel h1 b headR qH
        = Outcome.returned large (h1', headR', qH') ∧
      (large = Status.LARGE_2 ∨ large = Status.EQUAL) ∧ normalized h1' ∧
      Find_largest h1' b = large ∧ ∃ k : Int, value h1 = value h1' + k * value b := by
  induction fuel generalizing h1 headR qH with
  | zero =>
    have := value_nonneg hh.2.1
    simp at hfuel
    omega
  | succ fuel ih =>
    simp only [division_loop]
    rcases Find_largest_cases h1 b hh hb with ⟨hl, hv⟩ | ⟨hl, hv⟩ | ⟨hl, hv⟩
    · obtain ⟨r, r1, r2, r3⟩ := subtraction_spec h1 b hh hb (le_of_lt hv)
      have hi := increment_list_status qH
      rcases hq : increment_list qH with ⟨st', qH'⟩
      rw [hq] at hi
      simp only at hi
      subst hi
      have hf : value r < fuel * value b := by
        rw [r3]
        push_cast at hfuel
        linarith
      obtain ⟨large, h1', headR', qH'', e1, e2, e3, e4, k, e5⟩ := ih r r qH' r2 hf
      refine ⟨large, h1', headR', qH'', ?_, e2, e3, e4, k + 1, ?_⟩
      · simp only [hl, r1, if_true]
        simpa using e1
      · rw [r3] at e5
        linear_combination e5
    · refine ⟨Status.LARGE_2, h1, headR, qH, ?_, Or.inl rfl, hh, hl, 0, by simp⟩
      simp [hl]
    · refine ⟨Status.EQUAL, h1, headR, qH, ?_, Or.inr rfl, hh, hl, 0, by simp⟩
      simp [hl]

theorem strstr_Mod_Div : strstr "Mod" "Div" = false := by decide

theorem strstr_Mod_Mod : strstr "Mod" "Mod" = true := by decide

theorem strstr_Div_Div : strstr "Div" "Div" = true := by decide

/-- The remainder branch of the code after the loop. -/
theorem division_result_Mod (large : Status) (h1 qH : Dlist) (hh : normalized h1)
    (hl : large = Status.LARGE_2 ∨ large = Status.EQUAL) :
    division_result large h1 qH "Mod" =
      if large = Status.EQUAL then Outcome.returned Status.SUCCESS ([0], [0])
      else Outcome.returned Status.SUCCESS (h1, h1) := by
  rcases hl with hl | hl
  · subst hl
    have hne := hh.1
    cases h1 with
    | nil => exact absurd rfl hne
    | cons d next =>
      have hr := remove_leading_zeroes_of_normalized hh
      have hcopy : (if d = 0 ∧ next = [] then ([0] : Dlist) else d :: next) = d :: next := by
        split
        · next hz => rw [hz.1, hz.2]
        · rfl
      simp only [division_result, strstr_Mod_Div, strstr_Mod_Mod, foldl_insert_at_last,
        insert_at_last, List.nil_append, reduceCtorEq, if_false, if_true, Bool.false_eq_true,
        hcopy, hr]
  · subst hl
    simp [division_result, strstr_Mod_Div, strstr_Mod_Mod, insert_at_last,
      remove_leading_zeroes]

/-- In remainder mode, on a normalized dividend and a normalized non-zero divisor,
`division` returns `SUCCESS` with the normalized remainder once the fuel exceeds the
quotient. -/
theorem division_Mod_spec (a b : Dlist) (ha : normalized a) (hb : normalized b)
    (hb0 : b ≠ [0]) (fuel : Nat) (hfuel : value a < fuel * value b) :
    ∃ h1 r, division fuel a b [] "Mod" = Outcome.returned Status.SUCCESS (h1, r) ∧
      normalized r ∧ value r = value a % value b ∧ value r < value b := by
  have hpos := value_pos_of_normalized hb hb0
  have hann := value_nonneg ha.2.1
  have hne := hb.1
  cases b with
  | nil => exact absurd rfl hne
  | cons d next =>
    have hz : ¬ (d = 0 ∧ next = []) := by
      rintro ⟨h1, h2⟩
      subst h1 h2
      exact hb0 rfl
    simp only [division, if_neg hz, strstr_Mod_Div]
    rcases Find_largest_cases a (d :: next) ha hb with ⟨hl, hv⟩ | ⟨hl, hv⟩ | ⟨hl, hv⟩
    · obtain ⟨large, h1', headR', qH', e1, e2, e3, e4, k, e5⟩ :=
        division_loop_spec (d :: next) hb fuel a [] [] ha hfuel
      have hnf : large ≠ Status.FAILURE := by
        rcases e2 with h | h <;> subst h <;> decide
      simp only [hl, e1, if_neg hnf, division_result_Mod large h1' qH' e3 e2]
      rcases Find_largest_cases h1' (d :: next) e3 hb with ⟨gl, gv⟩ | ⟨gl, gv⟩ | ⟨gl, gv⟩
      · rw [gl] at e4
        subst e4
        rcases e2 with h | h <;> cases h
      · rw [gl] at e4
        subst e4
        refine ⟨h1', h1', by simp, e3, ?_, gv⟩
        rw [e5, Int.add_mul_emod_self]
        exact (Int.emod_eq_of_lt (value_nonneg e3.2.1) gv).symm
      · rw [gl] at e4
        subst e4
        refine ⟨[0], [0], by simp, normalized_zero, ?_, by simpa [value] using hpos⟩
        rw [e5, gv]
        have : value (d :: next) + k * value (d :: next) = (1 + k) * value (d :: next) := by
          ring
        rw [this, Int.mul_emod_left]
        simp [value]
    · refine ⟨a, a, by simp [hl, foldl_insert_at_last], ha, ?_, hv⟩
      exact (Int.emod_eq_of_lt hann hv).symm
    · refine ⟨a, [0], by simp [hl, insert_at_last], normalized_zero, ?_,
        by simpa [value] using hpos⟩
      rw [hv, Int.emod_self]
      simp [value]

/-- C6: in remainder mode (`"Mod"`), for a normalized dividend and a normalized divisor
other than `[0]`, `division` returns (once the fuel exceeds the quotient) the normalized
digit sequence of `value a mod value b`, which `Find_largest` finds smaller than the
divisor; 100 mod 7 gives 2. -/
theorem division_Mod_correct (a b : Dlist) (ha : normalized a) (hb : normalized b)
    (hb0 : b ≠ [0]) (fuel : Nat) (hfuel : value a < fuel * value b) :
    (∃ h1 r, division fuel a b [] "Mod" = Outcome.returned Status.SUCCESS (h1, r) ∧
      normalized r ∧ value r = value a % value b ∧ Find_largest r b = Status.LARGE_2) ∧
    division 15 [1, 0, 0] [7] [] "Mod" = Outcome.returned Status.SUCCESS ([2], [2]) := by
  refine ⟨?_, by decide⟩
  obtain ⟨h1, r, e1, e2, e3, e4⟩ := division_Mod_spec a b ha hb hb0 fuel hfuel
  refine ⟨h1, r, e1, e2, e3, ?_⟩
  rw [Find_largest_eq r b e2 hb]
  exact (compare_values_LARGE_2 _ _).2 e4

/-- C6 at the operands 45 and 6 with fuel 8. -/
theorem division_Mod_correct_witness :
    normalized [4, 5] ∧ normalized [6] ∧ ([6] : Dlist) ≠ [0] ∧
    value [4, 5] < ((8 : Nat) : Int) * value [6] ∧
    ((∃ h1 r, division 8 [4, 5] [6] [] "Mod" = Outcome.returned Status.SUCCESS (h1, r) ∧
      normalized r ∧ value r = value [4, 5] % value [6] ∧
      Find_largest r [6] = Status.LARGE_2) ∧
    division 15 [1, 0, 0] [7] [] "Mod" = Outcome.returned Status.SUCCESS ([2], [2])) :=
  ⟨by decide, by decide, by decide, by decide,
    division_Mod_correct [4, 5] [6] (by decide) (by decide) (by decide) 8 (by decide)⟩


/-- C5 (code defect): in quotient mode `division` copies the step counter into the result
with `insert_at_first` while walking the counter from its head, which reverses the digits:
for 100 / 7 the counter ends as `[1, 4]` and the returned sequence is `[4, 1]`, which
denotes 41 and not floor(100 / 7) = 14. -/
theorem division_Div_reversed_at_100_7 :
    division 15 [1, 0, 0] [7] [] "Div" = Outcome.returned Status.SUCCESS ([2], [4, 1]) ∧
    division_loop 15 [1, 0, 0] [7] [] [] = Outcome.returned Status.LARGE_2 ([2], [2], [1, 4]) ∧
    value [4, 1] ≠ value [1, 0, 0] / value [7] := by
  decide

/-- C7 (code defect): the round trip fails at 100 and 7.  The quotient comes back as
`[4, 1]` (C5), so `addition(multiplication(quotient, b), remainder)` is `[2, 8, 9]` and not
the dividend `[1, 0, 0]`. -/
theorem division_round_trip_fails_at_100_7 :
    division 15 [1, 0, 0] [7] [] "Div" = Outcome.returned Status.SUCCESS ([2], [4, 1]) ∧
    division 15 [1, 0, 0] [7] [] "Mod" = Outcome.returned Status.SUCCESS ([2], [2]) ∧
    multiplication [4, 1] [7] [] = some (Status.SUCCESS, [2, 8, 7]) ∧
    addition [2, 8, 7] [2] [] = some (Status.SUCCESS, [2, 8, 9]) ∧
    ([2, 8, 9] : Dlist) ≠ [1, 0, 0] := by
  decide

/-- C8: with the divisor `[0]`, for every dividend, every mode string, every result list
handed in and every fuel (0 included: the loop is never entered) `division` ends in the
division-by-zero exit, and the caller's dividend and result list are as they were handed
in; an empty result list stays empty. -/
theorem division_by_zero (fuel : Nat) (a headR : Dlist) (D_or_M : String) :
    division fuel a [0] headR D_or_M = Outcome.exited 0 (a, headR) ∧
    division fuel a [0] [] D_or_M = Outcome.exited 0 (a, []) ∧
    division 0 [1, 0] [0] [] "Div" = Outcome.exited 0 ([1, 0], []) ∧
    division 0 [1, 0] [0] [] "Mod" = Outcome.exited 0 ([1, 0], []) := by
  refine ⟨?_, ?_, by decide, by decide⟩ <;> simp [division]

/-! ## Lemmas on `power` -/

theorem subtract_one_loop_spec (x : List Int) (hx : digits x) (hpos : 0 < value_from_tail x) :
    digits (subtract_one_loop x) ∧ (subtract_one_loop x).length = x.length ∧
    value_from_tail (subtract_one_loop x) = value_from_tail x - 1 := by
  induction x with
  | nil => simp [value_from_tail] at hpos
  | cons d t ih =>
    rw [digits_cons] at hx
    simp only [subtract_one_loop]
    split
    · next hd =>
      refine ⟨digits_cons.2 ⟨by omega, hx.2⟩, rfl, ?_⟩
      simp only [value_from_tail]
      ring
    · next hd =>
      have hd0 : d = 0 := by omega
      subst hd0
      simp only [value_from_tail, zero_add] at hpos
      obtain ⟨i1, i2, i3⟩ := ih hx.2 (by omega)
      refine ⟨digits_cons.2 ⟨by norm_num, i1⟩, by simp [i2], ?_⟩
      simp only [value_from_tail, i3]
      ring

/-- On a normalized sequence of positive value `subtract_one` gives the normalized
sequence of the value minus one. -/
theorem subtract_one_spec (e : Dlist) (he : normalized e) (hpos : 0 < value e) :
    ∃ e', subtract_one e = some e' ∧ normalized e' ∧ value e' = value e - 1 := by
  have hx : digits e.reverse := digits_reverse.2 he.2.1
  obtain ⟨i1, i2, i3⟩ :=
    subtract_one_loop_spec e.reverse hx (by rw [value_from_tail_reverse]; exact hpos)
  have hne : (subtract_one_loop e.reverse).reverse ≠ [] := by
    intro h
    have h0 : (subtract_one_loop e.reverse).length = 0 := by simpa using h
    rw [i2, List.length_reverse] at h0
    exact he.1 (List.length_eq_zero.1 h0)
  obtain ⟨r, r1, r2, r3⟩ := remove_leading_zeroes_spec hne (digits_reverse.2 i1)
  refine ⟨r, r1, r2, ?_⟩
  rw [r3, value_reverse, i3, value_from_tail_reverse]

/-- The loop of `power` ends as soon as the fuel exceeds the value of the exponent: the
exponent is then `[0]` and the result has been multiplied by the base that many times. -/
theorem power_loop_spec (baseH : Dlist) (hb : digits baseH) (fuel : Nat) (expH headR : Dlist)
    (he : normalized expH) (hr : normalized headR) (hfuel : value expH < fuel) :
    ∃ r, power_loop fuel baseH expH headR = Outcome.returned Status.SUCCESS ([0], r) ∧
      normalized r ∧ value r = value headR * value baseH ^ (value expH).toNat := by
  induction fuel generalizing expH headR with
  | zero =>
    have := value_nonneg he.2.1
    simp at hfuel
    omega
  | succ fuel ih =>
    have hne := he.1
    cases expH with
    | nil => exact absurd rfl hne
    | cons d next =>
      simp only [power_loop]
      by_cases hz : d ≠ 0 ∨ next ≠ []
      · have h0 : d :: next ≠ [0] := by
          intro h
          simp only [List.cons.injEq] at h
          rcases hz with hz | hz
          · exact hz h.1
          · exact hz h.2
        have hpos := value_pos_of_normalized he h0
        obtain ⟨m, m1, m2, m3⟩ := multiplication_spec headR baseH hr.1 hr.2.1 hb
        obtain ⟨e', s1, s2, s3⟩ := subtract_one_spec (d :: next) he hpos
        obtain ⟨r, r1, r2, r3⟩ := ih e' m s2 m2 (by push_cast at hfuel; omega)
        refine ⟨r, ?_, r2, ?_⟩
        · simp only [if_pos hz, copy_list_eq, free_list, m1, s1]
          simpa using r1
        · rw [r3, m3, s3]
          have ht : (value (d :: next)).toNat = (value (d :: next) - 1).toNat + 1 := by omega
          rw [ht, pow_succ]
          ring
      · have h0 : d = 0 ∧ next = [] := by
          constructor
          · by_contra h; exact hz (Or.inl h)
          · by_contra h; exact hz (Or.inr h)
        obtain ⟨hd, hn⟩ := h0
        subst hd hn
        exact ⟨headR, by simp [power_loop], hr, by simp [value]⟩

theorem normalized_one : normalized [1] := by decide

/-- For a base with digits in 0..9 and a normalized exponent `power` returns `SUCCESS`
with the normalized power, once the fuel exceeds the value of the exponent. -/
theorem power_spec (baseH expH headR : Dlist) (hb : digits baseH) (he : normalized expH)
    (fuel : Nat) (hfuel : value expH < fuel) :
    ∃ e' r, power fuel baseH expH headR = Outcome.returned Status.SUCCESS (e', r) ∧
      normalized r ∧ value r = value baseH ^ (value expH).toNat := by
  have hne := he.1
  cases expH with
  | nil => exact absurd rfl hne
  | cons d next =>
    simp only [power, insert_at_first]
    by_cases hz : d = 0 ∧ next = []
    · obtain ⟨hd, hn⟩ := hz
      subst hd hn
      exact ⟨[0], [1], by simp, normalized_one, by simp [value]⟩
    · obtain ⟨r, r1, r2, r3⟩ :=
        power_loop_spec baseH hb fuel (d :: next) [1] he normalized_one hfuel
      refine ⟨[0], r, ?_, r2, ?_⟩
      · simp only [if_neg hz, r1, remove_leading_zeroes_of_normalized r2]
        simp
      · rw [r3]
        simp [value]

/-- C9: for a non-empty base with digits in 0..9 and a normalized exponent, `power`
returns (once the fuel exceeds the value of the exponent) a normalized result that
denotes `value base ^ value e`, where `0 ^ 0 = 1`; 2 ^ 10 gives 1024 and 0 ^ 0 gives 1. -/
theorem power_correct (baseH expH : Dlist) (_hne : baseH ≠ []) (hb : digits baseH)
    (he : normalized expH) (fuel : Nat) (hfuel : value expH < fuel) :
    (∃ e' r, power fuel baseH expH [] = Outcome.returned Status.SUCCESS (e', r) ∧
      normalized r ∧ value r = value baseH ^ (value expH).toNat) ∧
    power 11 [2] [1, 0] [] = Outcome.returned Status.SUCCESS ([0], [1, 0, 2, 4]) ∧
    power 1 [0] [0] [] = Outcome.returned Status.SUCCESS ([0], [1]) :=
  ⟨power_spec baseH expH [] hb he fuel hfuel, by decide, by decide⟩

/-- C9 at the base 03 and the exponent 4 with fuel 5. -/
theorem power_correct_witness :
    ([0, 3] : Dlist) ≠ [] ∧ digits [0, 3] ∧ normalized [4] ∧ value [4] < ((5 : Nat) : Int) ∧
    ((∃ e' r, power 5 [0, 3] [4] [] = Outcome.returned Status.SUCCESS (e', r) ∧
      normalized r ∧ value r = value [0, 3] ^ (value [4]).toNat) ∧
    power 11 [2] [1, 0] [] = Outcome.returned Status.SUCCESS ([0], [1, 0, 2, 4]) ∧
    power 1 [0] [0] [] = Outcome.returned Status.SUCCESS ([0], [1])) :=
  ⟨by decide, by decide, by decide, by decide,
    power_correct [0, 3] [4] (by decide) (by decide) (by decide) 5 (by decide)⟩

/-! ## Algebraic laws of `addition` and `multiplication` -/

/-- Two normalized sequences that denote the same number are the same sequence. -/
theorem normalized_eq_of_value_eq {a b : Dlist} (ha : normalized a) (hb : normalized b)
    (h : value a = value b) : a = b := by
  have h1 := Find_largest_eq a b ha hb
  rw [(compare_values_EQUAL _ _).2 h] at h1
  exact (Find_largest_equal_iff a b).1 h1

/-- Two digit lists of the same length that denote the same number are the same list. -/
theorem digits_eq_of_value_eq {a b : Dlist} (hlen : a.length = b.length) (ha : digits a)
    (hb : digits b) (h : value a = value b) : a = b := by
  have h1 := Find_largest_digits_eq a b hlen ha hb
  rw [(compare_values_EQUAL _ _).2 h] at h1
  exact (Find_largest_digits_equal_iff a b hlen).1 h1

theorem value_replicate_zero (m : Nat) : value (List.replicate m 0) = 0 := by
  induction m with
  | zero => rfl
  | succ m ih => simp [List.replicate_succ, value, ih]

/-- The buffer of `multiplication` when the outer loop has ended (head first): it has
`len(a) + len(b)` digits and denotes the product; the function returns it with the
leading zeroes removed. -/
theorem multiplication_buffer (a b : Dlist) (ha : a ≠ []) (hda : digits a) (hdb : digits b) :
    ∃ buf, multiplication_loop a.reverse b.reverse []
        (List.replicate (a.length + b.length) 0) = some buf.reverse ∧
      digits buf ∧ buf.length = a.length + b.length ∧ value buf = value a * value b ∧
      multiplication a b [] = some (Status.SUCCESS, delete_at_first buf) := by
  have hne : a.reverse ≠ [] := by simpa using ha
  obtain ⟨out, o1, o2, o3, o4⟩ :=
    multiplication_loop_spec a.reverse (digits_reverse.2 hda) hne b.reverse []
      (List.replicate a.length 0) b.length (digits_reverse.2 hdb) digits_nil
      (digits_replicate_zero _) (by simp) (by simp)
  have hout : out.reverse ≠ [] := by
    intro h
    have h0 : out.length = 0 := by simpa using h
    rw [o3] at h0
    have : a.length ≠ 0 := fun h => ha (List.length_eq_zero.1 h)
    simp only [List.length_reverse, List.length_nil] at h0
    omega
  refine ⟨out.reverse, ?_, digits_reverse.2 o2, ?_, ?_, ?_⟩
  · rw [List.reverse_reverse, List.replicate_add]
    exact o1
  · simp [o3]
  · rw [value_reverse, o4, value_from_tail_replicate_zero, value_from_tail_reverse,
      value_from_tail_reverse]
    simp [value_from_tail]
  · unfold multiplication
    simp only
    rw [multiplication_zeroes_eq, List.append_nil, List.reverse_replicate, List.replicate_add, o1]
    simp only [remove_leading_zeroes_eq hout]

/-- C11: `multiplication` is commutative: on non-empty operands with digits in 0..9 both
orders return `SUCCESS` with one and the same digit sequence, although the outer loop
runs over the second operand and the inner loop over the first. -/
theorem multiplication_commutative (a b : Dlist) (ha : a ≠ []) (hb : b ≠ []) (hda : digits a)
    (hdb : digits b) :
    ∃ r, multiplication a b [] = some (Status.SUCCESS, r) ∧
      multiplication b a [] = some (Status.SUCCESS, r) := by
  obtain ⟨r, r1, r2, r3⟩ := multiplication_spec a b ha hda hdb
  obtain ⟨s, s1, s2, s3⟩ := multiplication_spec b a hb hdb hda
  have : s = r := normalized_eq_of_value_eq s2 r2 (by rw [r3, s3]; ring)
  subst this
  exact ⟨s, r1, s1⟩

/-- C11 at the operands 012 and 905. -/
theorem multiplication_commutative_witness :
    ([0, 1, 2] : Dlist) ≠ [] ∧ ([9, 0, 5] : Dlist) ≠ [] ∧ digits [0, 1, 2] ∧ digits [9, 0, 5] ∧
    ∃ r, multiplication [0, 1, 2] [9, 0, 5] [] = some (Status.SUCCESS, r) ∧
      multiplication [9, 0, 5] [0, 1, 2] [] = some (Status.SUCCESS, r) :=
  ⟨by decide, by decide, by decide, by decide,
    multiplication_commutative [0, 1, 2] [9, 0, 5] (by decide) (by decide) (by decide)
      (by decide)⟩

/-- C12: additive identity: for a normalized `a`, `addition(a, [0])` returns `SUCCESS`
with exactly the digits of `a`. -/
theorem addition_zero (a : Dlist) (ha : normalized a) :
    addition a [0] [] = some (Status.SUCCESS, a) := by
  obtain ⟨r, r1, r2, r3⟩ := addition_spec a [0] ha.1 ha.2.1 normalized_zero.2.1
  have : r = a := normalized_eq_of_value_eq r3 ha (by rw [r2]; simp [value])
  rw [r1, this]

/-- C12 at the operand 1090. -/
theorem addition_zero_witness :
    normalized [1, 0, 9, 0] ∧ addition [1, 0, 9, 0] [0] [] = some (Status.SUCCESS, [1, 0, 9, 0]) :=
  ⟨by decide, addition_zero [1, 0, 9, 0] (by decide)⟩

/-- C13: multiplicative identity: for a normalized `a`, `multiplication(a, [1])` returns
`SUCCESS` with exactly the digits of `a`; the buffer of `len(a) + 1` digits holds `a`
behind one leading zero, and that zero is removed unless `a` is `[0]` (the buffer is then
`[0, 0]` and one of its two zeroes is removed). -/
theorem multiplication_one (a : Dlist) (ha : normalized a) :
    multiplication a [1] [] = some (Status.SUCCESS, a) ∧
    multiplication_loop a.reverse [1] [] (List.replicate (a.length + 1) 0)
      = some (0 :: a).reverse ∧
    delete_at_first (0 :: a) = a := by
  have hd1 : digits [1] := by decide
  obtain ⟨buf, b1, b2, b3, b4, b5⟩ := multiplication_buffer a [1] ha.1 ha.2.1 hd1
  have hbuf : buf = 0 :: a := by
    apply digits_eq_of_value_eq
    · simpa using b3
    · exact b2
    · exact digits_cons.2 ⟨by norm_num, ha.2.1⟩
    · rw [b4]
      simp [value]
  subst hbuf
  have hr : delete_at_first (0 :: a) = a := by
    obtain ⟨r, r1, r2, r3⟩ := multiplication_spec a [1] ha.1 ha.2.1 hd1
    rw [b5] at r1
    simp only [Option.some.injEq, Prod.mk.injEq, true_and] at r1
    rw [r1]
    exact normalized_eq_of_value_eq r2 ha (by rw [r3]; simp [value])
  refine ⟨by rw [b5, hr], ?_, hr⟩
  simpa using b1

/-- C13 at the operand 1090. -/
theorem multiplication_one_witness :
    normalized [1, 0, 9, 0] ∧
    (multiplication [1, 0, 9, 0] [1] [] = some (Status.SUCCESS, [1, 0, 9, 0]) ∧
    multiplication_loop ([1, 0, 9, 0] : Dlist).reverse [1] []
        (List.replicate (([1, 0, 9, 0] : Dlist).length + 1) 0)
      = some ((0 : Int) :: [1, 0, 9, 0]).reverse ∧
    delete_at_first (0 :: [1, 0, 9, 0]) = [1, 0, 9, 0]) :=
  ⟨by decide, multiplication_one [1, 0, 9, 0] (by decide)⟩

/-- C14: zero annihilates: for a non-empty `a` with digits in 0..9,
`multiplication(a, [0])` returns `SUCCESS` with `[0]`; the buffer of `len(a) + 1` digits is
all zero when the loop ends and is cut down to one digit. -/
theorem multiplication_zero (a : Dlist) (ha : a ≠ []) (hda : digits a) :
    multiplication a [0] [] = some (Status.SUCCESS, [0]) ∧
    multiplication_loop a.reverse [0] [] (List.replicate (a.length + 1) 0)
      = some (List.replicate (a.length + 1) 0) ∧
    delete_at_first (List.replicate (a.length + 1) 0) = [0] := by
  have hd0 : digits [0] := by decide
  obtain ⟨buf, b1, b2, b3, b4, b5⟩ := multiplication_buffer a [0] ha hda hd0
  have hbuf : buf = List.replicate (a.length + 1) 0 := by
    apply digits_eq_of_value_eq
    · simpa using b3
    · exact b2
    · exact digits_replicate_zero _
    · rw [b4, value_replicate_zero]
      simp [value]
  subst hbuf
  have hr : delete_at_first (List.replicate (a.length + 1) 0) = [0] := by
    have hn : normalized (delete_at_first (List.replicate (a.length + 1) 0)) :=
      delete_at_first_normalized (by simp) (digits_replicate_zero _)
    apply (value_eq_zero_iff hn).1
    rw [delete_at_first_value, value_replicate_zero]
  refine ⟨by rw [b5, hr], ?_, hr⟩
  simpa using b1

/-- C14 at the operand 0470. -/
theorem multiplication_zero_witness :
    ([0, 4, 7, 0] : Dlist) ≠ [] ∧ digits [0, 4, 7, 0] ∧
    (multiplication [0, 4, 7, 0] [0] [] = some (Status.SUCCESS, [0]) ∧
    multiplication_loop ([0, 4, 7, 0] : Dlist).reverse [0] []
        (List.replicate (([0, 4, 7, 0] : Dlist).length + 1) 0)
      = some (List.replicate (([0, 4, 7, 0] : Dlist).length + 1) 0) ∧
    delete_at_first (List.replicate (([0, 4, 7, 0] : Dlist).length + 1) 0) = [0]) :=
  ⟨by decide, by decide, multiplication_zero [0, 4, 7, 0] (by decide) (by decide)⟩

/-! ## The early returns of `power` and `division` -/

/-- C15: for every base (`[0]` and even the empty list included), every fuel (0
included: the loop, and with it every call of `multiplication` and `subtract_one`, is
never entered) and every result list handed in, `power(base, [0])` returns `SUCCESS`
with the result `[1]` and the exponent still `[0]`. -/
theorem power_zero_exponent (fuel : Nat) (baseH headR : Dlist) :
    power fuel baseH [0] headR = Outcome.returned Status.SUCCESS ([0], [1]) ∧
    power 0 [0] [0] [] = Outcome.returned Status.SUCCESS ([0], [1]) := by
  constructor <;> simp [power, insert_at_first]

/-- With equal operands other than `[0]`, `division` takes the `EQUAL` return. -/
theorem division_self_aux (a : Dlist) (ha : normalized a) (h0 : a ≠ [0]) (fuel : Nat) :
    division fuel a a [] "Div" = Outcome.returned Status.SUCCESS (a, [1]) ∧
    division fuel a a [] "Mod" = Outcome.returned Status.SUCCESS (a, [0]) := by
  have hne := ha.1
  have heq : Find_largest a a = Status.EQUAL := (Find_largest_equal_iff a a).2 rfl
  cases a with
  | nil => exact absurd rfl hne
  | cons d next =>
    have hz : ¬ (d = 0 ∧ next = []) := by
      rintro ⟨h1, h2⟩
      subst h1 h2
      exact h0 rfl
    constructor
    · simp only [division, if_neg hz, heq, if_true, strstr_Div_Div, insert_at_last,
        List.nil_append]
    · simp only [division, if_neg hz, heq, if_true, strstr_Mod_Div, insert_at_last,
        List.nil_append, Bool.false_eq_true, if_false]

/-- C16: exact division: for a normalized `a` other than `[0]`, `division(a, a)` returns
`[1]` in quotient mode and `[0]` in remainder mode, whatever the fuel. -/
theorem division_self (a : Dlist) (ha : normalized a) (h0 : a ≠ [0]) (fuel : Nat) :
    division fuel a a [] "Div" = Outcome.returned Status.SUCCESS (a, [1]) ∧
    division fuel a a [] "Mod" = Outcome.returned Status.SUCCESS (a, [0]) :=
  division_self_aux a ha h0 fuel

/-- C16 at the operand 120 with fuel 0. -/
theorem division_self_witness :
    normalized [1, 2, 0] ∧ ([1, 2, 0] : Dlist) ≠ [0] ∧
    (division 0 [1, 2, 0] [1, 2, 0] [] "Div" = Outcome.returned Status.SUCCESS ([1, 2, 0], [1]) ∧
    division 0 [1, 2, 0] [1, 2, 0] [] "Mod" = Outcome.returned Status.SUCCESS ([1, 2, 0], [0])) :=
  ⟨by decide, by decide, division_self [1, 2, 0] (by decide) (by decide) 0⟩

/-- With a dividend that `Find_largest` finds smaller, `division` takes the `LARGE_2`
return. -/
theorem division_smaller_dividend_aux (a b : Dlist) (hb : normalized b)
    (h0 : b ≠ [0]) (hl : Find_largest a b = Status.LARGE_2) (fuel : Nat) :
    division fuel a b [] "Div" = Outcome.returned Status.SUCCESS (a, [0]) ∧
    division fuel a b [] "Mod" = Outcome.returned Status.SUCCESS (a, a) ∧
    division 0 [5] [1, 0] [] "Div" = Outcome.returned Status.SUCCESS ([5], [0]) ∧
    division 0 [5] [1, 0] [] "Mod" = Outcome.returned Status.SUCCESS ([5], [5]) := by
  have hne := hb.1
  cases b with
  | nil => exact absurd rfl hne
  | cons d next =>
    have hz : ¬ (d = 0 ∧ next = []) := by
      rintro ⟨h1, h2⟩
      subst h1 h2
      exact h0 rfl
    refine ⟨?_, ?_, by decide, by decide⟩
    · simp only [division, if_neg hz, hl, reduceCtorEq, if_false, if_true, strstr_Div_Div,
        insert_at_last, List.nil_append]
    · simp only [division, if_neg hz, hl, reduceCtorEq, if_false, if_true, strstr_Mod_Div,
        foldl_insert_at_last, List.nil_append, Bool.false_eq_true]

/-- C17: for normalized `a` and `b`, `b` other than `[0]`, with `Find_largest a b` equal
to `LARGE_2`, `division` returns `[0]` in quotient mode and the digits of the dividend in
remainder mode, whatever the fuel; 5 / 10 gives 0 and 5 mod 10 gives 5. -/
theorem division_smaller_dividend (a b : Dlist) (_ha : normalized a) (hb : normalized b)
    (h0 : b ≠ [0]) (hl : Find_largest a b = Status.LARGE_2) (fuel : Nat) :
    division fuel a b [] "Div" = Outcome.returned Status.SUCCESS (a, [0]) ∧
    division fuel a b [] "Mod" = Outcome.returned Status.SUCCESS (a, a) ∧
    division 0 [5] [1, 0] [] "Div" = Outcome.returned Status.SUCCESS ([5], [0]) ∧
    division 0 [5] [1, 0] [] "Mod" = Outcome.returned Status.SUCCESS ([5], [5]) :=
  division_smaller_dividend_aux a b hb h0 hl fuel

/-- C17 at the operands 99 and 100 with fuel 0. -/
theorem division_smaller_dividend_witness :
    normalized [9, 9] ∧ normalized [1, 0, 0] ∧ ([1, 0, 0] : Dlist) ≠ [0] ∧
    Find_largest [9, 9] [1, 0, 0] = Status.LARGE_2 ∧
    (division 0 [9, 9] [1, 0, 0] [] "Div" = Outcome.returned Status.SUCCESS ([9, 9], [0]) ∧
    division 0 [9, 9] [1, 0, 0] [] "Mod" = Outcome.returned Status.SUCCESS ([9, 9], [9, 9]) ∧
    division 0 [5] [1, 0] [] "Div" = Outcome.returned Status.SUCCESS ([5], [0]) ∧
    division 0 [5] [1, 0] [] "Mod" = Outcome.returned Status.SUCCESS ([5], [5])) :=
  ⟨by decide, by decide, by decide, by decide,
    division_smaller_dividend [9, 9] [1, 0, 0] (by decide) (by decide) (by decide) (by decide) 0⟩

/-! ## Lemmas on `increment_list` and the inverse law -/

theorem increment_loop_cons (d : Int) (t : List Int) (carry : Int) :
    increment_loop (d :: t) carry =
      if carry ≠ 0 then
        ((d + carry).tmod 10 :: (increment_loop t ((d + carry).tdiv 10)).1,
          (increment_loop t ((d + carry).tdiv 10)).2)
      else (d :: t, carry) := by
  simp only [increment_loop]

theorem increment_loop_spec (x : List Int) (carry : Int) (hx : digits x)
    (hc : 0 ≤ carry ∧ carry ≤ 1) :
    digits (increment_loop x carry).1 ∧ (increment_loop x carry).1.length = x.length ∧
    (0 ≤ (increment_loop x carry).2 ∧ (increment_loop x carry).2 ≤ 1) ∧
    value_from_tail (increment_loop x carry).1 + (increment_loop x carry).2 * 10 ^ x.length =
      value_from_tail x + carry := by
  induction x generalizing carry with
  | nil => simp [increment_loop, digits_nil, value_from_tail, hc]
  | cons d t ih =>
    rw [digits_cons] at hx
    rw [increment_loop_cons]
    split
    · next hne =>
      have hs : 0 ≤ d + carry := by omega
      rw [tdiv_ten hs, tmod_ten hs]
      obtain ⟨i1, i2, i3, i4⟩ := ih ((d + carry) / 10) hx.2 (by omega)
      refine ⟨digits_cons.2 ⟨by omega, i1⟩, by simp [i2], i3, ?_⟩
      simp only [value_from_tail, List.length_cons, pow_succ]
      have := Int.emod_add_ediv (d + carry) 10
      linear_combination 10 * i4 + this
    · next hz =>
      have hc0 : carry = 0 := by
        by_contra h
        exact hz h
      subst hc0
      exact ⟨digits_cons.2 hx, rfl, by norm_num, by simp⟩

/-- A non-empty digit list whose value reaches `10 ^ (length - 1)` is normalized. -/
theorem normalized_of_value_ge {l : Dlist} (hne : l ≠ []) (hd : digits l)
    (hv : 10 ^ (l.length - 1) ≤ value l) : normalized l := by
  refine ⟨hne, hd, ?_⟩
  intro hh
  cases l with
  | nil => exact absurd rfl hne
  | cons d t =>
    simp only [List.head?_cons, Option.some.injEq] at hh
    subst hh
    have := value_lt (digits_cons.1 hd).2
    simp only [value, List.length_cons, Nat.add_sub_cancel, zero_mul, zero_add] at hv
    omega

/-- On a non-empty digit list `increment_list` returns `SUCCESS` with a digit list that
denotes the value plus one; a new head node is inserted exactly when the loop ends with
a carry. -/
theorem increment_list_digits (x : Dlist) (hne : x ≠ []) (hx : digits x) :
    ∃ y, increment_list x = (Status.SUCCESS, y) ∧ digits y ∧ y ≠ [] ∧
      value y = value x + 1 ∧
      (y.length = x.length ∨ (y.length = x.length + 1 ∧ y.head? = some 1)) := by
  obtain ⟨i1, i2, i3, i4⟩ :=
    increment_loop_spec x.reverse 1 (digits_reverse.2 hx) (by norm_num)
  rw [value_from_tail_reverse, List.length_reverse] at i4
  rw [List.length_reverse] at i2
  cases x with
  | nil => exact absurd rfl hne
  | cons d t =>
    simp only [increment_list]
    generalize increment_loop (d :: t).reverse 1 = out at i1 i2 i3 i4
    obtain ⟨nodes, c⟩ := out
    simp only at i1 i2 i3 i4 ⊢
    by_cases hc : c ≠ 0
    · have hc1 : c = 1 := by omega
      subst hc1
      refine ⟨1 :: nodes.reverse, by simp [insert_at_first], ?_, by simp, ?_, Or.inr ?_⟩
      · exact digits_cons.2 ⟨by norm_num, digits_reverse.2 i1⟩
      · have hv : value (1 :: nodes.reverse) =
            1 * 10 ^ nodes.reverse.length + value nodes.reverse := rfl
        rw [hv, List.length_reverse, value_reverse, i2]
        linarith
      · simp [i2]
    · have hc0 : c = 0 := by
        by_contra h
        exact hc h
      subst hc0
      refine ⟨nodes.reverse, by simp, digits_reverse.2 i1, ?_, ?_, Or.inl (by simp [i2])⟩
      · intro h
        have : nodes.length = 0 := by simpa using h
        rw [i2] at this
        simp at this
      · rw [value_reverse]
        linarith

/-- On a normalized sequence `increment_list` returns `SUCCESS` with the normalized
sequence of the value plus one. -/
theorem increment_list_spec (x : Dlist) (hx : normalized x) :
    ∃ y, increment_list x = (Status.SUCCESS, y) ∧ normalized y ∧ value y = value x + 1 := by
  obtain ⟨y, y1, y2, y3, y4, y5⟩ := increment_list_digits x hx.1 hx.2.1
  refine ⟨y, y1, ?_, y4⟩
  rcases y5 with h | ⟨_, h⟩
  · apply normalized_of_value_ge y3 y2
    rw [y4, h]
    by_cases h0 : x = [0]
    · subst h0
      simp [value]
    · have := value_ge_of_normalized hx h0
      omega
  · refine ⟨y3, y2, ?_⟩
    intro hh
    rw [h] at hh
    simp at hh

/-- C18 as stated fails: on the empty sequence (the counter `division` starts from)
`increment_list` gives `[1]` and `subtract_one` then gives `[0]`, not the empty sequence;
on 05 the round trip gives `[5]`, the leading zero being removed by `subtract_one`. -/
theorem increment_decrement_counterexample :
    ¬ (∀ x : Dlist, digits x → subtract_one (increment_list x).2 = some x) ∧
    subtract_one (increment_list []).2 = some [0] ∧
    subtract_one (increment_list [0, 5]).2 = some [5] := by
  refine ⟨?_, by decide, by decide⟩
  intro h
  have h1 := h [] digits_nil
  have h2 : subtract_one (increment_list []).2 = some [0] := by decide
  rw [h2] at h1
  simp at h1

/-- C18 (amended): for every normalized `x`, `subtract_one(increment_list(x))` is `x`; and
for every normalized `x` of positive value, `increment_list(subtract_one(x))` is `x`. -/
theorem increment_decrement_inverse (x : Dlist) (hx : normalized x) :
    (∃ y, increment_list x = (Status.SUCCESS, y) ∧ subtract_one y = some x) ∧
    (0 < value x →
      ∃ z, subtract_one x = some z ∧ increment_list z = (Status.SUCCESS, x)) := by
  constructor
  · obtain ⟨y, y1, y2, y3⟩ := increment_list_spec x hx
    have hpos : 0 < value y := by
      have := value_nonneg hx.2.1
      omega
    obtain ⟨z, z1, z2, z3⟩ := subtract_one_spec y y2 hpos
    have : z = x := normalized_eq_of_value_eq z2 hx (by omega)
    subst this
    exact ⟨y, y1, z1⟩
  · intro hpos
    obtain ⟨z, z1, z2, z3⟩ := subtract_one_spec x hx hpos
    obtain ⟨y, y1, y2, y3⟩ := increment_list_spec z z2
    have : y = x := normalized_eq_of_value_eq y2 hx (by omega)
    subst this
    exact ⟨z, z1, y1⟩

/-- C18 (amended) at the operand 1000. -/
theorem increment_decrement_inverse_witness :
    normalized [1, 0, 0, 0] ∧ 0 < value [1, 0, 0, 0] ∧
    (∃ y, increment_list [1, 0, 0, 0] = (Status.SUCCESS, y) ∧
      subtract_one y = some [1, 0, 0, 0]) ∧
    (∃ z, subtract_one [1, 0, 0, 0] = some z ∧
      increment_list z = (Status.SUCCESS, [1, 0, 0, 0])) :=
  ⟨by decide, by decide,
    (increment_decrement_inverse [1, 0, 0, 0] (by decide)).1,
    (increment_decrement_inverse [1, 0, 0, 0] (by decide)).2 (by decide)⟩

/-! ## What `division` leaves in the caller's dividend -/

/-- The quotient branch of the code after the loop: the counter is copied with
`insert_at_first` from its head on, so it arrives reversed, and leading zeroes of the
reversed copy are removed. -/
theorem division_result_Div (large : Status) (h1 qH : Dlist) :
    division_result large h1 qH "Div" =
      Outcome.returned Status.SUCCESS
        (if large = Status.EQUAL then [0] else h1,
          delete_at_first
            (if (if large = Status.EQUAL then (increment_list qH).2 else qH) = [] then [0]
              else (if large = Status.EQUAL then (increment_list qH).2 else qH).reverse)) := by
  unfold division_result
  simp only [strstr_Div_Div, if_true, foldl_insert_at_first, List.append_nil, insert_at_last,
    List.nil_append]
  by_cases hl : large = Status.EQUAL
  · simp only [hl, if_true]
    by_cases hq : (increment_list qH).2 = []
    · simp only [hq, if_true]
      rfl
    · simp only [if_neg hq]
      rw [remove_leading_zeroes_eq (by simpa using hq)]
  · simp only [if_neg hl]
    by_cases hq : qH = []
    · simp only [hq, if_true]
      rfl
    · simp only [if_neg hq]
      rw [remove_leading_zeroes_eq (by simpa using hq)]

/-- When the dividend is the greater operand, `division` is the loop followed by the code
after the loop. -/
theorem division_greater (a b : Dlist) (ha : normalized a) (hb : normalized b) (hb0 : b ≠ [0])
    (hl : Find_largest a b = Status.LARGE_1) (fuel : Nat) (hfuel : value a < fuel * value b)
    (D_or_M : String) :
    ∃ large h1 qH, (large = Status.LARGE_2 ∨ large = Status.EQUAL) ∧ normalized h1 ∧
      Find_largest h1 b = large ∧ (∃ k : Int, value a = value h1 + k * value b) ∧
      division fuel a b [] D_or_M = division_result large h1 qH D_or_M := by
  have hne := hb.1
  cases b with
  | nil => exact absurd rfl hne
  | cons d next =>
    have hz : ¬ (d = 0 ∧ next = []) := by
      rintro ⟨h1, h2⟩
      subst h1 h2
      exact hb0 rfl
    obtain ⟨large, h1', headR', qH', e1, e2, e3, e4, e5⟩ :=
      division_loop_spec (d :: next) hb fuel a [] [] ha hfuel
    have hnf : large ≠ Status.FAILURE := by
      rcases e2 with h | h <;> subst h <;> decide
    refine ⟨large, h1', qH', e2, e3, e4, e5, ?_⟩
    simp only [division, if_neg hz, hl, reduceCtorEq, if_false, e1, if_neg hnf]

/-- The running remainder that the code after the loop keeps in `*head1` is the
normalized sequence of `value a mod value b`. -/
theorem division_remainder_of_exit (a b h1 : Dlist) (large : Status) (hb : normalized b)
    (hb0 : b ≠ [0]) (hl : large = Status.LARGE_2 ∨ large = Status.EQUAL) (hh : normalized h1)
    (hf : Find_largest h1 b = large) (hk : ∃ k : Int, value a = value h1 + k * value b) :
    normalized (if large = Status.EQUAL then [0] else h1) ∧
    value (if large = Status.EQUAL then [0] else h1) = value a % value b ∧
    value (if large = Status.EQUAL then [0] else h1) < value b := by
  have hpos := value_pos_of_normalized hb hb0
  obtain ⟨k, hk⟩ := hk
  rcases Find_largest_cases h1 b hh hb with ⟨gl, gv⟩ | ⟨gl, gv⟩ | ⟨gl, gv⟩
  · rw [gl] at hf
    subst hf
    rcases hl with h | h <;> cases h
  · rw [gl] at hf
    subst hf
    simp only [reduceCtorEq, if_false]
    refine ⟨hh, ?_, gv⟩
    rw [hk, Int.add_mul_emod_self]
    exact (Int.emod_eq_of_lt (value_nonneg hh.2.1) gv).symm
  · rw [gl] at hf
    subst hf
    simp only [if_true]
    refine ⟨normalized_zero, ?_, by simpa [value] using hpos⟩
    rw [hk, gv]
    have : value b + k * value b = (1 + k) * value b := by ring
    rw [this, Int.mul_emod_left]
    simp [value]

/-- C19 as stated fails: after 100 / 7 the caller's dividend variable holds `[2]`, the
last running remainder, and not `[1, 0, 0]`: the loop assigns `*head1 = *headR`. -/
theorem division_dividend_counterexample :
    ¬ (∃ r, division 15 [1, 0, 0] [7] [] "Div"
        = Outcome.returned Status.SUCCESS ([1, 0, 0], r)) ∧
    division 15 [1, 0, 0] [7] [] "Div" = Outcome.returned Status.SUCCESS ([2], [4, 1]) ∧
    division 15 [1, 0, 0] [7] [] "Mod" = Outcome.returned Status.SUCCESS ([2], [2]) := by
  have e : division 15 [1, 0, 0] [7] [] "Div" = Outcome.returned Status.SUCCESS ([2], [4, 1]) := by
    decide
  refine ⟨?_, e, by decide⟩
  rintro ⟨r, h⟩
  rw [e] at h
  simp at h

/-- C19 (amended): for a normalized dividend, a normalized divisor other than `[0]`,
either mode and enough fuel, `division` returns `SUCCESS`; the caller's dividend is as
before when `Find_largest` is not `LARGE_1`, and otherwise it has been reassigned and
holds the normalized sequence of `value a mod value b`, which differs from `a`.  (The
divisor variable is not among the variables the function assigns.) -/
theorem division_dividend_after (a b : Dlist) (ha : normalized a) (hb : normalized b)
    (hb0 : b ≠ [0]) (fuel : Nat) (hfuel : value a < fuel * value b) (D_or_M : String)
    (hm : D_or_M = "Div" ∨ D_or_M = "Mod") :
    ∃ h1 r, division fuel a b [] D_or_M = Outcome.returned Status.SUCCESS (h1, r) ∧
      (Find_largest a b ≠ Status.LARGE_1 → h1 = a) ∧
      (Find_largest a b = Status.LARGE_1 →
        normalized h1 ∧ value h1 = value a % value b ∧ h1 ≠ a) := by
  rcases Find_largest_cases a b ha hb with ⟨hl, hv⟩ | ⟨hl, hv⟩ | ⟨hl, hv⟩
  · obtain ⟨large, h1, qH, e1, e2, e3, e4, e5⟩ :=
      division_greater a b ha hb hb0 hl fuel hfuel D_or_M
    obtain ⟨n1, n2, n3⟩ := division_remainder_of_exit a b h1 large hb hb0 e1 e2 e3 e4
    have hne : (if large = Status.EQUAL then [0] else h1) ≠ a := by
      intro h
      rw [h] at n3
      omega
    rcases hm with hm | hm
    · subst hm
      rw [e5, division_result_Div]
      exact ⟨_, _, rfl, fun h => absurd hl h, fun _ => ⟨n1, n2, hne⟩⟩
    · subst hm
      rw [e5, division_result_Mod large h1 qH e2 e1]
      by_cases hE : large = Status.EQUAL
      · rw [if_pos hE] at n1 n2 hne
        rw [if_pos hE]
        exact ⟨_, _, rfl, fun h => absurd hl h, fun _ => ⟨n1, n2, hne⟩⟩
      · rw [if_neg hE] at n1 n2 hne
        rw [if_neg hE]
        exact ⟨_, _, rfl, fun h => absurd hl h, fun _ => ⟨n1, n2, hne⟩⟩
  · have hnl : Find_largest a b ≠ Status.LARGE_1 := by rw [hl]; decide
    obtain ⟨t1, t2, _, _⟩ := division_smaller_dividend_aux a b hb hb0 hl fuel
    rcases hm with hm | hm
    · subst hm
      exact ⟨a, [0], t1, fun _ => rfl, fun h => absurd h hnl⟩
    · subst hm
      exact ⟨a, a, t2, fun _ => rfl, fun h => absurd h hnl⟩
  · have hnl : Find_largest a b ≠ Status.LARGE_1 := by rw [hl]; decide
    have hab : a = b := (Find_largest_equal_iff a b).1 hl
    subst hab
    obtain ⟨t1, t2⟩ := division_self_aux a ha hb0 fuel
    rcases hm with hm | hm
    · subst hm
      exact ⟨a, [1], t1, fun _ => rfl, fun h => absurd h hnl⟩
    · subst hm
      exact ⟨a, [0], t2, fun _ => rfl, fun h => absurd h hnl⟩

/-- C19 (amended) at 45 / 6 with fuel 8, in quotient mode. -/
theorem division_dividend_after_witness :
    normalized [4, 5] ∧ normalized [6] ∧ ([6] : Dlist) ≠ [0] ∧
    value [4, 5] < ((8 : Nat) : Int) * value [6] ∧
    ∃ h1 r, division 8 [4, 5] [6] [] "Div" = Outcome.returned Status.SUCCESS (h1, r) ∧
      (Find_largest [4, 5] [6] ≠ Status.LARGE_1 → h1 = [4, 5]) ∧
      (Find_largest [4, 5] [6] = Status.LARGE_1 →
        normalized h1 ∧ value h1 = value [4, 5] % value [6] ∧ h1 ≠ [4, 5]) :=
  ⟨by decide, by decide, by decide, by decide,
    division_dividend_after [4, 5] [6] (by decide) (by decide) (by decide) 8 (by decide)
      "Div" (Or.inl rfl)⟩

/-! ## The sign-decision driver of `main` for `+` and `-` -/

theorem operand_sign_cases (str : String) : operand_sign str = '+' ∨ operand_sign str = '-' := by
  unfold operand_sign
  split
  · exact Or.inr rfl
  · exact Or.inl rfl

/-- The subtraction that `main` prepares with `Find_largest` and `Swap_lists`: on
normalized magnitudes the greater one is always the first operand. -/
theorem ordered_subtraction (h1 h2 : Dlist) (hn1 : normalized h1) (hn2 : normalized h2) :
    (Find_largest h1 h2 = Status.LARGE_2 ∧ value h1 < value h2 ∧
      ∃ r, subtraction h2 h1 [] = some (Status.SUCCESS, r) ∧ normalized r ∧
        value r = value h2 - value h1) ∨
    (Find_largest h1 h2 ≠ Status.LARGE_2 ∧ value h2 ≤ value h1 ∧
      ∃ r, subtraction h1 h2 [] = some (Status.SUCCESS, r) ∧ normalized r ∧
        value r = value h1 - value h2) := by
  rcases Find_largest_cases h1 h2 hn1 hn2 with ⟨hl, hv⟩ | ⟨hl, hv⟩ | ⟨hl, hv⟩
  · exact Or.inr ⟨by rw [hl]; decide, le_of_lt hv, subtraction_spec h1 h2 hn1 hn2 (le_of_lt hv)⟩
  · exact Or.inl ⟨hl, hv, subtraction_spec h2 h1 hn2 hn1 (le_of_lt hv)⟩
  · exact Or.inr ⟨by rw [hl]; decide, le_of_eq hv.symm,
      subtraction_spec h1 h2 hn1 hn2 (le_of_eq hv.symm)⟩

/-- On normalized magnitudes the `+` and `-` branches of the switch compute the exact
signed sum and difference. -/
theorem main_switch_add_sub_exact (fuel : Nat) (operator sign1 sign2 : Char) (h1 h2 : Dlist)
    (hop : operator = '+' ∨ operator = '-') (hs1 : sign1 = '+' ∨ sign1 = '-')
    (hs2 : sign2 = '+' ∨ sign2 = '-') (hn1 : normalized h1) (hn2 : normalized h2) :
    ∃ final_sign r, main_switch fuel operator sign1 sign2 h1 h2 []
        = Outcome.returned Status.SUCCESS (some final_sign, r) ∧ normalized r ∧
      signed_value final_sign r =
        if operator = '+' then signed_value sign1 h1 + signed_value sign2 h2
        else signed_value sign1 h1 - signed_value sign2 h2 := by
  obtain ⟨a, a1, a2, a3⟩ := addition_spec h1 h2 hn1.1 hn1.2.1 hn2.2.1
  have hsub := ordered_subtraction h1 h2 hn1 hn2
  rcases hop with hop | hop <;> rcases hs1 with hs1 | hs1 <;> rcases hs2 with hs2 | hs2 <;>
    subst hop hs1 hs2
  · exact ⟨'+', a, by simp [main_switch, a1], a3, by simp [signed_value, a2]⟩
  · rcases hsub with ⟨hl, hv, r, r1, r2, r3⟩ | ⟨hl, hv, r, r1, r2, r3⟩
    · exact ⟨'-', r, by simp [main_switch, hl, Swap_lists, r1], r2,
        by simp [signed_value, r3]; ring⟩
    · exact ⟨'+', r, by simp [main_switch, hl, r1], r2, by simp [signed_value, r3]; ring⟩
  · rcases hsub with ⟨hl, hv, r, r1, r2, r3⟩ | ⟨hl, hv, r, r1, r2, r3⟩
    · exact ⟨'+', r, by simp [main_switch, hl, Swap_lists, r1], r2,
        by simp [signed_value, r3]; ring⟩
    · exact ⟨'-', r, by simp [main_switch, hl, r1], r2, by simp [signed_value, r3]; ring⟩
  · exact ⟨'-', a, by simp [main_switch, a1], a3, by simp [signed_value, a2]; ring⟩
  · rcases hsub with ⟨hl, hv, r, r1, r2, r3⟩ | ⟨hl, hv, r, r1, r2, r3⟩
    · exact ⟨'-', r, by simp [main_switch, hl, Swap_lists, r1], r2,
        by simp [signed_value, r3]⟩
    · exact ⟨'+', r, by simp [main_switch, hl, r1], r2, by simp [signed_value, r3]⟩
  · exact ⟨'+', a, by simp [main_switch, a1], a3, by simp [signed_value, a2]⟩
  · exact ⟨'-', a, by simp [main_switch, a1], a3, by simp [signed_value, a2]; ring⟩
  · rcases hsub with ⟨hl, hv, r, r1, r2, r3⟩ | ⟨hl, hv, r, r1, r2, r3⟩
    · exact ⟨'+', r, by simp [main_switch, hl, Swap_lists, r1], r2,
        by simp [signed_value, r3]; ring⟩
    · exact ⟨'-', r, by simp [main_switch, hl, r1], r2, by simp [signed_value, r3]; ring⟩

/-- When both operand strings are accepted and parse to normalized magnitudes (no
leading zero, at least one digit), `main` computes the exact signed sum and difference. -/
theorem main_add_sub_exact_of_normalized (fuel : Nat) (prog num1 op num2 : String)
    (hop : op = "+" ∨ op = "-")
    (hv : Validate_arguments [prog, num1, op, num2] = some Status.SUCCESS)
    (hn1 : normalized (String_to_list [] num1)) (hn2 : normalized (String_to_list [] num2)) :
    ∃ final_sign r, main fuel [prog, num1, op, num2]
        = Outcome.returned Status.SUCCESS (some final_sign, r) ∧ normalized r ∧
      signed_value final_sign r =
        if op = "+" then operand_value num1 + operand_value num2
        else operand_value num1 - operand_value num2 := by
  rcases hop with hop | hop
  · subst hop
    obtain ⟨fs, r, e1, e2, e3⟩ :=
      main_switch_add_sub_exact fuel '+' (operand_sign num1) (operand_sign num2) _ _
        (Or.inl rfl) (operand_sign_cases num1) (operand_sign_cases num2) hn1 hn2
    refine ⟨fs, r, ?_, e2, ?_⟩
    · simp only [main, hv]
      exact e1
    · rw [e3]
      simp [operand_value]
  · subst hop
    obtain ⟨fs, r, e1, e2, e3⟩ :=
      main_switch_add_sub_exact fuel '-' (operand_sign num1) (operand_sign num2) _ _
        (Or.inr rfl) (operand_sign_cases num1) (operand_sign_cases num2) hn1 hn2
    refine ⟨fs, r, ?_, e2, ?_⟩
    · simp only [main, hv]
      exact e1
    · rw [e3]
      simp [operand_value]

/-- C20 (code defect): the operand strings `007` and `10` are accepted by
`Validate_arguments`, and `String_to_list` keeps the leading zeros.  `Find_largest` then
decides by length that 007 is the greater magnitude, so for `007 - 10` no swap is made,
`subtraction` runs with the smaller number first and `main` ends with the sign `+` and
the magnitude `[9, 9, 7]`: it shows 997 where the exact difference is -3. -/
theorem main_wrong_at_007_minus_10 :
    Validate_arguments ["apc.out", "007", "-", "10"] = some Status.SUCCESS ∧
    String_to_list [] "007" = [0, 0, 7] ∧
    Find_largest [0, 0, 7] [1, 0] = Status.LARGE_1 ∧
    main 0 ["apc.out", "007", "-", "10"]
      = Outcome.returned Status.SUCCESS (some '+', [9, 9, 7]) ∧
    signed_value '+' [9, 9, 7] = 997 ∧
    operand_value "007" - operand_value "10" = -3 := by
  decide

/-! ## The primitives: leading-zero removal, increment, decrement -/

/-- What `delete_at_first` unlinks is a run of zero nodes. -/
theorem delete_at_first_zeros (l : Dlist) :
    ∃ k, l = List.replicate k 0 ++ delete_at_first l := by
  induction l with
  | nil => exact ⟨0, rfl⟩
  | cons d l ih =>
    cases l with
    | nil => exact ⟨0, rfl⟩
    | cons d' ds =>
      simp only [delete_at_first]
      split
      · next h =>
        obtain ⟨k, hk⟩ := ih
        refine ⟨k + 1, ?_⟩
        rw [h, List.replicate_succ, List.cons_append, ← hk]
      · exact ⟨0, rfl⟩

theorem delete_at_first_length_le (l : Dlist) : (delete_at_first l).length ≤ l.length := by
  obtain ⟨k, hk⟩ := delete_at_first_zeros l
  have := congrArg List.length hk
  simp only [List.length_append, List.length_replicate] at this
  omega

/-- C22: on a non-empty sequence of digits `delete_at_first` removes exactly the leading
run of zeros, keeping at least one digit: the result is normalized, denotes the same
number, is what is left of the input behind some zeros (so it is a suffix), is the input
itself when that is normalized (`[0]` stays `[0]`), and a second call changes nothing. -/
theorem delete_at_first_correct (l : Dlist) (hne : l ≠ []) (hd : digits l) :
    normalized (delete_at_first l) ∧ value (delete_at_first l) = value l ∧
    (∃ k, l = List.replicate k 0 ++ delete_at_first l) ∧
    delete_at_first l <:+ l ∧
    (normalized l → delete_at_first l = l) ∧
    delete_at_first [0] = [0] ∧
    delete_at_first (delete_at_first l) = delete_at_first l := by
  have hn := delete_at_first_normalized hne hd
  obtain ⟨k, hk⟩ := delete_at_first_zeros l
  exact ⟨hn, delete_at_first_value l, ⟨k, hk⟩, ⟨List.replicate k 0, hk.symm⟩,
    delete_at_first_of_normalized, rfl, delete_at_first_of_normalized hn⟩

/-- C22 at the sequence 00070. -/
theorem delete_at_first_correct_witness :
    ([0, 0, 0, 7, 0] : Dlist) ≠ [] ∧ digits [0, 0, 0, 7, 0] ∧
    (normalized (delete_at_first [0, 0, 0, 7, 0]) ∧
    value (delete_at_first [0, 0, 0, 7, 0]) = value [0, 0, 0, 7, 0] ∧
    (∃ k, ([0, 0, 0, 7, 0] : Dlist) = List.replicate k 0 ++ delete_at_first [0, 0, 0, 7, 0]) ∧
    delete_at_first [0, 0, 0, 7, 0] <:+ [0, 0, 0, 7, 0] ∧
    (normalized [0, 0, 0, 7, 0] → delete_at_first [0, 0, 0, 7, 0] = [0, 0, 0, 7, 0]) ∧
    delete_at_first [0] = [0] ∧
    delete_at_first (delete_at_first [0, 0, 0, 7, 0]) = delete_at_first [0, 0, 0, 7, 0]) :=
  ⟨by decide, by decide, delete_at_first_correct [0, 0, 0, 7, 0] (by decide) (by decide)⟩

theorem value_replicate_nine (n : Nat) : value (List.replicate n 9) = 10 ^ n - 1 := by
  induction n with
  | zero => rfl
  | succ n ih =>
    simp only [List.replicate_succ, value, ih, List.length_replicate, pow_succ]
    ring

theorem digits_replicate_nine (n : Nat) : digits (List.replicate n 9) := by
  intro d hd
  rw [List.eq_of_mem_replicate hd]
  norm_num

/-- A digit list consists of nines only exactly when it denotes `10 ^ length - 1`. -/
theorem all_nine_iff_value {s : Dlist} (hs : digits s) :
    (∀ d ∈ s, d = 9) ↔ value s = 10 ^ s.length - 1 := by
  constructor
  · intro h
    have : s = List.replicate s.length 9 := List.eq_replicate_of_mem h
    rw [this, value_replicate_nine, List.length_replicate]
  · intro h
    have : s = List.replicate s.length 9 :=
      digits_eq_of_value_eq (by simp) hs (digits_replicate_nine _)
        (by rw [h, value_replicate_nine])
    intro d hd
    rw [this] at hd
    exact List.eq_of_mem_replicate hd

/-- C29: `increment_list` turns the empty list into `[1]`; on a normalized `s` it returns
`SUCCESS` with the normalized sequence of `value s + 1`, which is one digit longer
exactly when every digit of `s` is 9 (it is then a new head digit 1 followed by zeros)
and has the length of `s` otherwise. -/
theorem increment_list_correct (s : Dlist) (hs : normalized s) :
    increment_list [] = (Status.SUCCESS, [1]) ∧
    ∃ y, increment_list s = (Status.SUCCESS, y) ∧ normalized y ∧ value y = value s + 1 ∧
      ((∀ d ∈ s, d = 9) ↔ y.length = s.length + 1) ∧
      ((∀ d ∈ s, d = 9) → y = 1 :: List.replicate s.length 0) ∧
      (¬ (∀ d ∈ s, d = 9) → y.length = s.length) := by
  refine ⟨rfl, ?_⟩
  obtain ⟨y, y1, y2, y3, y4, y5⟩ := increment_list_digits s hs.1 hs.2.1
  obtain ⟨z, z1, z2, z3⟩ := increment_list_spec s hs
  have hzy : z = y := by
    rw [y1] at z1
    exact (Prod.mk.inj z1).2.symm
  subst hzy
  have hlt := value_lt hs.2.1
  have hylt := value_lt y2
  have key : (∀ d ∈ s, d = 9) ↔ z.length = s.length + 1 := by
    rw [all_nine_iff_value hs.2.1]
    constructor
    · intro h
      rcases y5 with h5 | ⟨h5, _⟩
      · rw [h5] at hylt
        omega
      · exact h5
    · intro h
      rcases y5 with h5 | ⟨_, h6⟩
      · omega
      · cases z with
        | nil => simp at h6
        | cons e t =>
          simp only [List.head?_cons, Option.some.injEq] at h6
          subst h6
          simp only [List.length_cons, Nat.add_right_cancel_iff] at h
          have ht := value_nonneg (digits_cons.1 y2).2
          simp only [value, h, one_mul] at y4
          omega
  refine ⟨z, y1, z2, z3, key, ?_, ?_⟩
  · intro h
    have hl := key.1 h
    have hv := (all_nine_iff_value hs.2.1).1 h
    rcases y5 with h5 | ⟨_, h6⟩
    · omega
    · cases z with
      | nil => simp at h6
      | cons e t =>
        simp only [List.head?_cons, Option.some.injEq] at h6
        subst h6
        simp only [List.length_cons, Nat.add_right_cancel_iff] at hl
        simp only [value, hl, one_mul] at y4
        have ht : t = List.replicate s.length 0 := by
          apply digits_eq_of_value_eq (by simp [hl]) (digits_cons.1 y2).2
            (digits_replicate_zero _)
          rw [value_replicate_zero]
          omega
        rw [ht]
  · intro h
    rcases y5 with h5 | ⟨h5, _⟩
    · exact h5
    · exact absurd (key.2 h5) h

/-- C29 at the sequence 1099. -/
theorem increment_list_correct_witness :
    normalized [1, 0, 9, 9] ∧
    (increment_list [] = (Status.SUCCESS, [1]) ∧
    ∃ y, increment_list [1, 0, 9, 9] = (Status.SUCCESS, y) ∧ normalized y ∧
      value y = value [1, 0, 9, 9] + 1 ∧
      ((∀ d ∈ ([1, 0, 9, 9] : Dlist), d = 9) ↔ y.length = ([1, 0, 9, 9] : Dlist).length + 1) ∧
      ((∀ d ∈ ([1, 0, 9, 9] : Dlist), d = 9) →
        y = 1 :: List.replicate ([1, 0, 9, 9] : Dlist).length 0) ∧
      (¬ (∀ d ∈ ([1, 0, 9, 9] : Dlist), d = 9) → y.length = ([1, 0, 9, 9] : Dlist).length)) :=
  ⟨by decide, increment_list_correct [1, 0, 9, 9] (by decide)⟩

/-- C30: on a normalized `s` of positive value `subtract_one` gives the normalized
sequence of `value s - 1`, also when the borrow runs up to the head digit: 1000 becomes
999 and 1 becomes `[0]`. -/
theorem subtract_one_correct (s : Dlist) (hs : normalized s) (hpos : 0 < value s) :
    (∃ r, subtract_one s = some r ∧ normalized r ∧ value r = value s - 1) ∧
    subtract_one [1, 0, 0, 0] = some [9, 9, 9] ∧
    subtract_one [1] = some [0] :=
  ⟨subtract_one_spec s hs hpos, by decide, by decide⟩

/-- C30 at the sequence 2500. -/
theorem subtract_one_correct_witness :
    normalized [2, 5, 0, 0] ∧ 0 < value [2, 5, 0, 0] ∧
    ((∃ r, subtract_one [2, 5, 0, 0] = some r ∧ normalized r ∧
      value r = value [2, 5, 0, 0] - 1) ∧
    subtract_one [1, 0, 0, 0] = some [9, 9, 9] ∧
    subtract_one [1] = some [0]) :=
  ⟨by decide, by decide, subtract_one_correct [2, 5, 0, 0] (by decide) (by decide)⟩

/-! ## The buffer of `multiplication` -/

/-- A result of the checked row is the result of the row of the program. -/
theorem multiplication_row_checked_sound (d2 : Int) (a t : List Int) (carry : Int)
    (x : List Int) (h : multiplication_row_checked d2 a t carry = some x) :
    multiplication_row d2 a t carry = some x := by
  induction a generalizing t carry x with
  | nil =>
    cases t with
    | nil =>
      simp only [multiplication_row_checked] at h
      simp only [multiplication_row]
      split at h
      · simp at h
      · next hc => rw [if_neg hc]; exact h
    | cons r prev =>
      simp only [multiplication_row_checked] at h
      simp only [multiplication_row]
      split at h
      · next hc =>
        rw [if_pos hc]
        split at h
        · exact h
        · simp at h
      · next hc => rw [if_neg hc]; exact h
  | cons d1 a ih =>
    cases t with
    | nil => simp [multiplication_row_checked] at h
    | cons r t =>
      simp only [multiplication_row_checked] at h
      simp only [multiplication_row]
      split at h
      · cases hrow : multiplication_row_checked d2 a t ((d1 * d2 + r + carry).tdiv 10) with
        | none => rw [hrow] at h; simp at h
        | some prev =>
          rw [hrow] at h
          rw [ih t _ prev hrow]
          exact h
      · simp at h

/-- A result of the checked outer loop is the result of the outer loop of the program. -/
theorem multiplication_loop_checked_sound (a y below start x : List Int)
    (h : multiplication_loop_checked a y below start = some x) :
    multiplication_loop a y below start = some x := by
  induction y generalizing below start x with
  | nil => exact h
  | cons d2 y ih =>
    simp only [multiplication_loop_checked] at h
    simp only [multiplication_loop]
    cases hrow : multiplication_row_checked d2 a start 0 with
    | none => rw [hrow] at h; simp at h
    | some row =>
      rw [hrow] at h
      rw [multiplication_row_checked_sound d2 a start 0 row hrow]
      cases row with
      | nil => simp at h
      | cons r prev =>
        simp only at h ⊢
        split at h
        · exact ih _ _ _ h
        · simp at h

/-- Under the invariant of the window (digits in 0..9, a zero node behind the `len(a)`
window digits, carry in 0..9) no check of the checked row fails. -/
theorem multiplication_row_checked_eq (d2 : Int) (hd2 : 0 ≤ d2 ∧ d2 ≤ 9) (a u : List Int)
    (rest : List Int) (carry : Int) (ha : digits a) (hu : digits u)
    (hlen : u.length = a.length) (hc : 0 ≤ carry ∧ carry ≤ 9) :
    multiplication_row_checked d2 a (u ++ 0 :: rest) carry =
      multiplication_row d2 a (u ++ 0 :: rest) carry := by
  induction a generalizing u carry with
  | nil =>
    have hu0 : u = [] := List.length_eq_zero.1 hlen
    subst hu0
    simp only [multiplication_row_checked, multiplication_row, List.nil_append]
    split
    · rw [if_pos (by omega)]
    · rfl
  | cons d1 a ih =>
    cases u with
    | nil => simp at hlen
    | cons r u =>
      simp only [List.length_cons, Nat.add_right_cancel_iff] at hlen
      rw [digits_cons] at ha hu
      have hp0 : 0 ≤ d1 * d2 + r + carry := by nlinarith [ha.1.1, hd2.1, hu.1.1, hc.1]
      have hp1 : d1 * d2 + r + carry ≤ 99 := by
        nlinarith [ha.1.2, hd2.2, hu.1.2, hc.2, ha.1.1, hd2.1]
      rw [List.cons_append, multiplication_row_checked, multiplication_row]
      simp only [tdiv_ten hp0, tmod_ten hp0]
      rw [if_pos (by omega), ih u ((d1 * d2 + r + carry) / 10) ha.2 hu.2 hlen (by omega)]

/-- Under the invariant of the outer loop no check of the checked loop fails. -/
theorem multiplication_loop_checked_eq (a : List Int) (ha : digits a) (hne : a ≠ [])
    (y below u : List Int) (m : Nat) (hy : digits y) (hb : digits below) (hu : digits u)
    (hlen : u.length = a.length) (hm : y.length ≤ m) :
    multiplication_loop_checked a y below (u ++ List.replicate m 0) =
      multiplication_loop a y below (u ++ List.replicate m 0) := by
  induction y generalizing below u m with
  | nil => rfl
  | cons d2 y ih =>
    rw [digits_cons] at hy
    cases m with
    | zero => simp at hm
    | succ m =>
      simp only [List.length_cons, Nat.add_le_add_iff_right] at hm
      obtain ⟨u', c', e1, e2, e3, e4, e5⟩ :=
        multiplication_row_spec d2 hy.1 a u 0 (List.replicate m 0) 0 ha hu hlen (by norm_num)
      have e0 := multiplication_row_checked_eq d2 hy.1 a u (List.replicate m 0) 0 ha hu hlen
        (by norm_num)
      cases u' with
      | nil =>
        have : a.length = 0 := by simpa using e2.symm
        exact absurd (List.length_eq_zero.1 this) hne
      | cons r u' =>
        rw [digits_cons] at e3
        have hd : digits (u' ++ [c']) := digits_snoc e3.2 e4.1 e4.2
        have hl : (u' ++ [c']).length = a.length := by
          simp only [List.length_append, List.length_singleton]
          simpa using e2
        have hall : (below ++ r :: (u' ++ (0 + c') :: List.replicate m 0)).all
            (fun d => decide (0 ≤ d ∧ d ≤ 9)) = true := by
          rw [List.all_eq_true]
          intro d hmem
          have hdig : digits (below ++ r :: (u' ++ (0 + c') :: List.replicate m 0)) := by
            refine digits_append.2 ⟨hb, digits_cons.2 ⟨e3.1, digits_append.2 ⟨e3.2, ?_⟩⟩⟩
            exact digits_cons.2 ⟨by omega, digits_replicate_zero m⟩
          exact decide_eq_true (hdig d hmem)
        have hih := ih (below ++ [r]) (u' ++ [c']) m hy.2 (digits_snoc hb e3.1.1 e3.1.2) hd hl hm
        simp only [multiplication_loop_checked, multiplication_loop, List.replicate_succ, e0, e1,
          List.cons_append]
        rw [if_pos hall]
        simp only [zero_add, List.append_assoc, List.singleton_append] at hih ⊢
        exact hih

/-- C24: the buffer of `len(a) + len(b)` zero digits is large enough.  For non-empty
operands with digits in 0..9 the loops of `multiplication`, run with checks that every
carry and every digit written stays in 0..9 and that the buffer holds digits after
every row, pass every check and never step behind the head of the buffer; they end with
the same buffer as the loops of the program, which still has `len(a) + len(b)` digits,
all in 0..9. -/
theorem multiplication_buffer_safe (a b : Dlist) (ha : a ≠ []) (_hb : b ≠ []) (hda : digits a)
    (hdb : digits b) :
    multiplication_zeroes (a.length + b.length) [] = List.replicate (a.length + b.length) 0 ∧
    ∃ buf, multiplication_loop_checked a.reverse b.reverse []
        (List.replicate (a.length + b.length) 0) = some buf.reverse ∧
      multiplication_loop a.reverse b.reverse []
        (List.replicate (a.length + b.length) 0) = some buf.reverse ∧
      digits buf ∧ buf.length = a.length + b.length := by
  refine ⟨by rw [multiplication_zeroes_eq, List.append_nil], ?_⟩
  obtain ⟨buf, b1, b2, b3, _, _⟩ := multiplication_buffer a b ha hda hdb
  refine ⟨buf, ?_, b1, b2, b3⟩
  rw [← b1, List.replicate_add]
  exact multiplication_loop_checked_eq a.reverse (digits_reverse.2 hda) (by simpa using ha)
    b.reverse [] (List.replicate a.length 0) b.length (digits_reverse.2 hdb) digits_nil
    (digits_replicate_zero _) (by simp) (by simp)

/-- C24 at the operands 999 and 99. -/
theorem multiplication_buffer_safe_witness :
    ([9, 9, 9] : Dlist) ≠ [] ∧ ([9, 9] : Dlist) ≠ [] ∧ digits [9, 9, 9] ∧ digits [9, 9] ∧
    (multiplication_zeroes (([9, 9, 9] : Dlist).length + ([9, 9] : Dlist).length) []
      = List.replicate (([9, 9, 9] : Dlist).length + ([9, 9] : Dlist).length) 0 ∧
    ∃ buf, multiplication_loop_checked ([9, 9, 9] : Dlist).reverse ([9, 9] : Dlist).reverse []
        (List.replicate (([9, 9, 9] : Dlist).length + ([9, 9] : Dlist).length) 0)
          = some buf.reverse ∧
      multiplication_loop ([9, 9, 9] : Dlist).reverse ([9, 9] : Dlist).reverse []
        (List.replicate (([9, 9, 9] : Dlist).length + ([9, 9] : Dlist).length) 0)
          = some buf.reverse ∧
      digits buf ∧ buf.length = ([9, 9, 9] : Dlist).length + ([9, 9] : Dlist).length) :=
  ⟨by decide, by decide, by decide, by decide,
    multiplication_buffer_safe [9, 9, 9] [9, 9] (by decide) (by decide) (by decide) (by decide)⟩

/-- C25 as stated fails when an operand is `[0]`: for 0 x 10 the buffer of 3 zero
digits is cut down to `[0]`, so two digits are removed and the product has 1 digit, which
is neither 3 nor 2. -/
theorem multiplication_trim_counterexample :
    ¬ (∀ a b : Dlist, normalized a → normalized b →
        ∃ r, multiplication a b [] = some (Status.SUCCESS, r) ∧
          (r.length = a.length + b.length ∨ r.length = a.length + b.length - 1)) ∧
    multiplication [0] [1, 0] [] = some (Status.SUCCESS, [0]) := by
  have e : multiplication [0] [1, 0] [] = some (Status.SUCCESS, [0]) := by decide
  refine ⟨?_, e⟩
  intro h
  obtain ⟨r, r1, r2⟩ := h [0] [1, 0] (by decide) (by decide)
  rw [e] at r1
  simp only [Option.some.injEq, Prod.mk.injEq, true_and] at r1
  subst r1
  simp at r2

/-- C25 (amended): for normalized operands that are both other than `[0]` the closing
loop of `multiplication` removes at most one digit of the `len(a) + len(b)` digit buffer:
the product has `len(a) + len(b)` or `len(a) + len(b) - 1` digits; when an operand is
`[0]` the product is `[0]`. -/
theorem multiplication_trim_at_most_one (a b : Dlist) (ha : normalized a) (hb : normalized b) :
    ∃ r, multiplication a b [] = some (Status.SUCCESS, r) ∧
      (a ≠ [0] → b ≠ [0] →
        r.length = a.length + b.length ∨ r.length = a.length + b.length - 1) ∧
      (a = [0] ∨ b = [0] → r = [0]) := by
  obtain ⟨r, r1, r2, r3⟩ := multiplication_spec a b ha.1 ha.2.1 hb.2.1
  obtain ⟨buf, _, _, b3, _, b5⟩ := multiplication_buffer a b ha.1 ha.2.1 hb.2.1
  have hrb : r = delete_at_first buf := by
    rw [b5] at r1
    exact ((Prod.mk.inj (Option.some.inj r1)).2).symm
  refine ⟨r, r1, ?_, ?_⟩
  · intro ha0 hb0
    have hle : r.length ≤ a.length + b.length := by
      rw [hrb, ← b3]
      exact delete_at_first_length_le buf
    have h1 := value_ge_of_normalized ha ha0
    have h2 := value_ge_of_normalized hb hb0
    have hla : 1 ≤ a.length := Nat.pos_of_ne_zero (fun h => ha.1 (List.length_eq_zero.1 h))
    have hlb : 1 ≤ b.length := Nat.pos_of_ne_zero (fun h => hb.1 (List.length_eq_zero.1 h))
    have hlt := value_lt r2.2.1
    have hge : a.length + b.length - 1 ≤ r.length := by
      by_contra hcon
      have h3 : (10 : Int) ^ r.length ≤ 10 ^ (a.length + b.length - 2) :=
        pow_le_pow_right₀ (by norm_num) (by omega)
      have h4 : (10 : Int) ^ (a.length + b.length - 2)
          = 10 ^ (a.length - 1) * 10 ^ (b.length - 1) := by
        rw [← pow_add]
        congr 1
        omega
      have hp1 : (0 : Int) < 10 ^ (a.length - 1) := by positivity
      have hp2 : (0 : Int) < 10 ^ (b.length - 1) := by positivity
      have h5 : (10 : Int) ^ (a.length - 1) * 10 ^ (b.length - 1) ≤ value a * value b :=
        mul_le_mul h1 h2 (le_of_lt hp2) (le_trans (le_of_lt hp1) h1)
      rw [r3] at hlt
      omega
    omega
  · intro h0
    apply (value_eq_zero_iff r2).1
    rw [r3]
    rcases h0 with h | h <;> subst h <;> simp [value]

/-- C25 (amended) at the operands 25 and 4. -/
theorem multiplication_trim_at_most_one_witness :
    normalized [2, 5] ∧ normalized [4] ∧
    ∃ r, multiplication [2, 5] [4] [] = some (Status.SUCCESS, r) ∧
      (([2, 5] : Dlist) ≠ [0] → ([4] : Dlist) ≠ [0] →
        r.length = ([2, 5] : Dlist).length + ([4] : Dlist).length ∨
        r.length = ([2, 5] : Dlist).length + ([4] : Dlist).length - 1) ∧
      (([2, 5] : Dlist) = [0] ∨ ([4] : Dlist) = [0] → r = [0]) :=
  ⟨by decide, by decide, multiplication_trim_at_most_one [2, 5] [4] (by decide) (by decide)⟩

/-! ## The loop of `division` with its counter -/

/-- Without the ghost counter, `division_loop_counted` is `division_loop`. -/
theorem division_loop_counted_forget (fuel : Nat) (head1 head2 headR qH : Dlist) (n : Nat) :
    forget_count (division_loop_counted fuel head1 head2 headR qH n) =
      division_loop fuel head1 head2 headR qH := by
  induction fuel generalizing head1 headR qH n with
  | zero => rfl
  | succ fuel ih =>
    simp only [division_loop_counted, division_loop]
    split
    · cases subtraction head1 head2 [] with
      | none => rfl
      | some p =>
        obtain ⟨st, R⟩ := p
        simp only
        split
        · rfl
        · split
          · rfl
          · exact ih _ _ _ _
    · rfl

/-- The step counter of `division`, empty at first, is a normalized sequence after its
first increment, and every increment adds one to its value. -/
theorem increment_counter (q : Dlist) (hq : q = [] ∨ normalized q) :
    ∃ q', increment_list q = (Status.SUCCESS, q') ∧ normalized q' ∧ value q' = value q + 1 := by
  rcases hq with hq | hq
  · subst hq
    exact ⟨[1], rfl, normalized_one, by simp [value]⟩
  · exact increment_list_spec q hq

/-- The loop of `division` with all its bookkeeping: with fuel above the quotient it ends
after `k` iterations (so `k` calls of `subtraction`) with a normalized running
remainder `h1'`, not greater than the divisor and congruent to the dividend, and the
step counter has grown by `k`. -/
theorem division_loop_counted_spec (b : Dlist) (hb : normalized b) (fuel : Nat)
    (h1 headR qH : Dlist) (n : Nat) (hh : normalized h1) (hq : qH = [] ∨ normalized qH)
    (hfuel : value h1 < fuel * value b) :
    ∃ large h1' headR' qH' k, division_loop_counted fuel h1 b headR qH n
        = Outcome.returned large (h1', headR', qH', n + k) ∧
      (large = Status.LARGE_2 ∨ large = Status.EQUAL) ∧ normalized h1' ∧
      Find_largest h1' b = large ∧ value h1 = value h1' + k * value b ∧
      (0 < value h1 → 0 < value h1') ∧
      (Find_largest h1 b = Status.LARGE_1 → 0 < k) ∧
      (k = 0 ∧ qH' = qH ∨ 0 < k ∧ normalized qH' ∧ value qH' = value qH + k) := by
  induction fuel generalizing h1 headR qH n with
  | zero =>
    have := value_nonneg hh.2.1
    simp at hfuel
    omega
  | succ fuel ih =>
    simp only [division_loop_counted]
    rcases Find_largest_cases h1 b hh hb with ⟨hl, hv⟩ | ⟨hl, hv⟩ | ⟨hl, hv⟩
    · obtain ⟨r, r1, r2, r3⟩ := subtraction_spec h1 b hh hb (le_of_lt hv)
      obtain ⟨q1, i1, i2, i3⟩ := increment_counter qH hq
      have hf : value r < fuel * value b := by
        rw [r3]
        push_cast at hfuel
        linarith
      obtain ⟨large, h1', headR', qH', k, e1, e2, e3, e4, e5, e6, _, e8⟩ :=
        ih r r q1 (n + 1) r2 (Or.inr i2) hf
      refine ⟨large, h1', headR', qH', k + 1, ?_, e2, e3, e4, ?_, ?_, fun _ => by omega,
        Or.inr ⟨by omega, ?_, ?_⟩⟩
      · simp only [hl, r1, i1, if_true, reduceCtorEq, if_false]
        rw [e1]
        congr 4
        omega
      · rw [r3] at e5
        push_cast
        linear_combination e5
      · intro _
        exact e6 (by omega)
      · rcases e8 with ⟨_, h⟩ | ⟨_, h, _⟩
        · rw [h]; exact i2
        · exact h
      · rcases e8 with ⟨hk, h⟩ | ⟨_, _, h⟩
        · rw [h, i3, hk]
          push_cast
          ring
        · rw [h, i3]
          push_cast
          ring
    · refine ⟨Status.LARGE_2, h1, headR, qH, 0, by simp [hl], Or.inl rfl, hh, hl, by simp,
        fun h => h, ?_, Or.inl ⟨rfl, rfl⟩⟩
      intro h
      rw [hl] at h
      cases h
    · refine ⟨Status.EQUAL, h1, headR, qH, 0, by simp [hl], Or.inr rfl, hh, hl, by simp,
        fun h => h, ?_, Or.inl ⟨rfl, rfl⟩⟩
      intro h
      rw [hl] at h
      cases h

/-- The number of iterations in terms of the quotient: the loop ends on `LARGE_2` after
`floor(a / b)` iterations when the divisor does not divide the dividend, and on `EQUAL`
after `floor(a / b) - 1` iterations when it does. -/
theorem division_iterations_eq (va vb vh : Int) (k : Nat) (large : Status) (hvb : 0 < vb)
    (hva : va = vh + k * vb) (hpos : 0 < vh)
    (hl : (large = Status.LARGE_2 ∧ vh < vb) ∨ (large = Status.EQUAL ∧ vh = vb)) :
    (k : Int) = if va % vb = 0 then va / vb - 1 else va / vb := by
  rcases hl with ⟨_, h⟩ | ⟨_, h⟩
  · have hm : va % vb = vh := by
      rw [hva, Int.add_mul_emod_self]
      exact Int.emod_eq_of_lt (le_of_lt hpos) h
    have hd : va / vb = k := by
      rw [hva, Int.add_mul_ediv_right _ _ (ne_of_gt hvb), Int.ediv_eq_zero_of_lt (le_of_lt hpos) h]
      simp
    rw [if_neg (by omega), hd]
  · have hva' : va = (k + 1) * vb := by rw [hva, h]; ring
    have hm : va % vb = 0 := by rw [hva']; exact Int.mul_emod_left _ _
    have hd : va / vb = k + 1 := by
      rw [hva']
      exact Int.mul_ediv_cancel _ (ne_of_gt hvb)
    rw [if_pos hm, hd]
    ring

/-- When the dividend is the greater operand, `division` is its loop followed by the
code after the loop, and the loop ends after `k > 0` iterations with a positive running
remainder and the step counter the normalized sequence of `k`. -/
theorem division_greater_counted (a b : Dlist) (ha : normalized a) (hb : normalized b)
    (hb0 : b ≠ [0]) (hl : Find_largest a b = Status.LARGE_1) (fuel : Nat)
    (hfuel : value a < fuel * value b) :
    ∃ large h1 headR qH k,
      division_loop_counted fuel a b [] [] 0 = Outcome.returned large (h1, headR, qH, k) ∧
      division_loop fuel a b [] [] = Outcome.returned large (h1, headR, qH) ∧
      ((large = Status.LARGE_2 ∧ value h1 < value b) ∨
        (large = Status.EQUAL ∧ value h1 = value b)) ∧
      normalized h1 ∧ value a = value h1 + k * value b ∧ 0 < value h1 ∧ 0 < k ∧
      normalized qH ∧ value qH = k ∧
      ∀ D_or_M, division fuel a b [] D_or_M = division_result large h1 qH D_or_M := by
  have hpos := value_pos_of_normalized hb hb0
  have hapos : 0 < value a := by
    rcases Find_largest_cases a b ha hb with ⟨_, hv⟩ | ⟨h, _⟩ | ⟨h, _⟩
    · omega
    · rw [hl] at h; cases h
    · rw [hl] at h; cases h
  obtain ⟨large, h1, headR, qH, k, e1, e2, e3, e4, e5, e6, e7, e8⟩ :=
    division_loop_counted_spec b hb fuel a [] [] 0 ha (Or.inl rfl) hfuel
  rw [Nat.zero_add] at e1
  have hloop : division_loop fuel a b [] [] = Outcome.returned large (h1, headR, qH) := by
    rw [← division_loop_counted_forget fuel a b [] [] 0, e1]
    rfl
  have hk := e7 hl
  have hq : normalized qH ∧ value qH = k := by
    rcases e8 with ⟨h, _⟩ | ⟨_, h1, h2⟩
    · omega
    · exact ⟨h1, by simpa [value] using h2⟩
  have hcase : (large = Status.LARGE_2 ∧ value h1 < value b) ∨
      (large = Status.EQUAL ∧ value h1 = value b) := by
    rcases Find_largest_cases h1 b e3 hb with ⟨gl, gv⟩ | ⟨gl, gv⟩ | ⟨gl, gv⟩
    · rw [gl] at e4
      subst e4
      rcases e2 with h | h <;> cases h
    · rw [gl] at e4
      exact Or.inl ⟨e4.symm, gv⟩
    · rw [gl] at e4
      exact Or.inr ⟨e4.symm, gv⟩
  refine ⟨large, h1, headR, qH, k, e1, hloop, hcase, e3, e5, e6 hapos, hk, hq.1, hq.2, ?_⟩
  intro D_or_M
  have hne := hb.1
  cases b with
  | nil => exact absurd rfl hne
  | cons d next =>
    have hz : ¬ (d = 0 ∧ next = []) := by
      rintro ⟨h1, h2⟩
      subst h1 h2
      exact hb0 rfl
    have hnf : large ≠ Status.FAILURE := by
      rcases e2 with h | h <;> subst h <;> decide
    simp only [division, if_neg hz, hl, reduceCtorEq, if_false, hloop, if_neg hnf]

/-- C26 as stated fails when the divisor divides the dividend: for 14 / 7 the loop makes
one iteration (one call of `subtraction`) and ends on `EQUAL`; the quotient 2 is only
reached by the increment after the loop. -/
theorem division_iterations_counterexample :
    normalized [1, 4] ∧ normalized [7] ∧ Find_largest [1, 4] [7] = Status.LARGE_1 ∧
    division_loop_counted 5 [1, 4] [7] [] [] 0
      = Outcome.returned Status.EQUAL ([7], [7], [1], 1) ∧
    ((1 : Nat) : Int) ≠ value [1, 4] / value [7] := by
  decide

/-- C26 (amended): for a normalized dividend that `Find_largest` finds greater than the
normalized non-zero divisor, and fuel above the quotient, the loop of `division` makes
`floor(value a / value b)` iterations (calls of `subtraction`) when the divisor does not
divide the dividend and one less when it does; the step counter of the program holds
that number when the loop ends. -/
theorem division_iterations (a b : Dlist) (ha : normalized a) (hb : normalized b)
    (hb0 : b ≠ [0]) (hl : Find_largest a b = Status.LARGE_1) (fuel : Nat)
    (hfuel : value a < fuel * value b) :
    ∃ large h1 headR qH k,
      division_loop_counted fuel a b [] [] 0 = Outcome.returned large (h1, headR, qH, k) ∧
      division_loop fuel a b [] [] = Outcome.returned large (h1, headR, qH) ∧
      (k : Int) = (if value a % value b = 0 then value a / value b - 1
        else value a / value b) ∧
      value qH = k := by
  obtain ⟨large, h1, headR, qH, k, e1, e2, e3, _, e5, e6, _, _, e9, _⟩ :=
    division_greater_counted a b ha hb hb0 hl fuel hfuel
  exact ⟨large, h1, headR, qH, k, e1, e2,
    division_iterations_eq _ _ _ k large (value_pos_of_normalized hb hb0) e5 e6 e3, e9⟩

/-- C26 (amended) at 45 / 6 with fuel 8. -/
theorem division_iterations_witness :
    normalized [4, 5] ∧ normalized [6] ∧ ([6] : Dlist) ≠ [0] ∧
    Find_largest [4, 5] [6] = Status.LARGE_1 ∧ value [4, 5] < ((8 : Nat) : Int) * value [6] ∧
    ∃ large h1 headR qH k,
      division_loop_counted 8 [4, 5] [6] [] [] 0
        = Outcome.returned large (h1, headR, qH, k) ∧
      division_loop 8 [4, 5] [6] [] [] = Outcome.returned large (h1, headR, qH) ∧
      (k : Int) = (if value [4, 5] % value [6] = 0 then value [4, 5] / value [6] - 1
        else value [4, 5] / value [6]) ∧
      value qH = k :=
  ⟨by decide, by decide, by decide, by decide, by decide,
    division_iterations [4, 5] [6] (by decide) (by decide) (by decide) (by decide) 8
      (by decide)⟩

/-! ## Termination and the preservation of the invariant -/

/-- Fuel above the value of the dividend is fuel above the quotient. -/
theorem fuel_enough (a b : Dlist) (ha : normalized a) (hb : normalized b) (hb0 : b ≠ [0])
    (fuel : Nat) (h : (value a).toNat + 1 ≤ fuel) : value a < fuel * value b := by
  have hpos := value_pos_of_normalized hb hb0
  have hnn := value_nonneg ha.2.1
  have h1 : value a < (fuel : Int) := by omega
  have h2 : (0 : Int) ≤ fuel := by omega
  nlinarith

/-- In quotient mode `division` returns `SUCCESS` with a normalized sequence. -/
theorem division_Div_normalized (a b : Dlist) (ha : normalized a) (hb : normalized b)
    (hb0 : b ≠ [0]) (fuel : Nat) (hfuel : value a < fuel * value b) :
    ∃ h1 r, division fuel a b [] "Div" = Outcome.returned Status.SUCCESS (h1, r) ∧
      normalized r := by
  rcases Find_largest_cases a b ha hb with ⟨hl, _⟩ | ⟨hl, _⟩ | ⟨hl, _⟩
  · obtain ⟨large, h1, headR, qH, k, _, _, _, _, _, _, _, e8, _, e10⟩ :=
      division_greater_counted a b ha hb hb0 hl fuel hfuel
    rw [e10, division_result_Div]
    refine ⟨_, _, rfl, ?_⟩
    have hq : normalized (if large = Status.EQUAL then (increment_list qH).2 else qH) := by
      split
      · obtain ⟨y, y1, y2, _⟩ := increment_list_spec qH e8
        rw [y1]
        exact y2
      · exact e8
    rw [if_neg hq.1]
    exact delete_at_first_normalized (by simpa using hq.1) (digits_reverse.2 hq.2.1)
  · obtain ⟨t1, _, _, _⟩ := division_smaller_dividend_aux a b hb hb0 hl fuel
    exact ⟨a, [0], t1, normalized_zero⟩
  · have hab : a = b := (Find_largest_equal_iff a b).1 hl
    subst hab
    obtain ⟨t1, _⟩ := division_self_aux a ha hb0 fuel
    exact ⟨a, [1], t1, normalized_one⟩

/-- C27: the loops end.  For a normalized dividend and a normalized divisor other than
`[0]` there is a fuel from which on the loop of `division` ends and `division` returns
in both modes, every iteration replacing the running remainder by one of smaller
value; for a base with digits in 0..9 and a normalized exponent there is a fuel from
which on the loop of `power` ends with the exponent `[0]` and `power` returns, every
iteration lowering the value of the exponent by one.  (`addition`, `subtraction` and
`multiplication` are total functions of the embedding.) -/
theorem loops_terminate (a b baseH expH : Dlist) (ha : normalized a) (hb : normalized b)
    (hb0 : b ≠ [0]) (hbase : digits baseH) (he : normalized expH) :
    (∃ N, ∀ fuel, N ≤ fuel → ∀ headR qH,
      ∃ large s, division_loop fuel a b headR qH = Outcome.returned large s ∧
        (large = Status.LARGE_2 ∨ large = Status.EQUAL)) ∧
    (∃ N, ∀ fuel, N ≤ fuel →
      (∃ s, division fuel a b [] "Div" = Outcome.returned Status.SUCCESS s) ∧
      (∃ s, division fuel a b [] "Mod" = Outcome.returned Status.SUCCESS s)) ∧
    (∀ h1, normalized h1 → Find_largest h1 b = Status.LARGE_1 →
      ∃ r, subtraction h1 b [] = some (Status.SUCCESS, r) ∧ normalized r ∧
        value r < value h1) ∧
    (∃ N, ∀ fuel, N ≤ fuel → ∀ headR, normalized headR →
      ∃ r, power_loop fuel baseH expH headR = Outcome.returned Status.SUCCESS ([0], r)) ∧
    (∃ N, ∀ fuel, N ≤ fuel →
      ∃ s, power fuel baseH expH [] = Outcome.returned Status.SUCCESS s) ∧
    (∀ x, normalized x → x ≠ [0] →
      ∃ x', subtract_one x = some x' ∧ normalized x' ∧ value x' = value x - 1) := by
  have hpos := value_pos_of_normalized hb hb0
  have hexp : ∀ fuel : Nat, (value expH).toNat + 1 ≤ fuel → value expH < fuel := by
    intro fuel h
    omega
  refine ⟨⟨(value a).toNat + 1, ?_⟩, ⟨(value a).toNat + 1, ?_⟩, ?_,
    ⟨(value expH).toNat + 1, ?_⟩, ⟨(value expH).toNat + 1, ?_⟩, ?_⟩
  · intro fuel hf headR qH
    obtain ⟨large, h1', headR', qH', e1, e2, _⟩ :=
      division_loop_spec b hb fuel a headR qH ha (fuel_enough a b ha hb hb0 fuel hf)
    exact ⟨large, _, e1, e2⟩
  · intro fuel hf
    have hfuel := fuel_enough a b ha hb hb0 fuel hf
    obtain ⟨h1, r, e1, _⟩ := division_Div_normalized a b ha hb hb0 fuel hfuel
    obtain ⟨h2, r2, e2, _⟩ := division_Mod_spec a b ha hb hb0 fuel hfuel
    exact ⟨⟨_, e1⟩, ⟨_, e2⟩⟩
  · intro h1 hh hl
    rcases Find_largest_cases h1 b hh hb with ⟨_, hv⟩ | ⟨h, _⟩ | ⟨h, _⟩
    · obtain ⟨r, r1, r2, r3⟩ := subtraction_spec h1 b hh hb (le_of_lt hv)
      exact ⟨r, r1, r2, by omega⟩
    · rw [hl] at h; cases h
    · rw [hl] at h; cases h
  · intro fuel hf headR hr
    obtain ⟨r, r1, _⟩ := power_loop_spec baseH hbase fuel expH headR he hr (hexp fuel hf)
    exact ⟨r, r1⟩
  · intro fuel hf
    obtain ⟨e', r, r1, _⟩ := power_spec baseH expH [] hbase he fuel (hexp fuel hf)
    exact ⟨_, r1⟩
  · intro x hx hx0
    exact subtract_one_spec x hx (value_pos_of_normalized hx hx0)

/-- C27 at the division 45 / 6 and the power 3 ^ 4. -/
theorem loops_terminate_witness :
    normalized [4, 5] ∧ normalized [6] ∧ ([6] : Dlist) ≠ [0] ∧ digits [3] ∧ normalized [4] ∧
    ((∃ N, ∀ fuel, N ≤ fuel → ∀ headR qH,
      ∃ large s, division_loop fuel [4, 5] [6] headR qH = Outcome.returned large s ∧
        (large = Status.LARGE_2 ∨ large = Status.EQUAL)) ∧
    (∃ N, ∀ fuel, N ≤ fuel →
      (∃ s, division fuel [4, 5] [6] [] "Div" = Outcome.returned Status.SUCCESS s) ∧
      (∃ s, division fuel [4, 5] [6] [] "Mod" = Outcome.returned Status.SUCCESS s)) ∧
    (∀ h1, normalized h1 → Find_largest h1 [6] = Status.LARGE_1 →
      ∃ r, subtraction h1 [6] [] = some (Status.SUCCESS, r) ∧ normalized r ∧
        value r < value h1) ∧
    (∃ N, ∀ fuel, N ≤ fuel → ∀ headR, normalized headR →
      ∃ r, power_loop fuel [3] [4] headR = Outcome.returned Status.SUCCESS ([0], r)) ∧
    (∃ N, ∀ fuel, N ≤ fuel →
      ∃ s, power fuel [3] [4] [] = Outcome.returned Status.SUCCESS s) ∧
    (∀ x, normalized x → x ≠ [0] →
      ∃ x', subtract_one x = some x' ∧ normalized x' ∧ value x' = value x - 1)) :=
  ⟨by decide, by decide, by decide, by decide, by decide,
    loops_terminate [4, 5] [6] [3] [4] (by decide) (by decide) (by decide) (by decide)
      (by decide)⟩

/-- C23: the DigitSequence invariant is preserved.  For normalized operands, `addition`
and `multiplication` return a normalized result; so does `subtraction` when the first
operand is not the smaller one, `division` in both modes when the divisor is not `[0]`
(fuel above the quotient), and `power` (fuel above the exponent). -/
theorem invariant_preserved (a b : Dlist) (ha : normalized a) (hb : normalized b) :
    (∃ r, addition a b [] = some (Status.SUCCESS, r) ∧ normalized r) ∧
    (Find_largest a b ≠ Status.LARGE_2 →
      ∃ r, subtraction a b [] = some (Status.SUCCESS, r) ∧ normalized r) ∧
    (∃ r, multiplication a b [] = some (Status.SUCCESS, r) ∧ normalized r) ∧
    (b ≠ [0] → ∀ fuel : Nat, value a < fuel * value b →
      (∃ h1 r, division fuel a b [] "Div" = Outcome.returned Status.SUCCESS (h1, r) ∧
        normalized r) ∧
      (∃ h1 r, division fuel a b [] "Mod" = Outcome.returned Status.SUCCESS (h1, r) ∧
        normalized r)) ∧
    (∀ fuel : Nat, value b < fuel →
      ∃ e r, power fuel a b [] = Outcome.returned Status.SUCCESS (e, r) ∧ normalized r) := by
  refine ⟨?_, ?_, ?_, ?_, ?_⟩
  · obtain ⟨r, r1, _, r3⟩ := addition_spec a b ha.1 ha.2.1 hb.2.1
    exact ⟨r, r1, r3⟩
  · intro h
    obtain ⟨r, r1, r2, _⟩ :=
      subtraction_spec a b ha hb (value_le_of_not_LARGE_2 a b ha hb h)
    exact ⟨r, r1, r2⟩
  · obtain ⟨r, r1, r2, _⟩ := multiplication_spec a b ha.1 ha.2.1 hb.2.1
    exact ⟨r, r1, r2⟩
  · intro hb0 fuel hfuel
    obtain ⟨h2, r2, e2, n2, _, _⟩ := division_Mod_spec a b ha hb hb0 fuel hfuel
    exact ⟨division_Div_normalized a b ha hb hb0 fuel hfuel, ⟨h2, r2, e2, n2⟩⟩
  · intro fuel hfuel
    obtain ⟨e, r, r1, r2, _⟩ := power_spec a b [] ha.2.1 hb fuel hfuel
    exact ⟨e, r, r1, r2⟩

/-- C23 at the operands 120 and 7. -/
theorem invariant_preserved_witness :
    normalized [1, 2, 0] ∧ normalized [7] ∧
    ((∃ r, addition [1, 2, 0] [7] [] = some (Status.SUCCESS, r) ∧ normalized r) ∧
    (Find_largest [1, 2, 0] [7] ≠ Status.LARGE_2 →
      ∃ r, subtraction [1, 2, 0] [7] [] = some (Status.SUCCESS, r) ∧ normalized r) ∧
    (∃ r, multiplication [1, 2, 0] [7] [] = some (Status.SUCCESS, r) ∧ normalized r) ∧
    (([7] : Dlist) ≠ [0] → ∀ fuel : Nat, value [1, 2, 0] < fuel * value [7] →
      (∃ h1 r, division fuel [1, 2, 0] [7] [] "Div" = Outcome.returned Status.SUCCESS (h1, r) ∧
        normalized r) ∧
      (∃ h1 r, division fuel [1, 2, 0] [7] [] "Mod" = Outcome.returned Status.SUCCESS (h1, r) ∧
        normalized r)) ∧
    (∀ fuel : Nat, value [7] < fuel →
      ∃ e r, power fuel [1, 2, 0] [7] [] = Outcome.returned Status.SUCCESS (e, r) ∧
        normalized r)) :=
  ⟨by decide, by decide, invariant_preserved [1, 2, 0] [7] (by decide) (by decide)⟩

/-! ## The driver of `main` for `%`, and the parser -/

/-- With a positive divisor the signed remainder that `main` shows is a remainder of the
signed dividend: the sign rule of the `%` branch is right in that half of the cases. -/
theorem main_switch_mod_positive_divisor (fuel : Nat) (sign1 : Char) (h1 h2 : Dlist)
    (hs1 : sign1 = '+' ∨ sign1 = '-') (hn1 : normalized h1) (hn2 : normalized h2)
    (h0 : h2 ≠ [0]) (hfuel : value h1 < fuel * value h2) :
    ∃ final_sign r, main_switch fuel '%' sign1 '+' h1 h2 []
        = Outcome.returned Status.SUCCESS (some final_sign, r) ∧
      signed_value '+' h2 ∣ signed_value sign1 h1 - signed_value final_sign r := by
  obtain ⟨h, r, e1, _, e3, _⟩ := division_Mod_spec h1 h2 hn1 hn2 h0 fuel hfuel
  have hdvd : value h2 ∣ value h1 - value h1 % value h2 :=
    ⟨value h1 / value h2, by have := Int.emod_add_ediv (value h1) (value h2); linarith⟩
  rcases hs1 with hs | hs <;> subst hs
  · refine ⟨'+', r, by simp [main_switch, e1], ?_⟩
    simpa [signed_value, e3] using hdvd
  · refine ⟨'-', r, by simp [main_switch, e1], ?_⟩
    have : signed_value '-' h1 - signed_value '-' r = -(value h1 - value h1 % value h2) := by
      simp [signed_value, e3]
      ring
    rw [this]
    simpa [signed_value] using (dvd_neg.2 hdvd)

/-- C21 (code defect): for `7 % -3` the operands are accepted, the magnitude of the result
is 7 mod 3 = 1 and the `%` branch of `main` gives it the sign `-` because the operand signs
differ; -3 does not divide 7 - (-1) = 8, so -1 is not a remainder of 7 by -3.  In the
same way `-7 % -3` is shown as +1, and -3 does not divide -7 - 1 = -8. -/
theorem main_mod_wrong_at_7_mod_minus_3 :
    Validate_arguments ["apc.out", "7", "%", "-3"] = some Status.SUCCESS ∧
    main 3 ["apc.out", "7", "%", "-3"] = Outcome.returned Status.SUCCESS (some '-', [1]) ∧
    operand_value "7" = 7 ∧ operand_value "-3" = -3 ∧ signed_value '-' [1] = -1 ∧
    ¬ (operand_value "-3" ∣ operand_value "7" - signed_value '-' [1]) ∧
    main 3 ["apc.out", "-7", "%", "-3"] = Outcome.returned Status.SUCCESS (some '+', [1]) ∧
    ¬ (operand_value "-3" ∣ operand_value "-7" - signed_value '+' [1]) := by
  decide

theorem isDigit_range (c : Char) (h : c.isDigit = true) : 48 ≤ c.toNat ∧ c.toNat ≤ 57 := by
  simp only [Char.isDigit, Bool.and_eq_true, decide_eq_true_eq] at h
  obtain ⟨h1, h2⟩ := h
  have h1' : (48 : UInt32).toNat ≤ c.val.toNat := h1
  have h2' : c.val.toNat ≤ (57 : UInt32).toNat := h2
  exact ⟨h1', h2'⟩

theorem char_zero_of_toNat (c : Char) (h : c.toNat = 48) : c = '0' := by
  apply Char.ext
  apply UInt32.ext
  exact h

theorem digit_value_eq_zero_iff (c : Char) : (c.toNat : Int) - 48 = 0 ↔ c = '0' := by
  constructor
  · intro h
    exact char_zero_of_toNat c (by omega)
  · intro h
    subst h
    decide

theorem isNumeric_eq (str : String) : isNumeric str = isNumeric_loop (digit_chars str) := by
  unfold isNumeric digit_chars
  cases str.toList with
  | nil => rfl
  | cons c cs =>
    simp only
    split <;> rfl

theorem String_to_list_eq (head : Dlist) (str : String) :
    String_to_list head str = String_to_list_loop (digit_chars str) head := by
  unfold String_to_list digit_chars
  cases str.toList with
  | nil => rfl
  | cons c cs =>
    simp only
    split <;> rfl

theorem String_to_list_loop_eq (cs : List Char) (head : Dlist) :
    String_to_list_loop cs head = head ++ cs.map (fun c => (c.toNat : Int) - 48) := by
  induction cs generalizing head with
  | nil => simp [String_to_list_loop]
  | cons c cs ih => simp [String_to_list_loop, ih, insert_at_last]

theorem isNumeric_loop_all (cs : List Char) (h : isNumeric_loop cs = Status.NUMERIC) :
    ∀ c ∈ cs, c.isDigit = true := by
  induction cs with
  | nil => intro c hc; cases hc
  | cons d cs ih =>
    simp only [isNumeric_loop] at h
    split at h
    · cases h
    · next hd =>
      intro c hc
      rcases List.mem_cons.1 hc with hc | hc
      · rw [hc]
        simpa using hd
      · exact ih h c hc

/-- C28 as stated fails: `isNumeric` accepts 007 and `String_to_list` keeps its leading
zeros; it also accepts the empty string and a lone sign, for which `String_to_list`
yields the empty list. -/
theorem String_to_list_counterexample :
    ¬ (∀ str : String, isNumeric str = Status.NUMERIC → normalized (String_to_list [] str)) ∧
    isNumeric "007" = Status.NUMERIC ∧ String_to_list [] "007" = [0, 0, 7] ∧
    isNumeric "" = Status.NUMERIC ∧ String_to_list [] "" = [] ∧
    isNumeric "-" = Status.NUMERIC ∧ String_to_list [] "-" = [] := by
  refine ⟨?_, by decide, by decide, by decide, by decide, by decide, by decide⟩
  intro h
  have h1 := h "007" (by decide)
  have h2 : ¬ normalized (String_to_list [] "007") := by decide
  exact h2 h1

/-- C28 (amended): for a string accepted by `isNumeric` that has at least one character
behind its optional sign, `String_to_list` yields the digits behind the sign in input
order: a non-empty sequence, one digit in 0..9 per character; leading zeros are kept, so
the sequence is normalized exactly when the digit part does not start with 0 or is the
single character 0. -/
theorem String_to_list_correct (str : String) (h : isNumeric str = Status.NUMERIC)
    (hne : digit_chars str ≠ []) :
    String_to_list [] str = (digit_chars str).map (fun c => (c.toNat : Int) - 48) ∧
    String_to_list [] str ≠ [] ∧
    digits (String_to_list [] str) ∧
    (String_to_list [] str).length = (digit_chars str).length ∧
    (normalized (String_to_list [] str) ↔
      ((digit_chars str).head? = some '0' → digit_chars str = ['0'])) := by
  rw [isNumeric_eq] at h
  have hall := isNumeric_loop_all _ h
  have heq : String_to_list [] str = (digit_chars str).map (fun c => (c.toNat : Int) - 48) := by
    rw [String_to_list_eq, String_to_list_loop_eq, List.nil_append]
  have hdig : digits (String_to_list [] str) := by
    rw [heq]
    intro d hd
    obtain ⟨c, hc, rfl⟩ := List.mem_map.1 hd
    have := isDigit_range c (hall c hc)
    constructor <;> omega
  have hnn : String_to_list [] str ≠ [] := by
    rw [heq]
    simpa using hne
  refine ⟨heq, hnn, hdig, by rw [heq, List.length_map], ?_⟩
  constructor
  · intro hn
    have hz := hn.2.2
    rw [heq] at hz
    intro hh
    cases hcs : digit_chars str with
    | nil => exact absurd hcs hne
    | cons c t =>
      rw [hcs] at hz hh
      simp only [List.head?_cons, Option.some.injEq] at hh
      subst hh
      have := hz (by simp)
      simp only [List.map_cons, List.cons.injEq, List.map_eq_nil_iff] at this
      rw [this.2]
  · intro hz
    refine ⟨hnn, hdig, ?_⟩
    rw [heq]
    intro hh
    cases hcs : digit_chars str with
    | nil => exact absurd hcs hne
    | cons c t =>
      rw [hcs] at hz hh
      simp only [List.map_cons, List.head?_cons, Option.some.injEq] at hh
      have hc := (digit_value_eq_zero_iff c).1 hh
      subst hc
      have := hz rfl
      simp only [List.cons.injEq, true_and] at this
      subst this
      rfl

/-- C28 (amended) at the string `-1204`. -/
theorem String_to_list_correct_witness :
    isNumeric "-1204" = Status.NUMERIC ∧ digit_chars "-1204" ≠ [] ∧
    (String_to_list [] "-1204" = (digit_chars "-1204").map (fun c => (c.toNat : Int) - 48) ∧
    String_to_list [] "-1204" ≠ [] ∧
    digits (String_to_list [] "-1204") ∧
    (String_to_list [] "-1204").length = (digit_chars "-1204").length ∧
    (normalized (String_to_list [] "-1204") ↔
      ((digit_chars "-1204").head? = some '0' → digit_chars "-1204" = ['0']))) :=
  ⟨by decide, by decide, String_to_list_correct "-1204" (by decide) (by decide)⟩

/-! ## The quotient counter of `division` and the operands of `power` -/

/-- The quotient in terms of the exit of the loop: the `k` iterations are the whole
quotient on the `LARGE_2` exit and all of it but one on the `EQUAL` exit. -/
theorem division_quotient_eq (va vb vh : Int) (k : Nat) (large : Status) (hvb : 0 < vb)
    (hva : va = vh + k * vb) (hpos : 0 < vh)
    (hl : (large = Status.LARGE_2 ∧ vh < vb) ∨ (large = Status.EQUAL ∧ vh = vb)) :
    va / vb = if large = Status.EQUAL then (k : Int) + 1 else k := by
  rcases hl with ⟨hL, h⟩ | ⟨hL, h⟩
  · subst hL
    rw [if_neg (by decide), hva, Int.add_mul_ediv_right _ _ (ne_of_gt hvb),
      Int.ediv_eq_zero_of_lt (le_of_lt hpos) h]
    simp
  · subst hL
    have hva' : va = (k + 1) * vb := by rw [hva, h]; ring
    rw [if_pos rfl, hva']
    exact Int.mul_ediv_cancel _ (ne_of_gt hvb)

/-- C31: for a normalized dividend that `Find_largest` finds greater than the normalized
non-zero divisor (fuel above the quotient), the step counter that `division` holds after
its loop and the final increment on the `EQUAL` exit is the normalized sequence, most
significant digit first, of `floor(value a / value b)`; what quotient mode returns is
that counter reversed, with the leading zeros of the reversed copy removed.  For 100 / 7
the counter is `[1, 4]` and `[4, 1]` is returned; for 100 / 5 the counter is `[2, 0]` and
`[2]` is returned. -/
theorem division_counter_and_result (a b : Dlist) (ha : normalized a) (hb : normalized b)
    (hb0 : b ≠ [0]) (hl : Find_largest a b = Status.LARGE_1) (fuel : Nat)
    (hfuel : value a < fuel * value b) :
    (∃ large h1 headR qH counter,
      division_loop fuel a b [] [] = Outcome.returned large (h1, headR, qH) ∧
      counter = (if large = Status.EQUAL then (increment_list qH).2 else qH) ∧
      normalized counter ∧ value counter = value a / value b ∧
      ∃ h1', division fuel a b [] "Div"
        = Outcome.returned Status.SUCCESS (h1', delete_at_first counter.reverse)) ∧
    division_loop 15 [1, 0, 0] [7] [] [] = Outcome.returned Status.LARGE_2 ([2], [2], [1, 4]) ∧
    division 15 [1, 0, 0] [7] [] "Div" = Outcome.returned Status.SUCCESS ([2], [4, 1]) ∧
    division_loop 21 [1, 0, 0] [5] [] [] = Outcome.returned Status.EQUAL ([5], [5], [1, 9]) ∧
    increment_list [1, 9] = (Status.SUCCESS, [2, 0]) ∧
    division 21 [1, 0, 0] [5] [] "Div" = Outcome.returned Status.SUCCESS ([0], [2]) := by
  refine ⟨?_, by decide, by decide, by decide, by decide, by decide⟩
  obtain ⟨large, h1, headR, qH, k, _, e2, e3, _, e5, e6, _, e8, e9, e10⟩ :=
    division_greater_counted a b ha hb hb0 hl fuel hfuel
  have hq := division_quotient_eq _ _ _ k large (value_pos_of_normalized hb hb0) e5 e6 e3
  have hc : normalized (if large = Status.EQUAL then (increment_list qH).2 else qH) ∧
      value (if large = Status.EQUAL then (increment_list qH).2 else qH)
        = value a / value b := by
    by_cases hE : large = Status.EQUAL
    · obtain ⟨y, y1, y2, y3⟩ := increment_list_spec qH e8
      rw [if_pos hE] at hq ⊢
      rw [y1]
      exact ⟨y2, by rw [y3, e9, hq]⟩
    · rw [if_neg hE] at hq ⊢
      exact ⟨e8, by rw [e9, hq]⟩
  refine ⟨large, h1, headR, qH, _, e2, rfl, hc.1, hc.2, ?_⟩
  rw [e10, division_result_Div, if_neg hc.1.1]
  exact ⟨_, rfl⟩

/-- C31 at 45 / 6 with fuel 8. -/
theorem division_counter_and_result_witness :
    normalized [4, 5] ∧ normalized [6] ∧ ([6] : Dlist) ≠ [0] ∧
    Find_largest [4, 5] [6] = Status.LARGE_1 ∧ value [4, 5] < ((8 : Nat) : Int) * value [6] ∧
    ((∃ large h1 headR qH counter,
      division_loop 8 [4, 5] [6] [] [] = Outcome.returned large (h1, headR, qH) ∧
      counter = (if large = Status.EQUAL then (increment_list qH).2 else qH) ∧
      normalized counter ∧ value counter = value [4, 5] / value [6] ∧
      ∃ h1', division 8 [4, 5] [6] [] "Div"
        = Outcome.returned Status.SUCCESS (h1', delete_at_first counter.reverse)) ∧
    division_loop 15 [1, 0, 0] [7] [] [] = Outcome.returned Status.LARGE_2 ([2], [2], [1, 4]) ∧
    division 15 [1, 0, 0] [7] [] "Div" = Outcome.returned Status.SUCCESS ([2], [4, 1]) ∧
    division_loop 21 [1, 0, 0] [5] [] [] = Outcome.returned Status.EQUAL ([5], [5], [1, 9]) ∧
    increment_list [1, 9] = (Status.SUCCESS, [2, 0]) ∧
    division 21 [1, 0, 0] [5] [] "Div" = Outcome.returned Status.SUCCESS ([0], [2])) :=
  ⟨by decide, by decide, by decide, by decide, by decide,
    division_counter_and_result [4, 5] [6] (by decide) (by decide) (by decide) (by decide) 8
      (by decide)⟩

/-- Without the base list, `power_loop_operands` is `power_loop`. -/
theorem power_loop_operands_forget (fuel : Nat) (baseH expH headR : Dlist) :
    forget_base (power_loop_operands fuel baseH expH headR) =
      power_loop fuel baseH expH headR := by
  induction fuel generalizing expH headR with
  | zero => rfl
  | succ fuel ih =>
    cases expH with
    | nil => rfl
    | cons d next =>
      simp only [power_loop_operands, power_loop]
      split
      · cases multiplication (copy_list headR) baseH (free_list headR) with
        | none => rfl
        | some p =>
          obtain ⟨st, R⟩ := p
          simp only
          split
          · rfl
          · cases subtract_one (d :: next) with
            | none => rfl
            | some e => exact ih e R
      · rfl

/-- The base list in the state of `power_loop_operands` is the one handed in. -/
theorem power_loop_operands_base (fuel : Nat) (baseH expH headR : Dlist) (st : Status)
    (b e r : Dlist)
    (h : power_loop_operands fuel baseH expH headR = Outcome.returned st (b, e, r)) :
    b = baseH := by
  induction fuel generalizing expH headR with
  | zero => simp [power_loop_operands] at h
  | succ fuel ih =>
    cases expH with
    | nil => simp [power_loop_operands] at h
    | cons d next =>
      simp only [power_loop_operands] at h
      split at h
      · cases hm : multiplication (copy_list headR) baseH (free_list headR) with
        | none => rw [hm] at h; simp at h
        | some p =>
          obtain ⟨st', R⟩ := p
          rw [hm] at h
          simp only at h
          split at h
          · simp only [Outcome.returned.injEq, Prod.mk.injEq] at h
            exact h.2.1.symm
          · cases hs : subtract_one (d :: next) with
            | none => rw [hs] at h; simp at h
            | some e' =>
              rw [hs] at h
              exact ih e' R h
      · simp only [Outcome.returned.injEq, Prod.mk.injEq] at h
        exact h.2.1.symm

/-- With a normalized exponent of positive value, the loop of `power` with the base in
its state ends with the base as handed in, the exponent `[0]` and the power. -/
theorem power_loop_operands_spec (baseH : Dlist) (hb : digits baseH) (fuel : Nat)
    (expH headR : Dlist) (he : normalized expH) (hr : normalized headR)
    (hfuel : value expH < fuel) :
    ∃ r, power_loop_operands fuel baseH expH headR
        = Outcome.returned Status.SUCCESS (baseH, [0], r) ∧
      power_loop fuel baseH expH headR = Outcome.returned Status.SUCCESS ([0], r) ∧
      normalized r ∧ value r = value headR * value baseH ^ (value expH).toNat := by
  obtain ⟨r, r1, r2, r3⟩ := power_loop_spec baseH hb fuel expH headR he hr hfuel
  refine ⟨r, ?_, r1, r2, r3⟩
  have hf := power_loop_operands_forget fuel baseH expH headR
  rw [r1] at hf
  cases ho : power_loop_operands fuel baseH expH headR with
  | returned st s =>
    obtain ⟨b, e, r'⟩ := s
    have hbase := power_loop_operands_base fuel baseH expH headR st b e r' ho
    rw [ho] at hf
    simp only [forget_base, Outcome.returned.injEq, Prod.mk.injEq] at hf
    rw [hbase, hf.1, hf.2.1, hf.2.2]
  | exited code s =>
    obtain ⟨b, e, r'⟩ := s
    rw [ho] at hf
    simp [forget_base] at hf
  | null_deref =>
    rw [ho] at hf
    simp [forget_base] at hf
  | out_of_fuel =>
    rw [ho] at hf
    simp [forget_base] at hf

/-- C32: `power` uses up its exponent in place and leaves the base alone: for a base with
digits in 0..9 and a normalized exponent of positive value (fuel above that value),
`power` returns `SUCCESS` with the caller's exponent list being exactly `[0]` and the
base list as it was handed in; the result is the power of that base.  `power_operands` is
`power` with the base list added to the state. -/
theorem power_operands_after (baseH expH : Dlist) (hb : digits baseH) (he : normalized expH)
    (hpos : 0 < value expH) (fuel : Nat) (hfuel : value expH < fuel) :
    ∃ r, power fuel baseH expH [] = Outcome.returned Status.SUCCESS ([0], r) ∧
      power_operands fuel baseH expH [] = Outcome.returned Status.SUCCESS (baseH, [0], r) ∧
      forget_base (power_operands fuel baseH expH []) = power fuel baseH expH [] ∧
      expH ≠ [0] ∧ value r = value baseH ^ (value expH).toNat := by
  have hne := he.1
  have hne0 : expH ≠ [0] := by
    intro h
    rw [h] at hpos
    simp [value] at hpos
  cases expH with
  | nil => exact absurd rfl hne
  | cons d next =>
    have hz : ¬ (d = 0 ∧ next = []) := by
      rintro ⟨h1, h2⟩
      subst h1 h2
      exact hne0 rfl
    obtain ⟨r, r1, r2, r3, r4⟩ :=
      power_loop_operands_spec baseH hb fuel (d :: next) [1] he normalized_one hfuel
    have hp : power fuel baseH (d :: next) [] = Outcome.returned Status.SUCCESS ([0], r) := by
      simp only [power, insert_at_first, if_neg hz, r2, reduceCtorEq, if_false,
        remove_leading_zeroes_of_normalized r3]
    have hpo : power_operands fuel baseH (d :: next) []
        = Outcome.returned Status.SUCCESS (baseH, [0], r) := by
      simp only [power_operands, insert_at_first, if_neg hz, r1, reduceCtorEq, if_false,
        remove_leading_zeroes_of_normalized r3]
    refine ⟨r, hp, hpo, ?_, hne0, ?_⟩
    · rw [hpo, hp]
      rfl
    · rw [r4]
      simp [value]

/-- C32 at the base 012 and the exponent 3 with fuel 4. -/
theorem power_operands_after_witness :
    digits [0, 1, 2] ∧ normalized [3] ∧ 0 < value [3] ∧ value [3] < ((4 : Nat) : Int) ∧
    ∃ r, power 4 [0, 1, 2] [3] [] = Outcome.returned Status.SUCCESS ([0], r) ∧
      power_operands 4 [0, 1, 2] [3] []
        = Outcome.returned Status.SUCCESS ([0, 1, 2], [0], r) ∧
      forget_base (power_operands 4 [0, 1, 2] [3] []) = power 4 [0, 1, 2] [3] [] ∧
      ([3] : Dlist) ≠ [0] ∧ value r = value [0, 1, 2] ^ (value [3]).toNat :=
  ⟨by decide, by decide, by decide, by decide,
    power_operands_after [0, 1, 2] [3] (by decide) (by decide) (by decide) 4 (by decide)⟩

end APC
